import Mathlib

/-!
# Image perturbation pipeline of `script.js`

A shallow embedding of the core of `script.js`: `convertToDMS`, the camera and
keyword choices of `generateRandomMetadata`, the option reading, canvas sizing,
per-pixel loop, encoding quality and return paths of `processImage`,
`applyEdgeProcessing`, `applyLSBWatermark`, `applyFakeFrequencyDomainWatermark`,
`simulateMultiCompressionCycle` and the per-image loop of the download
handler, followed by theorems about them.

Conventions of the embedding:

* JavaScript numbers are modelled by exact rationals `ℚ`; integers that the
  source obtains from `parseInt`, `Math.floor` or `Math.round` are `ℤ`.
* `ImageData.data` is a `Uint8ClampedArray`.  It is modelled by a `List ℕ` of
  samples; a store converts the stored number with `toUint8Clamp`, a store
  outside the array is dropped (`List.set`), a load outside the array is not
  performed by the source on buffers of `4 * width * height` samples and reads
  as `0` in the model.
* `Math.random()` is a stream `rnd : ℕ → ℚ` of draws; code that draws takes the
  index of the next draw and the draws are consumed in source order.
* A call that can raise returns an `Except`; platform and library functions
  (`canvas.toDataURL`, image loading, `piexif`, `atob`) are parameters.
-/

namespace M3U8Downloader

/-! ## JavaScript primitives -/

/-- The function `Math.floor`. -/
def mathFloor (x : ℚ) : ℤ := ⌊x⌋

/-- The function `Math.round`: the nearest integer, a tie going up. -/
def mathRound (x : ℚ) : ℤ := ⌊x + 1 / 2⌋

/-- The conversion applied by a store into a `Uint8ClampedArray`
(ECMAScript `ToUint8Clamp`): clamp to `[0, 255]`, then round to the nearest
integer, a tie going to the even neighbour. -/
def toUint8Clamp (x : ℚ) : ℕ :=
  if x ≤ 0 then 0
  else if 255 ≤ x then 255
  else
    let f : ℤ := ⌊x⌋
    if (f : ℚ) + 1 / 2 < x then (f + 1).toNat
    else if x < (f : ℚ) + 1 / 2 then f.toNat
    else if f % 2 = 0 then f.toNat
    else (f + 1).toNat

/-- The expression `Math.min(255, Math.max(0, v))`. -/
def clamp255 (v : ℚ) : ℚ := min 255 (max 0 v)

/-- The expression `v % 1`: the remainder of truncated division by one. -/
def fmodOne (v : ℚ) : ℚ := v - (if 0 ≤ v then (⌊v⌋ : ℚ) else (⌈v⌉ : ℚ))

/-- The expression `parseInt(value) || dflt`, the result of `parseInt` given as
`none` for `NaN`: both `NaN` and `0` are falsy and give the default. -/
def parseIntOr (parsed : Option ℤ) (dflt : ℤ) : ℤ :=
  match parsed with
  | none => dflt
  | some v => if v = 0 then dflt else v

/-- The expression `parseFloat(value) || dflt`. -/
def parseFloatOr (parsed : Option ℚ) (dflt : ℚ) : ℚ :=
  match parsed with
  | none => dflt
  | some v => if v = 0 then dflt else v

/-- The expression `value || dflt` on a string that may be absent. -/
def stringOr (value : Option String) (dflt : String) : String :=
  match value with
  | none => dflt
  | some v => if v = "" then dflt else v

/-! ## `convertToDMS` (in `generateRandomMetadata`) -/

/-- The function `convertToDMS`: the three rationals `[numerator, denominator]`
for degrees, minutes and hundredths of seconds. -/
def convertToDMS (coord : ℚ) : (ℤ × ℤ) × (ℤ × ℤ) × (ℤ × ℤ) :=
  let deg := mathFloor coord
  let minTemp := (coord - deg) * 60
  let min := mathFloor minTemp
  let sec := (minTemp - min) * 60 * 100
  ((deg, 1), (min, 1), (mathRound sec, 100))

/-! ## `generateRandomMetadata`: camera and keywords -/

/-- The array `cameraModels`. -/
def cameraModels : List String :=
  ["iPhone 12 Pro", "iPhone 13", "iPhone 14 Pro Max",
    "Samsung Galaxy S21", "Samsung Galaxy S22 Ultra",
    "Huawei P40 Pro", "Xiaomi Mi 11 Ultra",
    "Google Pixel 6 Pro", "Sony Alpha A7 IV", "Canon EOS R5",
    "Nikon Z6 II", "Fujifilm X-T4", "OPPO Find X5 Pro", "vivo X80 Pro",
    "Sony Xperia 1 IV", "OnePlus 10 Pro", "Honor Magic4 Pro"]

/-- The object `manufacturerMap`, as its list of keys and values. -/
def manufacturerMap : List (String × String) :=
  [("iPhone", "Apple"), ("Samsung", "Samsung"), ("Huawei", "Huawei"), ("Xiaomi", "Xiaomi"),
    ("Google", "Google"), ("Sony", "Sony"), ("Canon", "Canon"), ("Nikon", "Nikon"),
    ("Fujifilm", "Fujifilm"), ("OPPO", "OPPO"), ("vivo", "vivo"), ("OnePlus", "OnePlus"),
    ("Honor", "Honor")]

/-- The expression `model.split(' ')[0]`: the text before the first space. -/
def firstWord (model : String) : String := String.mk (model.toList.takeWhile (· ≠ ' '))

/-- The value `manufacturer`:
`manufacturerMap[model.split(' ')[0]] || model.split(' ')[0]`, the map entry
when there is one and it is not the empty string, the first word otherwise. -/
def manufacturer (model : String) : String :=
  match manufacturerMap.lookup (firstWord model) with
  | some name => if name = "" then firstWord model else name
  | none => firstWord model

/-- The camera model chosen by `generateRandomMetadata` with the draw `draw`:
`cameraModels[Math.floor(Math.random() * cameraModels.length)]`, the empty
string standing for `undefined`. -/
def randomCameraModel (draw : ℚ) : String :=
  cameraModels.getD (mathFloor (draw * cameraModels.length)).toNat ""

/-- The array `iptcKeywords`. -/
def iptcKeywords : List String :=
  ["风景", "美食", "旅行", "生活", "时尚", "美妆", "穿搭", "宠物", "手工",
    "音乐", "电影", "读书", "摄影", "健身", "运动", "家居", "园艺", "咖啡",
    "甜品", "设计", "艺术", "手账", "博物馆", "古风", "小清新", "复古", "展览",
    "街拍", "美景", "日落", "日出", "夜景", "花卉", "海边", "山水", "自然",
    "建筑", "创意", "美甲", "下午茶", "网红店", "探店", "露营", "徒步", "自驾游"]

/-- The body of the keyword loop for the draw `draw`: the keyword at the drawn
index is pushed unless the list includes it. -/
def pushKeyword (randomKeywords : List String) (draw : ℚ) : List String :=
  let randomIndex := (mathFloor (draw * iptcKeywords.length)).toNat
  if iptcKeywords.getD randomIndex "" ∈ randomKeywords then randomKeywords
  else randomKeywords ++ [iptcKeywords.getD randomIndex ""]

/-- The list `randomKeywords` built by `generateRandomMetadata`, the draws
being taken from draw `k` on: first `keywordCount`, then one draw for each
iteration. -/
def randomKeywords (rnd : ℕ → ℚ) (k : ℕ) : List String :=
  let keywordCount := (mathFloor (rnd k * 5) + 1).toNat
  (List.range keywordCount).foldl (fun acc i => pushKeyword acc (rnd (k + 1 + i))) []

/-! ## `processImage`: options and canvas sizing -/

/-- The values of the option form elements as `processImage` reads them:
numeric fields after `parseFloat` / `parseInt` (`none` for `NaN`), check boxes
as booleans (`none` when the optional element is absent). -/
structure OptionElements where
  brightness : Option ℚ
  contrast : Option ℚ
  pixelShift : Option ℤ
  noiseLevel : Option ℤ
  watermark : Bool
  modifyMetadata : Bool
  microRotation : Option ℤ
  edgeProcessing : Option String
  colorSpaceTransform : Option Bool
  invisibleWatermark : Option String
  compressionLevel : Option ℤ
  adaptiveProcessing : Option Bool

/-- The `options` object of `processImage`. -/
structure Options where
  brightness : ℚ
  contrast : ℚ
  pixelShift : ℤ
  noiseLevel : ℤ
  watermark : Bool
  modifyMetadata : Bool
  microRotation : ℤ
  edgeProcessing : String
  colorSpaceTransform : Bool
  invisibleWatermark : String
  compressionLevel : ℤ
  adaptiveProcessing : Bool

/-- The construction of `options` in `processImage` (defaults included). -/
def readOptions (e : OptionElements) : Options where
  brightness := parseFloatOr e.brightness 0
  contrast := parseFloatOr e.contrast 0
  pixelShift := parseIntOr e.pixelShift 1
  noiseLevel := parseIntOr e.noiseLevel 2
  watermark := e.watermark || false
  modifyMetadata := e.modifyMetadata || true
  microRotation := parseIntOr e.microRotation 0
  edgeProcessing := stringOr e.edgeProcessing "none"
  colorSpaceTransform := e.colorSpaceTransform.getD false || false
  invisibleWatermark := stringOr e.invisibleWatermark "none"
  compressionLevel := parseIntOr e.compressionLevel 3
  adaptiveProcessing := e.adaptiveProcessing.getD false || false

/-- The number of draws `processImage` makes before sizing the output canvas:
one in `applyMicroRotation` when `microRotation > 0`, none otherwise. -/
def drawsBeforeSizing (o : Options) : ℕ := if o.microRotation > 0 then 1 else 0

/-- The `widthOffset` (and, with the next draw, `heightOffset`) of `processImage`. -/
def sizeOffset (draw : ℚ) (pixelShift : ℤ) : ℤ := mathFloor (draw * 3) + pixelShift

/-- The width and height given to the output canvas by `processImage` for an
image of `imgWidth × imgHeight`. -/
def outputCanvasSize (imgWidth imgHeight : ℕ) (o : Options) (rnd : ℕ → ℚ) : ℤ × ℤ :=
  let k := drawsBeforeSizing o
  let widthOffset := sizeOffset (rnd k) o.pixelShift
  let heightOffset := sizeOffset (rnd (k + 1)) o.pixelShift
  ((imgWidth : ℤ) + widthOffset, (imgHeight : ℤ) + heightOffset)

/-! ## `processImage`: the per-pixel loop -/

/-- The adjustments drawn for one region. -/
structure Adjustments where
  contrast : ℚ
  brightness : ℚ
  noise : ℚ

/-- One entry of the `regions` array. -/
structure Region where
  x : ℕ
  y : ℕ
  width : ℕ
  height : ℕ
  adjustments : Adjustments

/-- The construction of `regions` when `adaptiveProcessing` is on: nine regions
of `Math.floor(width / 3) × Math.floor(height / 3)` pixels, pushed row by row,
each drawing its contrast, brightness and noise in that order, starting at
draw `k`. -/
def buildRegions (canvasWidth canvasHeight : ℕ) (noiseLevel : ℤ) (rnd : ℕ → ℚ) (k : ℕ) :
    List Region :=
  let regionWidth := canvasWidth / 3
  let regionHeight := canvasHeight / 3
  (List.range 3).flatMap fun y =>
    (List.range 3).map fun x =>
      let d := k + 3 * (3 * y + x)
      { x := x * regionWidth
        y := y * regionHeight
        width := regionWidth
        height := regionHeight
        adjustments :=
          { contrast := (rnd d - 1 / 2) * (1 / 10)
            brightness := (rnd (d + 1) - 1 / 2) * (1 / 10)
            noise := rnd (d + 2) * noiseLevel * (3 / 10) } }

/-- The membership test of the region loop:
`x >= region.x && x < region.x + region.width && y >= region.y && y < region.y + region.height`. -/
def inRegion (region : Region) (x y : ℕ) : Bool :=
  decide (x ≥ region.x) && decide (x < region.x + region.width) &&
    decide (y ≥ region.y) && decide (y < region.y + region.height)

/-- The state of the per-pixel loop: the sample array, the numbers assigned to
its elements so far (most recent first, as computed, before the conversion of
the store), and the number of draws consumed. -/
structure PassState where
  data : List ℕ
  written : List ℚ
  draws : ℕ

/-- The load `data[i]`. -/
def PassState.get (s : PassState) (i : ℕ) : ℚ := ((s.data.getD i 0 : ℕ) : ℚ)

/-- The store `data[i] = v`. -/
def PassState.put (s : PassState) (i : ℕ) (v : ℚ) : PassState :=
  { s with data := s.data.set i (toUint8Clamp v), written := v :: s.written }

/-- One call of `Math.random()`. -/
def PassState.random (rnd : ℕ → ℚ) (s : PassState) : ℚ × PassState :=
  (rnd s.draws, { s with draws := s.draws + 1 })

/-- Loop body, "基础亮度调整": brightness. -/
def brightnessStep (o : Options) (i : ℕ) (s : PassState) : PassState :=
  let s := s.put i (clamp255 (s.get i + o.brightness * 40))
  let s := s.put (i + 1) (clamp255 (s.get (i + 1) + o.brightness * 40))
  s.put (i + 2) (clamp255 (s.get (i + 2) + o.brightness * 40))

/-- Loop body, "基础对比度调整": contrast. -/
def contrastStep (o : Options) (i : ℕ) (s : PassState) : PassState :=
  let factor := (259 * (o.contrast * 8 + 255)) / (255 * (259 - o.contrast * 8))
  let s := s.put i (clamp255 (factor * (s.get i - 128) + 128))
  let s := s.put (i + 1) (clamp255 (factor * (s.get (i + 1) - 128) + 128))
  s.put (i + 2) (clamp255 (factor * (s.get (i + 2) - 128) + 128))

/-- The value `factor` of the contrast step, as a function of `options.contrast`:
`(259 * (contrast * 8 + 255)) / (255 * (259 - contrast * 8))`. -/
def contrastFactor (contrast : ℚ) : ℚ :=
  (259 * (contrast * 8 + 255)) / (255 * (259 - contrast * 8))

/-- Loop body, "添加随机噪点": one noise value shared by the three channels. -/
def noiseStep (o : Options) (rnd : ℕ → ℚ) (i : ℕ) (s : PassState) : PassState :=
  if o.noiseLevel > 0 then
    let (u, s) := s.random rnd
    let noise := (u - 1 / 2) * o.noiseLevel * 2
    let s := s.put i (clamp255 (s.get i + noise))
    let s := s.put (i + 1) (clamp255 (s.get (i + 1) + noise))
    s.put (i + 2) (clamp255 (s.get (i + 2) + noise))
  else s

/-- Loop body, "应用微小的颜色通道偏移": the per-image channel offsets. -/
def channelStep (redAdjust greenAdjust blueAdjust : ℚ) (i : ℕ) (s : PassState) : PassState :=
  let s := s.put i (clamp255 (s.get i + redAdjust))
  let s := s.put (i + 1) (clamp255 (s.get (i + 1) + greenAdjust))
  s.put (i + 2) (clamp255 (s.get (i + 2) + blueAdjust))

/-- The expression `Math.random() < 0.5 ? -1 : 1`. -/
def plusMinusOne (u : ℚ) : ℚ := if u < 1 / 2 then -1 else 1

/-- Loop body, "对特定像素进行微调": the pixels of `uniquePixels` move by one. -/
def uniqueStep (uniquePixels : List ℕ) (rnd : ℕ → ℚ) (i : ℕ) (s : PassState) : PassState :=
  if i ∈ uniquePixels then
    let (u, s) := s.random rnd
    let s := s.put i (clamp255 (s.get i + plusMinusOne u))
    let (u, s) := s.random rnd
    let s := s.put (i + 1) (clamp255 (s.get (i + 1) + plusMinusOne u))
    let (u, s) := s.random rnd
    s.put (i + 2) (clamp255 (s.get (i + 2) + plusMinusOne u))
  else s

/-- The local function `hue2rgb`. -/
def hue2rgb (p q t : ℚ) : ℚ :=
  let t := if t < 0 then t + 1 else t
  let t := if t > 1 then t - 1 else t
  if t < 1 / 6 then p + (q - p) * 6 * t
  else if t < 1 / 2 then q
  else if t < 2 / 3 then p + (q - p) * (2 / 3 - t) * 6
  else p

/-- The hue `h` (before the division by six) chosen by `switch (max)`; the three
cases are tried in order, and the value is left undefined (here `0`) when none
applies, which cannot happen as `max` is one of `r`, `g`, `b`. -/
def hueSector (r g b mx d : ℚ) : ℚ :=
  if mx = r then (g - b) / d + (if g < b then 6 else 0)
  else if mx = g then (b - r) / d + 2
  else if mx = b then (r - g) / d + 4
  else 0

/-- Loop body, colour space transform: RGB to HSL, hue offset, HSL to RGB.
The values stored by the HSL to RGB part are `Math.round(... * 255)`, with no
`Math.min` / `Math.max` around them. -/
def colorSpaceStep (hueAdjust : ℚ) (i : ℕ) (s : PassState) : PassState :=
  let r := s.get i / 255
  let g := s.get (i + 1) / 255
  let b := s.get (i + 2) / 255
  let mx := max (max r g) b
  let mn := min (min r g) b
  let l := (mx + mn) / 2
  let hs : ℚ × ℚ :=
    if mx = mn then (0, 0)
    else
      let d := mx - mn
      let sat := if l > 1 / 2 then d / (2 - mx - mn) else d / (mx + mn)
      (hueSector r g b mx d / 6, sat)
  let h := fmodOne (hs.1 + hueAdjust / 360 + 1)
  let sat := hs.2
  if sat = 0 then
    let v : ℚ := mathRound (l * 255)
    ((s.put (i + 2) v).put (i + 1) v).put i v
  else
    let q := if l < 1 / 2 then l * (1 + sat) else l + sat - l * sat
    let p := 2 * l - q
    let s := s.put i (mathRound (hue2rgb p q (h + 1 / 3) * 255))
    let s := s.put (i + 1) (mathRound (hue2rgb p q h * 255))
    s.put (i + 2) (mathRound (hue2rgb p q (h - 1 / 3) * 255))

/-- The body of the region loop for the region that matched. -/
def applyRegion (region : Region) (rnd : ℕ → ℚ) (i : ℕ) (s : PassState) : PassState :=
  let rBrightness := s.get i * (1 + region.adjustments.brightness)
  let gBrightness := s.get (i + 1) * (1 + region.adjustments.brightness)
  let bBrightness := s.get (i + 2) * (1 + region.adjustments.brightness)
  let regionFactor := (259 * (region.adjustments.contrast * 255 + 255)) /
    (255 * (259 - region.adjustments.contrast * 255))
  let s := s.put i (clamp255 (regionFactor * (rBrightness - 128) + 128))
  let s := s.put (i + 1) (clamp255 (regionFactor * (gBrightness - 128) + 128))
  let s := s.put (i + 2) (clamp255 (regionFactor * (bBrightness - 128) + 128))
  let (u, s) := s.random rnd
  if u < 1 / 10 then
    let (v, s) := s.random rnd
    let regionNoise := (v - 1 / 2) * region.adjustments.noise
    let s := s.put i (clamp255 (s.get i + regionNoise))
    let s := s.put (i + 1) (clamp255 (s.get (i + 1) + regionNoise))
    s.put (i + 2) (clamp255 (s.get (i + 2) + regionNoise))
  else s

/-- Loop body, "应用区域适应性处理": the regions are tried in array order and the
first one whose membership test holds is applied (`break`); a pixel for which no
test holds is left as it is. -/
def regionStep (regions : List Region) (rnd : ℕ → ℚ) (x y i : ℕ) (s : PassState) :
    PassState :=
  match regions.find? (fun region => inRegion region x y) with
  | none => s
  | some region => applyRegion region rnd i s

/-- The per-image values drawn before the per-pixel loop. -/
structure ImageDraws where
  redAdjust : ℚ
  greenAdjust : ℚ
  blueAdjust : ℚ
  hueAdjust : ℚ
  uniquePixels : List ℕ
  regions : List Region
  draws : ℕ

/-- The preparation of the per-pixel loop in `processImage`: the channel
offsets, the hue offset, the `uniquePixels` set and the regions, drawn in this
order from draw `k` on. -/
def prepareDraws (canvasWidth canvasHeight : ℕ) (dataLength : ℕ) (o : Options)
    (rnd : ℕ → ℚ) (k : ℕ) : ImageDraws :=
  let redAdjust := (rnd k - 1 / 2) * (1 / 2)
  let greenAdjust := (rnd (k + 1) - 1 / 2) * (1 / 2)
  let blueAdjust := (rnd (k + 2) - 1 / 2) * (1 / 2)
  let k := k + 3
  let hueAdjust := if o.colorSpaceTransform then (rnd k - 1 / 2) * 4 else 0
  let k := if o.colorSpaceTransform then k + 1 else k
  let pixelCount := (mathFloor ((canvasWidth : ℚ) * canvasHeight * (1 / 1000))).toNat
  let uniquePixels := (List.range pixelCount).map fun n =>
    (mathFloor (rnd (k + n) * ((dataLength : ℚ) / 4))).toNat * 4
  let k := k + pixelCount
  let regions := if o.adaptiveProcessing then
    buildRegions canvasWidth canvasHeight o.noiseLevel rnd k else []
  let k := if o.adaptiveProcessing then k + 27 else k
  { redAdjust := redAdjust, greenAdjust := greenAdjust, blueAdjust := blueAdjust,
    hueAdjust := hueAdjust, uniquePixels := uniquePixels, regions := regions, draws := k }

/-- The body of the per-pixel loop for the pixel number `n` (`i = 4 * n`). -/
def pixelBody (canvasWidth : ℕ) (o : Options) (p : ImageDraws) (rnd : ℕ → ℚ)
    (s : PassState) (n : ℕ) : PassState :=
  let i := 4 * n
  let x := n % canvasWidth
  let y := n / canvasWidth
  let s := brightnessStep o i s
  let s := contrastStep o i s
  let s := noiseStep o rnd i s
  let s := channelStep p.redAdjust p.greenAdjust p.blueAdjust i s
  let s := uniqueStep p.uniquePixels rnd i s
  let s := if o.colorSpaceTransform then colorSpaceStep p.hueAdjust i s else s
  if o.adaptiveProcessing then regionStep p.regions rnd x y i s else s

/-- The per-pixel pass of `processImage` on the samples `data` of a canvas of
`canvasWidth × canvasHeight`, the draws being taken from draw `k` on:
`for (let i = 0; i < data.length; i += 4)`. -/
def pixelPass (canvasWidth canvasHeight : ℕ) (data : List ℕ) (o : Options)
    (rnd : ℕ → ℚ) (k : ℕ) : PassState :=
  let p := prepareDraws canvasWidth canvasHeight data.length o rnd k
  (List.range ((data.length + 3) / 4)).foldl (pixelBody canvasWidth o p rnd)
    { data := data, written := [], draws := p.draws }


/-! ## `processImage`: encoding quality and return paths -/

/-- The computation of `compressionQuality` in `processImage`: the level is
truthy when it is not zero, the `switch` has no default, and the result is
`Math.min(0.99, Math.max(0.7, compressionQuality))`. -/
def compressionQuality (compressionLevel : ℤ) (draw : ℚ) : ℚ :=
  if compressionLevel ≠ 0 then
    let qualityVariation := draw * (4 / 100) - 2 / 100
    let quality : ℚ :=
      if compressionLevel = 1 then 95 / 100 + qualityVariation
      else if compressionLevel = 2 then 90 / 100 + qualityVariation
      else if compressionLevel = 3 then 85 / 100 + qualityVariation
      else if compressionLevel = 4 then 80 / 100 + qualityVariation
      else if compressionLevel = 5 then 75 / 100 + qualityVariation
      else 92 / 100
    min (99 / 100) (max (7 / 10) quality)
  else 92 / 100

/-- What a call hands back to its caller: a string, or a `Promise` (given with
the string it is resolved with). -/
inductive Returned where
  | text (dataUrl : String)
  | promise (resolved : String)
  deriving DecidableEq

/-- The calls of the return paths of `processImage` that the statements speak of. -/
inductive Call where
  | generateRandomMetadata
  | piexifRemove
  | piexifDump
  | piexifInsert
  | simulateMultiCompressionCycle
  deriving DecidableEq

/-- The library `piexif` when it is loaded; its functions return or raise. -/
structure Piexif (μ : Type) where
  remove : String → Except String String
  dump : μ → Except String String
  insert : String → String → Except String String

/-- An image loaded from a data URL and drawn on a canvas of its size. -/
structure DecodedImage where
  width : ℕ
  height : ℕ
  data : List ℕ

/-- One iteration of the loop "对少量随机像素进行修改" of
`simulateMultiCompressionCycle`, on the samples and the index of the next draw. -/
def perturbRandomPixel (rnd : ℕ → ℚ) (st : List ℕ × ℕ) : List ℕ × ℕ :=
  let data := st.1
  let k := st.2
  let pixelIndex := (mathFloor (rnd k * ((data.length : ℚ) / 4))).toNat * 4
  if pixelIndex + 2 < data.length then
    let data := data.set pixelIndex
      (toUint8Clamp (clamp255 ((data.getD pixelIndex 0 : ℚ) + plusMinusOne (rnd (k + 1)))))
    let data := data.set (pixelIndex + 1)
      (toUint8Clamp (clamp255 ((data.getD (pixelIndex + 1) 0 : ℚ) + plusMinusOne (rnd (k + 2)))))
    let data := data.set (pixelIndex + 2)
      (toUint8Clamp (clamp255 ((data.getD (pixelIndex + 2) 0 : ℚ) + plusMinusOne (rnd (k + 3)))))
    (data, k + 4)
  else (data, k + 1)

/-- The pixels and the quality that `simulateMultiCompressionCycle` encodes when
the image has loaded: about one pixel in a thousand moved by one, then
`compressionQuality = 0.75 + Math.random() * 0.15`. -/
def secondPass (img : DecodedImage) (rnd : ℕ → ℚ) (k : ℕ) : List ℕ × ℚ :=
  let pixelCount := (mathFloor ((img.width : ℚ) * img.height * (1 / 1000))).toNat
  let st := (List.range pixelCount).foldl (fun st _ => perturbRandomPixel rnd st) (img.data, k)
  (st.1, 3 / 4 + rnd st.2 * (15 / 100))

/-- The string the `Promise` of `simulateMultiCompressionCycle` is resolved
with: the second encode when the image loads (`img.onload`), the string it was
given when it does not (`img.onerror`).  The loading and drawing of a data URL
and `canvas.toDataURL` are given as `decode` and `encode`. -/
def simulateMultiCompressionCycle (decode : String → Option DecodedImage)
    (encode : ℕ → ℕ → List ℕ → ℚ → String) (jpegData : String) (rnd : ℕ → ℚ) (k : ℕ) :
    String :=
  match decode jpegData with
  | none => jpegData
  | some img =>
    let p := secondPass img rnd k
    encode img.width img.height p.1 p.2

/-- The return paths of `processImage` once `jpegData` is encoded: the value
handed back and the calls made, in order.  `piexif` is `none` when
`typeof piexif === 'undefined'`; `generate` is the outcome of
`generateRandomMetadata()`. -/
def processImageReturn {μ : Type} (o : Options) (jpegData : String)
    (piexif : Option (Piexif μ)) (generate : Except String μ)
    (decode : String → Option DecodedImage) (encode : ℕ → ℕ → List ℕ → ℚ → String)
    (rnd : ℕ → ℚ) (k : ℕ) : Returned × List Call :=
  if o.compressionLevel ≥ 4 then
    (Returned.promise (simulateMultiCompressionCycle decode encode jpegData rnd k),
      [Call.simulateMultiCompressionCycle])
  else if o.modifyMetadata then
    match piexif with
    | none => (Returned.text jpegData, [])
    | some lib =>
      match generate with
      | Except.error _ => (Returned.text jpegData, [Call.generateRandomMetadata])
      | Except.ok metadata =>
        match lib.remove jpegData with
        | Except.error _ =>
          (Returned.text jpegData, [Call.generateRandomMetadata, Call.piexifRemove])
        | Except.ok jpegBinary =>
          match lib.dump metadata with
          | Except.error _ =>
            (Returned.text jpegData,
              [Call.generateRandomMetadata, Call.piexifRemove, Call.piexifDump])
          | Except.ok exifBytes =>
            match lib.insert exifBytes jpegBinary with
            | Except.error _ =>
              (Returned.text jpegData,
                [Call.generateRandomMetadata, Call.piexifRemove, Call.piexifDump,
                  Call.piexifInsert])
            | Except.ok newJpegData =>
              (Returned.text newJpegData,
                [Call.generateRandomMetadata, Call.piexifRemove, Call.piexifDump,
                  Call.piexifInsert])
  else (Returned.text jpegData, [])

/-- The argument `img` of `processImage`. -/
structure ImageElement where
  width : ℕ
  height : ℕ

/-- The function `processImage`: the check of the input, then the stages up to
`canvas.toDataURL`, whose outcome (the encoded `jpegData`, or the error they
raise) is given as `rendered`, then the return paths. -/
def processImage {μ : Type} (img : Option ImageElement) (o : Options)
    (rendered : Except String String) (piexif : Option (Piexif μ))
    (generate : Except String μ) (decode : String → Option DecodedImage)
    (encode : ℕ → ℕ → List ℕ → ℚ → String) (rnd : ℕ → ℚ) (k : ℕ) :
    Except String (Returned × List Call) :=
  match img with
  | none => Except.error "无效的图片输入"
  | some image =>
    if image.width = 0 ∨ image.height = 0 then Except.error "无效的图片输入"
    else
      match rendered with
      | Except.error e => Except.error e
      | Except.ok jpegData =>
        Except.ok (processImageReturn o jpegData piexif generate decode encode rnd k)

/-! ## The download handler -/

/-- The expression `processedDataUrl.replace(/^data:image\/jpeg;base64,/, '')`
on a string. -/
def stripJpegHeader (dataUrl : String) : String :=
  if "data:image/jpeg;base64,".toList.isPrefixOf dataUrl.toList then
    String.mk (dataUrl.toList.drop "data:image/jpeg;base64,".length)
  else dataUrl

/-- The body of the `try` of the per-image loop of the download handler, for
an image called `name` whose call of `processImage` had the outcome
`processed`: the entry given to `zip.file`, or `none` when the body raised.
The result of `processImage` is used as a string at once, so a `Promise`
raises a `TypeError` at `.replace`; `atob` raises on a string that is not
base64. -/
def downloadEntry (atob : String → Except String (List ℕ)) (name : String)
    (processed : Except String Returned) : Option (String × List ℕ) :=
  match processed with
  | Except.error _ => none
  | Except.ok (Returned.promise _) => none
  | Except.ok (Returned.text processedDataUrl) =>
    match atob (stripJpegHeader processedDataUrl) with
    | Except.error _ => none
    | Except.ok array => some ("processed_" ++ name, array)

/-- The per-image loop of the download handler over `uploadedImages`, each
given as its name and the outcome of its call of `processImage`: the entries
given to `zip.file`, in order. -/
def downloadLoop (atob : String → Except String (List ℕ))
    (uploadedImages : List (String × Except String Returned)) : List (String × List ℕ) :=
  uploadedImages.foldl
    (fun zip image =>
      match downloadEntry atob image.1 image.2 with
      | none => zip
      | some entry => zip ++ [entry])
    []

/-! ## `applyEdgeProcessing`, case `'blur'` -/

/-- The constant `edgeThickness`. -/
def edgeThickness : ℤ := 5

/-- The test "检查是否在边缘区域":
`x < edgeThickness || x >= width - edgeThickness || y < edgeThickness || y >= height - edgeThickness`. -/
def inEdgeBand (width height x y : ℕ) : Bool :=
  decide ((x : ℤ) < edgeThickness) || decide ((x : ℤ) ≥ (width : ℤ) - edgeThickness) ||
    decide ((y : ℤ) < edgeThickness) || decide ((y : ℤ) ≥ (height : ℤ) - edgeThickness)

/-- The pairs `(dy, dx)` in the order of the loops
`for (dy = -1; dy <= 1; dy++) for (dx = -1; dx <= 1; dx++)`. -/
def neighbourOffsets : List (ℤ × ℤ) :=
  [(-1, -1), (-1, 0), (-1, 1), (0, -1), (0, 0), (0, 1), (1, -1), (1, 0), (1, 1)]

/-- The accumulators `r`, `g`, `b`, `count` of the blur. -/
structure BlurSum where
  r : ℕ
  g : ℕ
  b : ℕ
  count : ℕ

/-- The loop "采样3x3区域" at the pixel `(x, y)`: the sums of the red, green and
blue samples that the in-bounds neighbours hold in `data`, and their number. -/
def sampleNeighbours (width height : ℕ) (data : List ℕ) (x y : ℕ) : BlurSum :=
  neighbourOffsets.foldl
    (fun acc d =>
      let nx : ℤ := (x : ℤ) + d.2
      let ny : ℤ := (y : ℤ) + d.1
      if nx ≥ 0 ∧ nx < (width : ℤ) ∧ ny ≥ 0 ∧ ny < (height : ℤ) then
        let ni := (ny.toNat * width + nx.toNat) * 4
        { r := acc.r + data.getD ni 0
          g := acc.g + data.getD (ni + 1) 0
          b := acc.b + data.getD (ni + 2) 0
          count := acc.count + 1 }
      else acc)
    { r := 0, g := 0, b := 0, count := 0 }

/-- The body of the blur loops at the pixel `(x, y)`: the neighbours are read
from the array that is being written. -/
def blurPixel (width height : ℕ) (data : List ℕ) (x y : ℕ) : List ℕ :=
  if inEdgeBand width height x y then
    let i := (y * width + x) * 4
    let acc := sampleNeighbours width height data x y
    if acc.count > 0 then
      let data := data.set i (toUint8Clamp ((acc.r : ℚ) / acc.count))
      let data := data.set (i + 1) (toUint8Clamp ((acc.g : ℚ) / acc.count))
      data.set (i + 2) (toUint8Clamp ((acc.b : ℚ) / acc.count))
    else data
  else data

/-- The case `'blur'` of `applyEdgeProcessing` on the samples `fullData.data` of
a canvas of `width × height`: rows from top to bottom, each from left to right. -/
def applyEdgeBlur (width height : ℕ) (data : List ℕ) : List ℕ :=
  (List.range height).foldl
    (fun data y => (List.range width).foldl (fun data x => blurPixel width height data x y) data)
    data

/-- The mean, as an 8-bit store keeps it, of channel `c` over the in-bounds
3x3 neighbours of `(x, y)`, all read from the one array `original`. -/
def neighbourMean (width height : ℕ) (original : List ℕ) (x y c : ℕ) : ℕ :=
  let acc := sampleNeighbours width height original x y
  toUint8Clamp ((([acc.r, acc.g, acc.b].getD c 0 : ℕ) : ℚ) / acc.count)

/-! ## Canvas pixel access used by `applyEdgeProcessing`

The 2D context methods are platform functions.  They are modelled on the
sample array of the canvas as the HTML standard describes them, the canvas
keeping the four samples of a pixel as they are stored. -/

/-- The call `ctx.getImageData(sx, sy, sw, sh)` on a canvas of
`width × height` with samples `data`: an `IndexSizeError` when `sw` or `sh` is
zero; otherwise the width, height and samples of the rectangle, a negative
extent reaching to the left of (above) the origin, and a pixel outside the
canvas reading as transparent black. -/
def getImageData (width height : ℕ) (data : List ℕ) (sx sy sw sh : ℤ) :
    Except String (ℕ × ℕ × List ℕ) :=
  if sw = 0 ∨ sh = 0 then Except.error "IndexSizeError"
  else
    let x0 : ℤ := if sw < 0 then sx + sw else sx
    let y0 : ℤ := if sh < 0 then sy + sh else sy
    let w := sw.natAbs
    let h := sh.natAbs
    Except.ok (w, h, (List.range (4 * w * h)).map fun idx =>
      let x : ℤ := x0 + ((idx / 4 % w : ℕ) : ℤ)
      let y : ℤ := y0 + ((idx / 4 / w : ℕ) : ℤ)
      if 0 ≤ x ∧ x < (width : ℤ) ∧ 0 ≤ y ∧ y < (height : ℤ) then
        data.getD ((y.toNat * width + x.toNat) * 4 + idx % 4) 0
      else 0)

/-- The call `ctx.clearRect(0, 0, width, height)` on a canvas of
`width × height`: every pixel becomes transparent black. -/
def clearRect (width height : ℕ) : List ℕ := List.replicate (4 * width * height) 0

/-- The call `ctx.putImageData(imageData, dx, dy)` for an image of
`imageWidth × imageHeight` with samples `image`, on a canvas of
`width × height` with samples `canvas`: the pixels of the canvas covered by
the image take its samples, the others keep theirs. -/
def putImageData (width height : ℕ) (canvas : List ℕ) (imageWidth imageHeight : ℕ)
    (image : List ℕ) (dx dy : ℤ) : List ℕ :=
  (List.range (4 * width * height)).map fun idx =>
    let x : ℤ := ((idx / 4 % width : ℕ) : ℤ)
    let y : ℤ := ((idx / 4 / width : ℕ) : ℤ)
    if dx ≤ x ∧ x < dx + imageWidth ∧ dy ≤ y ∧ y < dy + imageHeight then
      image.getD (((y - dy).toNat * imageWidth + (x - dx).toNat) * 4 + idx % 4) 0
    else canvas.getD idx 0

/-! ## `applyEdgeProcessing`, cases `'crop'` and `'sharpen'`, and the dispatch -/

/-- The number `cropPixels = Math.floor(Math.random() * 3) + 1`. -/
def cropPixels (draw : ℚ) : ℤ := mathFloor (draw * 3) + 1

/-- The case `'crop'` of `applyEdgeProcessing`: read the rectangle that leaves
`cropPixels` pixels out on every side, clear the canvas, put the rectangle back
at `(cropPixels, cropPixels)`. -/
def applyEdgeCrop (width height : ℕ) (data : List ℕ) (draw : ℚ) : Except String (List ℕ) :=
  let c := cropPixels draw
  match getImageData width height data c c ((width : ℤ) - c * 2) ((height : ℤ) - c * 2) with
  | Except.error e => Except.error e
  | Except.ok (w, h, imageData) =>
    let cleared := clearRect width height
    Except.ok (putImageData width height cleared w h imageData c c)

/-- The expression `Math.min(255, Math.max(0, val))` for an integer `val`, as
the store keeps it. -/
def clampByte (val : ℤ) : ℕ := (min 255 (max 0 val)).toNat

/-- The body of the sharpen loops at the pixel `(x, y)` with `x, y ≥ 1`: for
each of the three colour channels the Laplacian value is computed from the
copy `tempData` and stored in `data` when the pixel is in the border band. -/
def sharpenPixel (width height : ℕ) (tempData data : List ℕ) (x y : ℕ) : List ℕ :=
  let i := (y * width + x) * 4
  (List.range 3).foldl
    (fun data c =>
      let val : ℤ := 5 * (tempData.getD (i + c) 0 : ℤ)
        - (tempData.getD (i - 4 + c) 0 : ℤ)
        - (tempData.getD (i + 4 + c) 0 : ℤ)
        - (tempData.getD (i - width * 4 + c) 0 : ℤ)
        - (tempData.getD (i + width * 4 + c) 0 : ℤ)
      if inEdgeBand width height x y then data.set (i + c) (clampByte val) else data)
    data

/-- The case `'sharpen'` of `applyEdgeProcessing` on the samples of a canvas of
`width × height`: `tempData` is a copy of the samples made before the loops
`for (y = 1; y < height - 1; y++) for (x = 1; x < width - 1; x++)`. -/
def applyEdgeSharpen (width height : ℕ) (data : List ℕ) : List ℕ :=
  let tempData := data
  (List.range' 1 (height - 2)).foldl
    (fun data y =>
      (List.range' 1 (width - 2)).foldl
        (fun data x => sharpenPixel width height tempData data x y) data)
    data

/-- The function `applyEdgeProcessing` on the samples of a canvas of
`width × height` (both at least one), the next draw being draw `k`.  The case
`'blur'` first reads `centerData`, which raises an `IndexSizeError` when the
width or the height is `2 * edgeThickness`. -/
def applyEdgeProcessing (width height : ℕ) (data : List ℕ) (processingType : String)
    (rnd : ℕ → ℚ) (k : ℕ) : Except String (List ℕ) :=
  if processingType = "crop" then applyEdgeCrop width height data (rnd k)
  else if processingType = "blur" then
    match getImageData width height data edgeThickness edgeThickness
        ((width : ℤ) - edgeThickness * 2) ((height : ℤ) - edgeThickness * 2) with
    | Except.error e => Except.error e
    | Except.ok _ => Except.ok (applyEdgeBlur width height data)
  else if processingType = "sharpen" then Except.ok (applyEdgeSharpen width height data)
  else Except.ok data

/-! ## `applyLSBWatermark` -/

/-- The expression `n.toString(2)`: the binary digits of `n`, most significant first. -/
def toBinaryString (n : ℕ) : List Char := Nat.toDigits 2 n

/-- The expression `str.padStart(len, '0')`. -/
def padStart (len : ℕ) (str : List Char) : List Char :=
  List.replicate (len - str.length) '0' ++ str

/-- The operand `parseInt(bits[j])` of a bitwise or, for a character of a binary
string: `1` for the digit one, `0` for the digit zero (and for an absent
character, whose `NaN` a bitwise or reads as `0`). -/
def parseBit (c : Option Char) : ℕ := if c = some '1' then 1 else 0

/-- The assignment `data[pixelIndex] = (data[pixelIndex] & 0xFE) | bit`.  The
number assigned is an integer of `[0, 255]`, which the store keeps as it is. -/
def writeLSB (data : List ℕ) (pixelIndex : ℕ) (bit : ℕ) : List ℕ :=
  data.set pixelIndex ((data.getD pixelIndex 0 &&& 0xFE) ||| bit)

/-- The loop "存储长度": the sixteen characters of `lengthBits` go to the red
samples of the pixels `0 .. 15`. -/
def embedLength (data : List ℕ) (lengthBits : List Char) : List ℕ :=
  (List.range 16).foldl
    (fun data i =>
      let pixelIndex := i * 4
      writeLSB data pixelIndex (parseBit lengthBits[i]?))
    data

/-- The inner loop of "存储水印数据" for one byte, on the pair of the sample
array and `bitIndex`: `bitIndex` is incremented before it is used. -/
def embedByte (st : List ℕ × ℕ) (byte : ℕ) : List ℕ × ℕ :=
  let bits := padStart 8 (toBinaryString byte)
  (List.range 8).foldl
    (fun st j =>
      let bitIndex := st.2 + 1
      let pixelIndex := (16 + bitIndex) * 4
      (if pixelIndex < st.1.length then writeLSB st.1 pixelIndex (parseBit bits[j]?) else st.1,
        bitIndex))
    st

/-- The body of `applyLSBWatermark` after the conversion of the text to bytes:
the length header, then the bytes, `bitIndex` starting at `0`. -/
def embedWatermark (data : List ℕ) (watermarkBytes : List ℕ) : List ℕ :=
  let bytesLength := watermarkBytes.length
  let lengthBits := padStart 16 (toBinaryString bytesLength)
  let data := embedLength data lengthBits
  (watermarkBytes.foldl embedByte (data, 0)).1

/-- The bytes of `watermarkText`, the text `XHS` followed by the decimal digits
of the time `now` in milliseconds. -/
def watermarkBytes (now : ℕ) : List ℕ :=
  ("XHS" ++ toString now).toList.map Char.toNat

/-- The function `applyLSBWatermark`, the time read by `new Date().getTime()`
given as `now`. -/
def applyLSBWatermark (data : List ℕ) (now : ℕ) : List ℕ :=
  embedWatermark data (watermarkBytes now)

/-! ## `applyFakeFrequencyDomainWatermark` -/

/-- The constant `blockSize`. -/
def blockSize : ℕ := 8

/-- The constant `watermarkBits`. -/
def watermarkBits : ℕ := 32

/-- The array `pseudoRandomSequence`: `watermarkBits` draws from draw `k` on,
each `Math.floor(Math.random() * 1000)`. -/
def pseudoRandomSequence (rnd : ℕ → ℚ) (k : ℕ) : List ℤ :=
  (List.range watermarkBits).map fun i => mathFloor (rnd (k + i) * 1000)

/-- The values taken by the variable of a loop
`for (x = 0; x < extent - blockSize; x += blockSize)`. -/
def blockStarts (extent : ℕ) : List ℕ :=
  (List.range ((extent - blockSize + (blockSize - 1)) / blockSize)).map fun j => j * blockSize

/-- The value `mod = seqIdx % 4 - 2` for the draw `draw` that picks the entry
of the sequence; the remainder is the one of truncated division. -/
def blockDelta (seq : List ℤ) (draw : ℚ) : ℤ :=
  let seqIdx := seq.getD (mathFloor (draw * watermarkBits)).toNat 0
  Int.tmod seqIdx 4 - 2

/-- The body of the block loops for the block of origin `(x, y)`, on the
samples and the index of the next draw. -/
def watermarkBlock (width : ℕ) (seq : List ℤ) (rnd : ℕ → ℚ) (st : List ℕ × ℕ) (x y : ℕ) :
    List ℕ × ℕ :=
  let data := st.1
  let k := st.2
  if rnd k < 2 / 10 then
    let centerX := x + 4
    let centerY := y + 4
    let centerIdx := (centerY * width + centerX) * 4
    let delta := blockDelta seq (rnd (k + 1))
    if centerIdx + 4 < data.length then
      let data := data.set centerIdx (clampByte ((data.getD centerIdx 0 : ℤ) + delta))
      let data := data.set (centerIdx + 1)
        (clampByte ((data.getD (centerIdx + 1) 0 : ℤ) - delta))
      let data := data.set (centerIdx + 2)
        (clampByte ((data.getD (centerIdx + 2) 0 : ℤ) + delta))
      (data, k + 2)
    else (data, k + 2)
  else (data, k + 1)

/-- The function `applyFakeFrequencyDomainWatermark` on the samples of a
canvas of `width × height`, the draws being taken from draw `k` on: the
sequence first, then the blocks row by row. -/
def applyFakeFrequencyDomainWatermark (width height : ℕ) (data : List ℕ) (rnd : ℕ → ℚ)
    (k : ℕ) : List ℕ :=
  let seq := pseudoRandomSequence rnd k
  ((blockStarts height).foldl
    (fun st y =>
      (blockStarts width).foldl (fun st x => watermarkBlock width seq rnd st x y) st)
    (data, k + watermarkBits)).1

/-! ## Reading the LSB format back -/

/-- The least significant bit of the red sample of a pixel. -/
def redLSB (data : List ℕ) (pixel : ℕ) : ℕ := data.getD (pixel * 4) 0 % 2

/-- The number whose binary digits, most significant first, are `bits`. -/
def ofBitsBE (bits : List ℕ) : ℕ := bits.foldl (fun acc b => 2 * acc + b) 0

/-- The big-endian unsigned 16-bit integer held by the red least significant
bits of the pixels `0 .. 15`. -/
def readLength (data : List ℕ) : ℕ := ofBitsBE ((List.range 16).map (redLSB data))

/-- The byte held, most significant bit first, by the red least significant
bits of the eight pixels from `first` on. -/
def readByte (data : List ℕ) (first : ℕ) : ℕ :=
  ofBitsBE ((List.range 8).map fun j => redLSB data (first + j))

/-- The fixed decoder: read the length `L` from the pixels `0 .. 15`, then `L`
bytes from the pixels `17 .. 16 + 8 * L`. -/
def decodeWatermark (data : List ℕ) : List ℕ :=
  (List.range (readLength data)).map fun k => readByte data (17 + 8 * k)

/-- Bit `j` of a byte, `j = 0` being the most significant of its eight bits. -/
def byteBit (byte j : ℕ) : ℕ := byte / 2 ^ (7 - j) % 2

/-- The `e` low binary digits of `n` as characters, most significant first. -/
def msbDigits (e n : ℕ) : List Char :=
  (List.range e).map fun i => Nat.digitChar (n / 2 ^ (e - 1 - i) % 2)

/-- A sequence of red-sample bit writes `(pixelIndex, bit)`, applied in order. -/
def applyWrites (data : List ℕ) (ws : List (ℕ × ℕ)) : List ℕ :=
  ws.foldl (fun d w => writeLSB d w.1 w.2) data

/-- The writes of the byte loop for one byte when `bitIndex` is `c` on entry. -/
def byteWrites (c byte : ℕ) : List (ℕ × ℕ) :=
  (List.range 8).map fun j =>
    ((16 + (c + j + 1)) * 4, parseBit (padStart 8 (toBinaryString byte))[j]?)

/-- The writes of the byte loop for a list of bytes when `bitIndex` is `c` on entry. -/
def payloadWrites : ℕ → List ℕ → List (ℕ × ℕ)
  | _, [] => []
  | c, byte :: rest => byteWrites c byte ++ payloadWrites (c + 8) rest

/-! ## References of the edge treatments, after the specification -/

/-- The reference of the sharpening at the sample `idx` of a canvas of
`width × height` with samples `original`: a colour sample of a pixel `(x, y)`
with `1 ≤ x ≤ width - 2` and `1 ≤ y ≤ height - 2` that lies in the border band
of five pixels becomes `clamp(5 * center - left - right - up - down, 0, 255)`
computed from `original`, the clamp written out (`0` below `0`, `255` above
`255`, the value itself in between); every other sample is the one of
`original`. -/
def sharpenReference (width height : ℕ) (original : List ℕ) (idx : ℕ) : ℕ :=
  let x := idx / 4 % width
  let y := idx / 4 / width
  let c := idx % 4
  if c < 3 ∧ 1 ≤ x ∧ x + 2 ≤ width ∧ 1 ≤ y ∧ y + 2 ≤ height ∧
      (x < 5 ∨ width ≤ x + 5 ∨ y < 5 ∨ height ≤ y + 5) then
    let val : ℤ := 5 * (original.getD idx 0 : ℤ)
      - (original.getD (idx - 4) 0 : ℤ)
      - (original.getD (idx + 4) 0 : ℤ)
      - (original.getD (idx - width * 4) 0 : ℤ)
      - (original.getD (idx + width * 4) 0 : ℤ)
    if val < 0 then 0 else if 255 < val then 255 else val.toNat
  else original.getD idx 0

/-- The reference of the crop by `c` pixels at the sample `idx` of a canvas of
`width × height` with samples `original`: the pixels `(x, y)` with
`c ≤ x < width - c` and `c ≤ y < height - c` keep their four samples, all the
samples of the other pixels are `0`. -/
def cropReference (width height : ℕ) (original : List ℕ) (c : ℕ) (idx : ℕ) : ℕ :=
  let x := idx / 4 % width
  let y := idx / 4 / width
  if c ≤ x ∧ x + c < width ∧ c ≤ y ∧ y + c < height then original.getD idx 0 else 0

/-! ## Reference of the frequency-domain watermark, after the specification -/

/-- The origins `(x, y)` of the candidate blocks of a canvas of
`width × height`, row by row. -/
def blockOrigins (width height : ℕ) : List (ℕ × ℕ) :=
  (blockStarts height).flatMap fun y => (blockStarts width).map fun x => (x, y)

/-- The decisions of the draws for a list of blocks, from draw `k` on: each
block with `none` when it is not selected (one draw) and with its `delta` when
it is (two draws). -/
def blockPlan (seq : List ℤ) (rnd : ℕ → ℚ) : ℕ → List (ℕ × ℕ) → List ((ℕ × ℕ) × Option ℤ)
  | _, [] => []
  | k, b :: rest =>
    if rnd k < 2 / 10 then (b, some (blockDelta seq (rnd (k + 1)))) :: blockPlan seq rnd (k + 2) rest
    else (b, none) :: blockPlan seq rnd (k + 1) rest

/-- The writes of the block loops for one decided block: none for a block that
is not selected, the three colour samples of the centre pixel for a selected
one whose centre passes the test `centerIdx + 4 < data.length`. -/
def applyPlanEntry (width : ℕ) (data : List ℕ) (e : (ℕ × ℕ) × Option ℤ) : List ℕ :=
  match e.2 with
  | none => data
  | some delta =>
    let centerIdx := ((e.1.2 + 4) * width + (e.1.1 + 4)) * 4
    if centerIdx + 4 < data.length then
      let data := data.set centerIdx (clampByte ((data.getD centerIdx 0 : ℤ) + delta))
      let data := data.set (centerIdx + 1)
        (clampByte ((data.getD (centerIdx + 1) 0 : ℤ) - delta))
      data.set (centerIdx + 2) (clampByte ((data.getD (centerIdx + 2) 0 : ℤ) + delta))
    else data

/-- The decisions of `applyFakeFrequencyDomainWatermark` for the candidate
blocks of a canvas of `width × height`, the draws being taken from draw `k` on. -/
def watermarkPlan (width height : ℕ) (rnd : ℕ → ℚ) (k : ℕ) : List ((ℕ × ℕ) × Option ℤ) :=
  blockPlan (pseudoRandomSequence rnd k) rnd (k + watermarkBits) (blockOrigins width height)

/-- The `delta` of the block of origin `(x, y)` in a plan, `none` when the block
is not in the plan or not selected. -/
def planDelta (plan : List ((ℕ × ℕ) × Option ℤ)) (x y : ℕ) : Option ℤ :=
  match plan.find? (fun e => decide (e.1 = (x, y))) with
  | some e => e.2
  | none => none

/-- The reference of the frequency-domain watermark at the sample `idx` of a
canvas of `width × height` with samples `original`: a colour sample of the
centre pixel `(x + 4, y + 4)` of a selected candidate block of origin `(x, y)`
(`x` and `y` multiples of 8, `x < width - 8`, `y < height - 8`) is changed by
`+ delta` (red, blue) or `- delta` (green) and clamped to `[0, 255]`, the clamp
written out (`0` below `0`, `255` above `255`, the value itself in between);
every other sample is the one of `original`. -/
def fakeWatermarkReference (width height : ℕ) (original : List ℕ)
    (selection : ℕ → ℕ → Option ℤ) (idx : ℕ) : ℕ :=
  let px := idx / 4 % width
  let py := idx / 4 / width
  let c := idx % 4
  if c < 3 ∧ 4 ≤ px ∧ 4 ≤ py ∧ (px - 4) % 8 = 0 ∧ (py - 4) % 8 = 0 ∧
      px - 4 + 8 < width ∧ py - 4 + 8 < height then
    match selection (px - 4) (py - 4) with
    | some delta =>
      let val : ℤ := (original.getD idx 0 : ℤ) + (if c = 1 then -delta else delta)
      if val < 0 then 0 else if 255 < val then 255 else val.toNat
    | none => original.getD idx 0
  else original.getD idx 0

/-! ## Predicates used in the statements -/

/-- Every sample of the array is an 8-bit value and every number assigned to an
element so far lies in `[0, 255]`. -/
def PassState.InRange (s : PassState) : Prop :=
  (∀ n ∈ s.data, n ≤ 255) ∧ ∀ v ∈ s.written, 0 ≤ v ∧ v ≤ 255

/-- Two loop states hold the same samples and have consumed the same number of
draws, at least `m`. -/
def PassState.Agree (m : ℕ) (s t : PassState) : Prop :=
  s.data = t.data ∧ s.draws = t.draws ∧ m ≤ s.draws

/-! ## Concrete inputs used in the examples -/

/-- The options `processImage` obtains when every numeric field is empty and
every check box is clear. -/
def defaultOptions : Options :=
  readOptions
    { brightness := none, contrast := none, pixelShift := none, noiseLevel := none,
      watermark := false, modifyMetadata := false, microRotation := none,
      edgeProcessing := none, colorSpaceTransform := none, invisibleWatermark := none,
      compressionLevel := none, adaptiveProcessing := none }

/-- The default options with the colour space transform and the adaptive
processing switched on. -/
def advancedOptions : Options :=
  { defaultOptions with colorSpaceTransform := true, adaptiveProcessing := true }

/-- The draw stream that always returns one half. -/
def halfDraws : ℕ → ℚ := fun _ => 1 / 2

/-- Option elements with everything at zero or disabled and `pixelShift` zero. -/
def zeroShiftElements : OptionElements :=
  { brightness := some 0, contrast := some 0, pixelShift := some 0, noiseLevel := some 0,
    watermark := false, modifyMetadata := false, microRotation := some 0,
    edgeProcessing := some "none", colorSpaceTransform := some false,
    invisibleWatermark := some "none", compressionLevel := some 0,
    adaptiveProcessing := some false }

/-- A draw stream that differs from `halfDraws` in its first three draws, the
ones that give the channel offsets of a pass started at draw `0`. -/
def otherChannelDraws : ℕ → ℚ := fun n =>
  if n = 0 then 0 else if n = 1 then 1 / 4 else if n = 2 then 3 / 4 else 1 / 2

/-- The samples of a canvas of `2 × 2`: black, opaque, but for a red of `100`
in the pixel `(1, 0)`. -/
def blurInput : List ℕ := [0, 0, 0, 255, 100, 0, 0, 255, 0, 0, 0, 255, 0, 0, 0, 255]

/-- The samples of a canvas of `2 × 2` used as input of the per-pixel pass. -/
def passInput : List ℕ :=
  [10, 20, 30, 255, 200, 40, 90, 255, 0, 0, 0, 255, 255, 255, 255, 255]

/-- The default options with `compressionLevel` at `4`. -/
def level4Options : Options := { defaultOptions with compressionLevel := 4 }

/-- A loader for which no data URL loads as an image. -/
def neverLoads : String → Option DecodedImage := fun _ => none

/-- An encoder that returns the same text for every canvas and quality. -/
def constantEncode : ℕ → ℕ → List ℕ → ℚ → String := fun _ _ _ _ => "second encode"

/-- A `piexif` whose functions all return. -/
def workingPiexif : Piexif String :=
  { remove := fun jpeg => Except.ok jpeg
    dump := fun metadata => Except.ok metadata
    insert := fun exifBytes jpeg => Except.ok (exifBytes ++ jpeg) }

/-- An `atob` that returns the character codes of its argument. -/
def charCodes : String → Except String (List ℕ) :=
  fun s => Except.ok (s.toList.map Char.toNat)

/-- A loader for which every data URL loads as the canvas `passInput` of `2 × 2`. -/
def alwaysLoads : String → Option DecodedImage :=
  fun _ => some { width := 2, height := 2, data := passInput }

/-- A `piexif` whose `insert` raises. -/
def failingInsertPiexif : Piexif String :=
  { remove := fun jpeg => Except.ok jpeg
    dump := fun metadata => Except.ok metadata
    insert := fun _ _ => Except.error "insert failed" }

/-- The draw stream that always returns one tenth. -/
def tenthDraws : ℕ → ℚ := fun _ => 1 / 10

/-- The samples of a canvas of `3 × 3`: every pixel `(10, 20, 30, 255)` but for
the centre pixel `(1, 1)`, which is `(200, 0, 40, 255)`. -/
def sharpenInput : List ℕ :=
  [10, 20, 30, 255, 10, 20, 30, 255, 10, 20, 30, 255,
    10, 20, 30, 255, 200, 0, 40, 255, 10, 20, 30, 255,
    10, 20, 30, 255, 10, 20, 30, 255, 10, 20, 30, 255]

/-! ## Facts about the primitives -/

theorem toUint8Clamp_le (x : ℚ) : toUint8Clamp x ≤ 255 := by
  unfold toUint8Clamp
  by_cases h0 : x ≤ 0
  · simp [h0]
  by_cases h255 : 255 ≤ x
  · simp [h0, h255]
  have hx : x < 255 := lt_of_not_le h255
  have hf : ⌊x⌋ < 255 := Int.floor_lt.mpr (by exact_mod_cast hx)
  have hf0 : 0 ≤ ⌊x⌋ := Int.floor_nonneg.mpr (le_of_lt (lt_of_not_le h0))
  simp only [h0, h255, if_false]
  split_ifs <;> omega

theorem clamp255_nonneg (v : ℚ) : 0 ≤ clamp255 v := by
  unfold clamp255
  exact le_min (by norm_num) (le_max_left _ _)

theorem clamp255_le (v : ℚ) : clamp255 v ≤ 255 := by
  unfold clamp255
  exact min_le_left _ _

theorem mathRound_nonneg {x : ℚ} (hx : 0 ≤ x) : (0 : ℚ) ≤ mathRound x := by
  unfold mathRound
  exact_mod_cast Int.floor_nonneg.mpr (by linarith)

theorem mathRound_le {x : ℚ} (hx : x ≤ 255) : (mathRound x : ℚ) ≤ 255 := by
  unfold mathRound
  have h : ⌊x + 1 / 2⌋ < 256 := Int.floor_lt.mpr (by push_cast; linarith)
  exact_mod_cast Int.lt_add_one_iff.mp h

theorem fmodOne_nonneg {v : ℚ} (hv : 0 ≤ v) : 0 ≤ fmodOne v := by
  unfold fmodOne
  rw [if_pos hv]
  linarith [Int.floor_le v]

theorem hue2rgb_between {p q t : ℚ} (hpq : p ≤ q) (ht : -1 ≤ t) :
    p ≤ hue2rgb p q t ∧ hue2rgb p q t ≤ q := by
  unfold hue2rgb
  simp only
  have hd : 0 ≤ q - p := by linarith
  split_ifs <;> constructor <;> nlinarith

/-! ## The per-pixel loop keeps every assigned value in range -/

theorem PassState.put_inRange {s : PassState} (hs : s.InRange) (i : ℕ) {v : ℚ}
    (h0 : 0 ≤ v) (h1 : v ≤ 255) : (s.put i v).InRange := by
  refine ⟨fun n hn => ?_, fun w hw => ?_⟩
  · rcases List.mem_or_eq_of_mem_set hn with h | h
    · exact hs.1 n h
    · rw [h]; exact toUint8Clamp_le v
  · rcases List.mem_cons.mp hw with h | h
    · rw [h]; exact ⟨h0, h1⟩
    · exact hs.2 w h

theorem PassState.put_clamp_inRange {s : PassState} (hs : s.InRange) (i : ℕ) (v : ℚ) :
    (s.put i (clamp255 v)).InRange :=
  PassState.put_inRange hs i (clamp255_nonneg v) (clamp255_le v)

theorem PassState.draws_inRange {s : PassState} (hs : s.InRange) (k : ℕ) :
    (PassState.mk s.data s.written k).InRange := hs

theorem PassState.get_nonneg (s : PassState) (i : ℕ) : 0 ≤ s.get i := by
  unfold PassState.get
  exact Nat.cast_nonneg _

theorem PassState.get_le {s : PassState} (hs : s.InRange) (i : ℕ) : s.get i ≤ 255 := by
  unfold PassState.get
  have h : s.data.getD i 0 ≤ 255 := by
    rw [List.getD_eq_getElem?_getD]
    cases hi : s.data[i]? with
    | none => simp
    | some n => exact hs.1 n (List.mem_iff_getElem?.mpr ⟨i, hi⟩)
  exact_mod_cast h

theorem brightnessStep_inRange (o : Options) (i : ℕ) {s : PassState} (hs : s.InRange) :
    (brightnessStep o i s).InRange := by
  unfold brightnessStep
  exact PassState.put_clamp_inRange (PassState.put_clamp_inRange
    (PassState.put_clamp_inRange hs _ _) _ _) _ _

theorem contrastStep_inRange (o : Options) (i : ℕ) {s : PassState} (hs : s.InRange) :
    (contrastStep o i s).InRange := by
  unfold contrastStep
  exact PassState.put_clamp_inRange (PassState.put_clamp_inRange
    (PassState.put_clamp_inRange hs _ _) _ _) _ _

theorem noiseStep_inRange (o : Options) (rnd : ℕ → ℚ) (i : ℕ) {s : PassState}
    (hs : s.InRange) : (noiseStep o rnd i s).InRange := by
  unfold noiseStep
  simp only [PassState.random]
  split_ifs
  · repeat (first | exact hs | apply PassState.put_clamp_inRange | apply PassState.draws_inRange)
  · exact hs

theorem channelStep_inRange (ra ga ba : ℚ) (i : ℕ) {s : PassState} (hs : s.InRange) :
    (channelStep ra ga ba i s).InRange := by
  unfold channelStep
  exact PassState.put_clamp_inRange (PassState.put_clamp_inRange
    (PassState.put_clamp_inRange hs _ _) _ _) _ _

theorem uniqueStep_inRange (u : List ℕ) (rnd : ℕ → ℚ) (i : ℕ) {s : PassState}
    (hs : s.InRange) : (uniqueStep u rnd i s).InRange := by
  unfold uniqueStep
  simp only [PassState.random]
  split_ifs
  · repeat (first | exact hs | apply PassState.put_clamp_inRange | apply PassState.draws_inRange)
  · exact hs

theorem applyRegion_inRange (region : Region) (rnd : ℕ → ℚ) (i : ℕ) {s : PassState}
    (hs : s.InRange) : (applyRegion region rnd i s).InRange := by
  unfold applyRegion
  simp only [PassState.random]
  split_ifs <;>
    repeat (first | exact hs | apply PassState.put_clamp_inRange | apply PassState.draws_inRange)

theorem regionStep_inRange (regions : List Region) (rnd : ℕ → ℚ) (x y i : ℕ) {s : PassState}
    (hs : s.InRange) : (regionStep regions rnd x y i s).InRange := by
  unfold regionStep
  split
  · exact hs
  · exact applyRegion_inRange _ rnd i hs

theorem saturation_bounds {mx mn : ℚ} (h0 : 0 ≤ mn) (hlt : mn < mx) (h1 : mx ≤ 1) :
    0 < (if (mx + mn) / 2 > 1 / 2 then (mx - mn) / (2 - mx - mn) else (mx - mn) / (mx + mn)) ∧
    (if (mx + mn) / 2 > 1 / 2 then (mx - mn) / (2 - mx - mn) else (mx - mn) / (mx + mn)) ≤ 1 := by
  have hd : 0 < mx - mn := by linarith
  split_ifs with h
  · have hden : 0 < 2 - mx - mn := by linarith
    exact ⟨div_pos hd hden, (div_le_one hden).mpr (by linarith)⟩
  · have hden : 0 < mx + mn := by linarith
    exact ⟨div_pos hd hden, (div_le_one hden).mpr (by linarith)⟩

theorem pq_bounds {l sat : ℚ} (hl0 : 0 ≤ l) (hl1 : l ≤ 1) (hs0 : 0 ≤ sat) (hs1 : sat ≤ 1) :
    0 ≤ 2 * l - (if l < 1 / 2 then l * (1 + sat) else l + sat - l * sat) ∧
    2 * l - (if l < 1 / 2 then l * (1 + sat) else l + sat - l * sat) ≤
      (if l < 1 / 2 then l * (1 + sat) else l + sat - l * sat) ∧
    (if l < 1 / 2 then l * (1 + sat) else l + sat - l * sat) ≤ 1 := by
  split_ifs with h
  · refine ⟨?_, ?_, ?_⟩ <;> nlinarith [mul_nonneg hl0 hs0, mul_nonneg hl0 (sub_nonneg.mpr hs1)]
  · have h' : 0 ≤ 1 - l := by linarith
    refine ⟨?_, ?_, ?_⟩ <;>
      nlinarith [mul_nonneg h' hs0, mul_nonneg h' (sub_nonneg.mpr hs1)]

theorem hueSector_nonneg {r g b mx mn : ℚ} (hr : mn ≤ r ∧ r ≤ mx) (hg : mn ≤ g ∧ g ≤ mx)
    (hb : mn ≤ b ∧ b ≤ mx) (hlt : mn < mx) : 0 ≤ hueSector r g b mx (mx - mn) := by
  have hd : 0 < mx - mn := by linarith
  have key : ∀ u v : ℚ, mn ≤ u → v ≤ mx → -1 ≤ (u - v) / (mx - mn) := by
    intro u v hu hv
    rw [le_div_iff₀ hd]
    linarith
  unfold hueSector
  split_ifs with h1 h2 h3 h4
  · linarith [key g b hg.1 hb.2]
  · have : 0 ≤ (g - b) / (mx - mn) := div_nonneg (by linarith) hd.le
    linarith
  · linarith [key b r hb.1 hr.2]
  · linarith [key r g hr.1 hg.2]
  · exact le_refl _

theorem round255_inRange {x : ℚ} (h0 : 0 ≤ x) (h1 : x ≤ 1) :
    (0 : ℚ) ≤ mathRound (x * 255) ∧ (mathRound (x * 255) : ℚ) ≤ 255 :=
  ⟨mathRound_nonneg (by positivity), mathRound_le (by linarith)⟩

theorem colorSpaceStep_inRange {hueAdjust : ℚ} (hh : -2 ≤ hueAdjust) (i : ℕ) {s : PassState}
    (hs : s.InRange) : (colorSpaceStep hueAdjust i s).InRange := by
  have hr0 : 0 ≤ s.get i / 255 := div_nonneg (s.get_nonneg i) (by norm_num)
  have hg0 : 0 ≤ s.get (i + 1) / 255 := div_nonneg (s.get_nonneg _) (by norm_num)
  have hb0 : 0 ≤ s.get (i + 2) / 255 := div_nonneg (s.get_nonneg _) (by norm_num)
  have hr1 : s.get i / 255 ≤ 1 := (div_le_one (by norm_num)).mpr (PassState.get_le hs i)
  have hg1 : s.get (i + 1) / 255 ≤ 1 := (div_le_one (by norm_num)).mpr (PassState.get_le hs _)
  have hb1 : s.get (i + 2) / 255 ≤ 1 := (div_le_one (by norm_num)).mpr (PassState.get_le hs _)
  unfold colorSpaceStep
  dsimp only
  generalize s.get i / 255 = r at hr0 hr1 ⊢
  generalize s.get (i + 1) / 255 = g at hg0 hg1 ⊢
  generalize s.get (i + 2) / 255 = b at hb0 hb1 ⊢
  have hmx1 : max (max r g) b ≤ 1 := max_le (max_le hr1 hg1) hb1
  have hmn0 : 0 ≤ min (min r g) b := le_min (le_min hr0 hg0) hb0
  have hrb : min (min r g) b ≤ r ∧ r ≤ max (max r g) b :=
    ⟨le_trans (min_le_left _ _) (min_le_left _ _), le_trans (le_max_left _ _) (le_max_left _ _)⟩
  have hgb : min (min r g) b ≤ g ∧ g ≤ max (max r g) b :=
    ⟨le_trans (min_le_left _ _) (min_le_right _ _), le_trans (le_max_right _ _) (le_max_left _ _)⟩
  have hbb : min (min r g) b ≤ b ∧ b ≤ max (max r g) b := ⟨min_le_right _ _, le_max_right _ _⟩
  generalize max (max r g) b = mx at hmx1 hrb hgb hbb ⊢
  generalize min (min r g) b = mn at hmn0 hrb hgb hbb ⊢
  have hle : mn ≤ mx := le_trans hrb.1 hrb.2
  have hl0 : 0 ≤ (mx + mn) / 2 := by linarith
  have hl1 : (mx + mn) / 2 ≤ 1 := by linarith
  by_cases hmm : mx = mn
  · simp only [hmm, if_true]
    have hv := round255_inRange (x := (mn + mn) / 2) (by linarith) (by linarith)
    exact PassState.put_inRange (PassState.put_inRange (PassState.put_inRange hs _ hv.1 hv.2)
      _ hv.1 hv.2) _ hv.1 hv.2
  · have hlt : mn < mx := lt_of_le_of_ne hle (Ne.symm hmm)
    obtain ⟨hsat0, hsat1⟩ := saturation_bounds hmn0 hlt hmx1
    simp only [hmm, if_false, gt_iff_lt] at hsat0 ⊢
    rw [if_neg (ne_of_gt hsat0)]
    obtain ⟨hp0, hpq, hq1⟩ := pq_bounds hl0 hl1 hsat0.le hsat1
    have hh0 : 0 ≤ fmodOne (hueSector r g b mx (mx - mn) / 6 + hueAdjust / 360 + 1) := by
      apply fmodOne_nonneg
      have := hueSector_nonneg hrb hgb hbb hlt
      linarith
    have val : ∀ t : ℚ, -1 ≤ t → ∀ p q : ℚ, 0 ≤ p → p ≤ q → q ≤ 1 →
        (0 : ℚ) ≤ mathRound (hue2rgb p q t * 255) ∧ (mathRound (hue2rgb p q t * 255) : ℚ) ≤ 255 := by
      intro t ht p q h0 h1 h2
      obtain ⟨ha, hb⟩ := hue2rgb_between h1 ht
      exact round255_inRange (by linarith) (by linarith)
    refine PassState.put_inRange (PassState.put_inRange (PassState.put_inRange hs _ ?_ ?_)
      _ ?_ ?_) _ ?_ ?_
    · exact (val _ (by linarith) _ _ hp0 hpq hq1).1
    · exact (val _ (by linarith) _ _ hp0 hpq hq1).2
    · exact (val _ (by linarith) _ _ hp0 hpq hq1).1
    · exact (val _ (by linarith) _ _ hp0 hpq hq1).2
    · exact (val _ (by linarith) _ _ hp0 hpq hq1).1
    · exact (val _ (by linarith) _ _ hp0 hpq hq1).2

theorem pixelBody_inRange (canvasWidth : ℕ) (o : Options) (p : ImageDraws) (rnd : ℕ → ℚ)
    (hh : -2 ≤ p.hueAdjust) {s : PassState} (hs : s.InRange) (n : ℕ) :
    (pixelBody canvasWidth o p rnd s n).InRange := by
  unfold pixelBody
  dsimp only
  have h5 := uniqueStep_inRange p.uniquePixels rnd (4 * n)
    (channelStep_inRange p.redAdjust p.greenAdjust p.blueAdjust (4 * n)
      (noiseStep_inRange o rnd (4 * n)
        (contrastStep_inRange o (4 * n) (brightnessStep_inRange o (4 * n) hs))))
  split_ifs
  · exact regionStep_inRange _ rnd _ _ _ (colorSpaceStep_inRange hh _ h5)
  · exact regionStep_inRange _ rnd _ _ _ h5
  · exact colorSpaceStep_inRange hh _ h5
  · exact h5

theorem prepareDraws_hue (canvasWidth canvasHeight dataLength : ℕ) (o : Options)
    (rnd : ℕ → ℚ) (k : ℕ) (hrnd : ∀ n, 0 ≤ rnd n ∧ rnd n < 1) :
    -2 ≤ (prepareDraws canvasWidth canvasHeight dataLength o rnd k).hueAdjust := by
  unfold prepareDraws
  dsimp only
  split_ifs
  · linarith [(hrnd (k + 3)).1]
  · norm_num

theorem foldl_inRange (f : PassState → ℕ → PassState)
    (hf : ∀ s n, s.InRange → (f s n).InRange) (l : List ℕ) (s : PassState) (hs : s.InRange) :
    (l.foldl f s).InRange := by
  induction l generalizing s with
  | nil => exact hs
  | cons a l ih => exact ih _ (hf s a hs)

theorem contrast_divisor_ne_zero {c : ℚ} (hc : c ≤ 1) : 255 * (259 - c * 8) ≠ 0 := by
  have h : 0 < 255 * (259 - c * 8) := by linarith
  exact ne_of_gt h

theorem region_divisor_ne_zero (canvasWidth canvasHeight : ℕ) (noiseLevel : ℤ) (rnd : ℕ → ℚ)
    (k : ℕ) (hrnd : ∀ n, 0 ≤ rnd n ∧ rnd n < 1) :
    ∀ region ∈ buildRegions canvasWidth canvasHeight noiseLevel rnd k,
      255 * (259 - region.adjustments.contrast * 255) ≠ 0 := by
  intro region hregion
  simp only [buildRegions, List.mem_flatMap, List.mem_map] at hregion
  obtain ⟨y, -, x, -, rfl⟩ := hregion
  have h1 := (hrnd (k + 3 * (3 * y + x))).2
  have h : 0 < 255 * (259 - (rnd (k + 3 * (3 * y + x)) - 1 / 2) * (1 / 10) * 255) := by
    linarith
  exact ne_of_gt h

theorem colorSpace_divisors_pos {r g b : ℚ} (hr : 0 ≤ r ∧ r ≤ 1) (hg : 0 ≤ g ∧ g ≤ 1)
    (hb : 0 ≤ b ∧ b ≤ 1) (hne : max (max r g) b ≠ min (min r g) b) :
    0 < max (max r g) b - min (min r g) b ∧
    ((max (max r g) b + min (min r g) b) / 2 > 1 / 2 →
      0 < 2 - max (max r g) b - min (min r g) b) ∧
    (¬ (max (max r g) b + min (min r g) b) / 2 > 1 / 2 →
      0 < max (max r g) b + min (min r g) b) := by
  have hmx1 : max (max r g) b ≤ 1 := max_le (max_le hr.2 hg.2) hb.2
  have hmn0 : 0 ≤ min (min r g) b := le_min (le_min hr.1 hg.1) hb.1
  have hle : min (min r g) b ≤ max (max r g) b :=
    le_trans (min_le_right _ _) (le_max_right _ _)
  have hlt : min (min r g) b < max (max r g) b := lt_of_le_of_ne hle (Ne.symm hne)
  refine ⟨by linarith, fun _ => by linarith, fun _ => by linarith⟩

/-- C1: on a buffer of 8-bit samples, with brightness and contrast in `[-1, 1]`,
a non-negative noise level, any setting of the colour space transform and of
the adaptive processing, and draws in `[0, 1)`, every number the per-pixel loop
of `processImage` assigns to a sample lies in `[0, 255]`, the unclamped
`Math.round(hue2rgb(p, q, t) * 255)` of the HSL to RGB branch included.  The
divisors of the two contrast factors are not zero, so the quotients of the
model are those of the source. -/
theorem pixelPass_written_in_range (canvasWidth canvasHeight : ℕ) (data : List ℕ)
    (o : Options) (rnd : ℕ → ℚ) (k : ℕ)
    (hdata : ∀ n ∈ data, n ≤ 255)
    (_hbrightness : -1 ≤ o.brightness ∧ o.brightness ≤ 1)
    (hcontrast : -1 ≤ o.contrast ∧ o.contrast ≤ 1)
    (_hnoise : 0 ≤ o.noiseLevel)
    (hrnd : ∀ n, 0 ≤ rnd n ∧ rnd n < 1) :
    (∀ v ∈ (pixelPass canvasWidth canvasHeight data o rnd k).written, 0 ≤ v ∧ v ≤ 255) ∧
    255 * (259 - o.contrast * 8) ≠ 0 ∧
    ∀ region ∈ (prepareDraws canvasWidth canvasHeight data.length o rnd k).regions,
      255 * (259 - region.adjustments.contrast * 255) ≠ 0 := by
  have h := foldl_inRange
    (pixelBody canvasWidth o (prepareDraws canvasWidth canvasHeight data.length o rnd k) rnd)
    (fun s n hs => pixelBody_inRange canvasWidth o _ rnd
      (prepareDraws_hue canvasWidth canvasHeight data.length o rnd k hrnd) hs n)
    (List.range ((data.length + 3) / 4))
    { data := data, written := [],
      draws := (prepareDraws canvasWidth canvasHeight data.length o rnd k).draws }
    ⟨hdata, fun v hv => absurd hv (List.not_mem_nil v)⟩
  refine ⟨h.2, contrast_divisor_ne_zero hcontrast.2, ?_⟩
  intro region hregion
  simp only [prepareDraws] at hregion
  split_ifs at hregion <;>
    first
      | exact region_divisor_ne_zero _ _ _ rnd _ hrnd region hregion
      | exact absurd hregion (List.not_mem_nil region)

theorem pixelPass_written_in_range_witness :
    (∀ n ∈ passInput, n ≤ 255) ∧
    (-1 ≤ advancedOptions.brightness ∧ advancedOptions.brightness ≤ 1) ∧
    (-1 ≤ advancedOptions.contrast ∧ advancedOptions.contrast ≤ 1) ∧
    0 ≤ advancedOptions.noiseLevel ∧
    (∀ n, 0 ≤ halfDraws n ∧ halfDraws n < 1) ∧
    ∀ v ∈ (pixelPass 2 2 passInput advancedOptions halfDraws 0).written, 0 ≤ v ∧ v ≤ 255 :=
  ⟨by decide,
    by norm_num [advancedOptions, defaultOptions, readOptions, parseFloatOr],
    by norm_num [advancedOptions, defaultOptions, readOptions, parseFloatOr],
    by norm_num [advancedOptions, defaultOptions, readOptions, parseIntOr],
    fun _ => by norm_num [halfDraws],
    (pixelPass_written_in_range 2 2 passInput advancedOptions halfDraws 0 (by decide)
      (by norm_num [advancedOptions, defaultOptions, readOptions, parseFloatOr])
      (by norm_num [advancedOptions, defaultOptions, readOptions, parseFloatOr])
      (by norm_num [advancedOptions, defaultOptions, readOptions, parseIntOr])
      (fun _ => by norm_num [halfDraws])).1⟩

/-! ## The LSB format -/

theorem lsb_after_write (x b : ℕ) (hb : b ≤ 1) : ((x &&& 0xFE) ||| b) % 2 = b := by
  have h : ((x &&& 0xFE) ||| b) % 2 = 1 ↔ b % 2 = 1 := by
    rw [Nat.or_mod_two_eq_one, Nat.and_mod_two_eq_one]
    constructor
    · rintro (⟨-, h⟩ | h)
      · exact absurd h (by decide)
      · exact h
    · exact fun h => Or.inr h
  omega

theorem writeLSB_length (data : List ℕ) (p b : ℕ) : (writeLSB data p b).length = data.length := by
  simp [writeLSB]

theorem writeLSB_getD_ne (data : List ℕ) {p idx : ℕ} (b : ℕ) (h : p ≠ idx) :
    (writeLSB data p b).getD idx 0 = data.getD idx 0 := by
  simp [writeLSB, List.getD_eq_getElem?_getD, List.getElem?_set_ne h]

theorem writeLSB_getD_self (data : List ℕ) {p : ℕ} (b : ℕ) (h : p < data.length) :
    (writeLSB data p b).getD p 0 = (data.getD p 0 &&& 0xFE) ||| b := by
  simp [writeLSB, List.getD_eq_getElem?_getD, List.getElem?_set_self h]

theorem writeLSB_of_le (data : List ℕ) {p : ℕ} (b : ℕ) (h : data.length ≤ p) :
    writeLSB data p b = data := by
  unfold writeLSB
  exact List.set_eq_of_length_le h

theorem ite_writeLSB (data : List ℕ) (p b : ℕ) :
    (if p < data.length then writeLSB data p b else data) = writeLSB data p b := by
  split_ifs with h
  · rfl
  · exact (writeLSB_of_le data b (not_lt.mp h)).symm

theorem applyWrites_append (data : List ℕ) (ws ws2 : List (ℕ × ℕ)) :
    applyWrites data (ws ++ ws2) = applyWrites (applyWrites data ws) ws2 := by
  simp [applyWrites, List.foldl_append]

theorem applyWrites_length (data : List ℕ) (ws : List (ℕ × ℕ)) :
    (applyWrites data ws).length = data.length := by
  induction ws generalizing data with
  | nil => rfl
  | cons w ws ih =>
    show (applyWrites (writeLSB data w.1 w.2) ws).length = data.length
    rw [ih, writeLSB_length]

theorem applyWrites_getD_of_not_mem (data : List ℕ) (ws : List (ℕ × ℕ)) (idx : ℕ)
    (h : ∀ w ∈ ws, w.1 ≠ idx) : (applyWrites data ws).getD idx 0 = data.getD idx 0 := by
  induction ws generalizing data with
  | nil => rfl
  | cons w ws ih =>
    show (applyWrites (writeLSB data w.1 w.2) ws).getD idx 0 = data.getD idx 0
    rw [ih _ (fun v hv => h v (List.mem_cons_of_mem _ hv)),
      writeLSB_getD_ne data w.2 (h w (List.mem_cons_self _ _))]

theorem applyWrites_lsb (data : List ℕ) (ws : List (ℕ × ℕ)) (idx b : ℕ)
    (hidx : idx < data.length) (hmem : (idx, b) ∈ ws)
    (huniq : ∀ w ∈ ws, w.1 = idx → w.2 = b) (hb : b ≤ 1) :
    (applyWrites data ws).getD idx 0 % 2 = b := by
  induction ws using List.reverseRecOn with
  | nil => exact absurd hmem (List.not_mem_nil _)
  | append_singleton ws w ih =>
    rw [applyWrites_append]
    show (writeLSB (applyWrites data ws) w.1 w.2).getD idx 0 % 2 = b
    by_cases hw : w.1 = idx
    · have hwb : w.2 = b := huniq w (List.mem_append_right _ (List.mem_singleton_self w)) hw
      rw [hw, hwb, writeLSB_getD_self _ _ (by rw [applyWrites_length]; exact hidx)]
      exact lsb_after_write _ b hb
    · rw [writeLSB_getD_ne _ _ hw]
      apply ih
      · rcases List.mem_append.mp hmem with h | h
        · exact h
        · rw [List.mem_singleton] at h
          exact absurd (by rw [← h]) hw
      · exact fun v hv => huniq v (List.mem_append_left _ hv)

theorem embedLength_eq (data : List ℕ) (lengthBits : List Char) :
    embedLength data lengthBits =
      applyWrites data ((List.range 16).map fun i => (i * 4, parseBit lengthBits[i]?)) := by
  simp only [embedLength, applyWrites, List.foldl_map]

theorem embedByte_eq (data : List ℕ) (c byte : ℕ) :
    embedByte (data, c) byte = (applyWrites data (byteWrites c byte), c + 8) := by
  have hr : List.range 8 = [0, 1, 2, 3, 4, 5, 6, 7] := by decide
  simp only [embedByte, byteWrites, applyWrites, hr, List.foldl_cons, List.foldl_nil,
    List.map_cons, List.map_nil, ite_writeLSB, Nat.add_zero]

theorem foldl_embedByte_eq (bytes : List ℕ) (data : List ℕ) (c : ℕ) :
    bytes.foldl embedByte (data, c) =
      (applyWrites data (payloadWrites c bytes), c + 8 * bytes.length) := by
  induction bytes generalizing data c with
  | nil => rfl
  | cons b bs ih =>
    rw [List.foldl_cons, embedByte_eq, ih, payloadWrites, applyWrites_append, List.length_cons]
    congr 1
    omega

theorem embedWatermark_eq (data : List ℕ) (bytes : List ℕ) :
    embedWatermark data bytes =
      applyWrites data
        (((List.range 16).map fun i =>
            (i * 4, parseBit (padStart 16 (toBinaryString bytes.length))[i]?)) ++
          payloadWrites 0 bytes) := by
  simp only [embedWatermark, embedLength_eq, foldl_embedByte_eq, applyWrites_append]

theorem msbDigits_succ (e n : ℕ) :
    msbDigits (e + 1) n = msbDigits e (n / 2) ++ [Nat.digitChar (n % 2)] := by
  unfold msbDigits
  rw [List.range_succ, List.map_append]
  congr 1
  · apply List.map_congr_left
    intro i hi
    have hi2 : i < e := List.mem_range.mp hi
    have h1 : e + 1 - 1 - i = (e - 1 - i) + 1 := by omega
    rw [h1, pow_succ, Nat.mul_comm, ← Nat.div_div_eq_div_mul]
  · simp

theorem msbDigits_zero (e : ℕ) : msbDigits e 0 = List.replicate e '0' := by
  unfold msbDigits
  rw [List.eq_replicate_iff]
  constructor
  · simp
  · intro c hc
    rw [List.mem_map] at hc
    obtain ⟨i, -, rfl⟩ := hc
    simp only [Nat.zero_div, Nat.zero_mod]
    rfl

theorem toDigitsCore_padded (e : ℕ) : ∀ (n f : ℕ) (ds : List Char), n < 2 ^ e → n < f → 1 ≤ e →
    List.replicate (e - (Nat.toDigitsCore 2 f n []).length) '0' ++ Nat.toDigitsCore 2 f n ds =
      msbDigits e n ++ ds := by
  induction e with
  | zero => intro n f ds _ _ h; omega
  | succ e ih =>
    intro n f ds hn hf _
    obtain ⟨f, rfl⟩ : ∃ g, f = g + 1 := ⟨f - 1, by omega⟩
    rw [msbDigits_succ]
    by_cases h0 : n / 2 = 0
    · simp only [Nat.toDigitsCore, h0, if_true, List.length_singleton, msbDigits_zero]
      simp
    · have hn2 : n / 2 < 2 ^ e := by
        rw [Nat.div_lt_iff_lt_mul (by norm_num)]
        rw [pow_succ] at hn
        exact hn
      have he : 1 ≤ e := by
        rcases Nat.eq_zero_or_pos e with h | h
        · subst h
          simp at hn2
          exact absurd hn2 h0
        · exact h
      have hf2 : n / 2 < f := by omega
      simp only [Nat.toDigitsCore, h0, if_false]
      rw [Nat.toDigitsCore_lens_eq, Nat.add_sub_add_right, ih (n / 2) f _ hn2 hf2 he]
      simp

theorem padStart_toBinaryString (e n : ℕ) (hn : n < 2 ^ e) (he : 1 ≤ e) :
    padStart e (toBinaryString n) = msbDigits e n := by
  have h := toDigitsCore_padded e n (n + 1) [] hn (Nat.lt_succ_self n) he
  simpa [padStart, toBinaryString, Nat.toDigits] using h

theorem parseBit_digitChar (b : ℕ) (hb : b ≤ 1) : parseBit (some (Nat.digitChar b)) = b := by
  interval_cases b <;> decide

theorem parseBit_padStart (e n i : ℕ) (hn : n < 2 ^ e) (hi : i < e) :
    parseBit (padStart e (toBinaryString n))[i]? = n / 2 ^ (e - 1 - i) % 2 := by
  rw [padStart_toBinaryString e n hn (by omega)]
  unfold msbDigits
  rw [List.getElem?_map, List.getElem?_range hi]
  exact parseBit_digitChar _ (by omega)

theorem parseBit_le (c : Option Char) : parseBit c ≤ 1 := by
  unfold parseBit
  split_ifs <;> omega

theorem mem_byteWrites (c byte : ℕ) (w : ℕ × ℕ) :
    w ∈ byteWrites c byte ↔
      ∃ j, j < 8 ∧ w = ((16 + (c + j + 1)) * 4,
        parseBit (padStart 8 (toBinaryString byte))[j]?) := by
  unfold byteWrites
  rw [List.mem_map]
  constructor
  · rintro ⟨j, hj, rfl⟩
    exact ⟨j, List.mem_range.mp hj, rfl⟩
  · rintro ⟨j, hj, rfl⟩
    exact ⟨j, List.mem_range.mpr hj, rfl⟩

theorem mem_payloadWrites (bytes : List ℕ) (c : ℕ) (w : ℕ × ℕ) :
    w ∈ payloadWrites c bytes ↔
      ∃ k j, k < bytes.length ∧ j < 8 ∧ w = ((16 + (c + 8 * k + j + 1)) * 4,
        parseBit (padStart 8 (toBinaryString (bytes.getD k 0)))[j]?) := by
  induction bytes generalizing c with
  | nil => simp [payloadWrites]
  | cons b bs ih =>
    rw [payloadWrites, List.mem_append, mem_byteWrites, ih]
    constructor
    · rintro (⟨j, hj, rfl⟩ | ⟨k, j, hk, hj, rfl⟩)
      · exact ⟨0, j, by simp, hj, by simp⟩
      · refine ⟨k + 1, j, by simpa using hk, hj, ?_⟩
        simp only [List.getD_cons_succ, Prod.mk.injEq, and_true]
        omega
    · rintro ⟨k, j, hk, hj, rfl⟩
      cases k with
      | zero => exact Or.inl ⟨j, hj, by simp⟩
      | succ k =>
        refine Or.inr ⟨k, j, by simpa using hk, hj, ?_⟩
        simp only [List.getD_cons_succ, Prod.mk.injEq, and_true]
        omega

theorem redLSB_header (data bytes : List ℕ) (i : ℕ) (hi : i < 16) (hlen : i * 4 < data.length)
    (hL : bytes.length < 65536) :
    redLSB (embedWatermark data bytes) i = bytes.length / 2 ^ (15 - i) % 2 := by
  unfold redLSB
  rw [embedWatermark_eq, ← parseBit_padStart 16 bytes.length i (hL.trans_eq (by norm_num)) hi]
  apply applyWrites_lsb _ _ _ _ hlen
  · exact List.mem_append_left _ (List.mem_map.mpr ⟨i, List.mem_range.mpr hi, rfl⟩)
  · intro w hw hwi
    rcases List.mem_append.mp hw with h | h
    · obtain ⟨i2, -, rfl⟩ := List.mem_map.mp h
      have : i2 = i := by simpa using hwi
      rw [this]
    · obtain ⟨k, j, -, -, rfl⟩ := (mem_payloadWrites _ _ _).mp h
      simp only at hwi
      omega
  · exact parseBit_le _

theorem redLSB_payload (data bytes : List ℕ) (k j : ℕ) (hk : k < bytes.length) (hj : j < 8)
    (hlen : (17 + 8 * k + j) * 4 < data.length) (hbyte : bytes.getD k 0 < 256) :
    redLSB (embedWatermark data bytes) (17 + 8 * k + j) = byteBit (bytes.getD k 0) j := by
  unfold redLSB byteBit
  rw [embedWatermark_eq, ← parseBit_padStart 8 (bytes.getD k 0) j (hbyte.trans_eq (by norm_num)) hj]
  apply applyWrites_lsb _ _ _ _ hlen
  · apply List.mem_append_right
    rw [mem_payloadWrites]
    exact ⟨k, j, hk, hj, by simp only [Prod.mk.injEq, and_true]; omega⟩
  · intro w hw hwi
    rcases List.mem_append.mp hw with h | h
    · obtain ⟨i2, hi2, rfl⟩ := List.mem_map.mp h
      have := List.mem_range.mp hi2
      simp only at hwi
      omega
    · obtain ⟨k2, j2, -, hj2, rfl⟩ := (mem_payloadWrites _ _ _).mp h
      simp only at hwi
      have hk2 : k2 = k := by omega
      have hjj : j2 = j := by omega
      rw [hk2, hjj]
  · exact parseBit_le _

theorem embedWatermark_pixel16 (data bytes : List ℕ) :
    (embedWatermark data bytes).getD (16 * 4) 0 = data.getD (16 * 4) 0 := by
  rw [embedWatermark_eq]
  apply applyWrites_getD_of_not_mem
  intro w hw
  rcases List.mem_append.mp hw with h | h
  · obtain ⟨i2, hi2, rfl⟩ := List.mem_map.mp h
    have := List.mem_range.mp hi2
    simp only
    omega
  · obtain ⟨k2, j2, -, -, rfl⟩ := (mem_payloadWrites _ _ _).mp h
    simp only
    omega

theorem ofBitsBE_append (l : List ℕ) (b : ℕ) : ofBitsBE (l ++ [b]) = 2 * ofBitsBE l + b := by
  simp [ofBitsBE, List.foldl_append]

theorem ofBitsBE_msb (e n : ℕ) :
    ofBitsBE ((List.range e).map fun i => n / 2 ^ (e - 1 - i) % 2) = n % 2 ^ e := by
  induction e generalizing n with
  | zero => simp [ofBitsBE, Nat.mod_one]
  | succ e ih =>
    have hmap : ((List.range (e + 1)).map fun i => n / 2 ^ (e + 1 - 1 - i) % 2) =
        ((List.range e).map fun i => n / 2 / 2 ^ (e - 1 - i) % 2) ++ [n % 2] := by
      rw [List.range_succ, List.map_append]
      congr 1
      · apply List.map_congr_left
        intro i hi
        have hi2 : i < e := List.mem_range.mp hi
        have h1 : e + 1 - 1 - i = (e - 1 - i) + 1 := by omega
        rw [h1, pow_succ, Nat.mul_comm, ← Nat.div_div_eq_div_mul]
      · simp
    rw [hmap, ofBitsBE_append, ih, pow_succ, Nat.mul_comm (2 ^ e) 2, Nat.mod_mul]
    omega

theorem readLength_embedWatermark (data bytes : List ℕ) (hL : bytes.length < 65536)
    (hbuf : 16 * 4 ≤ data.length) : readLength (embedWatermark data bytes) = bytes.length := by
  unfold readLength
  have hmap : (List.range 16).map (redLSB (embedWatermark data bytes)) =
      (List.range 16).map fun i => bytes.length / 2 ^ (16 - 1 - i) % 2 := by
    apply List.map_congr_left
    intro i hi
    have hi2 : i < 16 := List.mem_range.mp hi
    exact redLSB_header data bytes i hi2 (by omega) hL
  rw [hmap, ofBitsBE_msb]
  exact Nat.mod_eq_of_lt (hL.trans_eq (by norm_num))

theorem readByte_embedWatermark (data bytes : List ℕ) (k : ℕ) (hk : k < bytes.length)
    (hbyte : bytes.getD k 0 < 256) (hbuf : (17 + 8 * k + 7) * 4 < data.length) :
    readByte (embedWatermark data bytes) (17 + 8 * k) = bytes.getD k 0 := by
  unfold readByte
  have hmap : ((List.range 8).map fun j => redLSB (embedWatermark data bytes) (17 + 8 * k + j)) =
      (List.range 8).map fun j => bytes.getD k 0 / 2 ^ (8 - 1 - j) % 2 := by
    apply List.map_congr_left
    intro j hj
    have hj2 : j < 8 := List.mem_range.mp hj
    exact redLSB_payload data bytes k j hk hj2 (by omega) hbyte
  rw [hmap, ofBitsBE_msb]
  exact Nat.mod_eq_of_lt (hbyte.trans_eq (by norm_num))

/-- C2: for a payload of `L < 65536` bytes and a buffer of at least sixteen
pixels, the red least significant bits of the pixels `0 .. 15` after
`applyLSBWatermark`, read as a big-endian unsigned 16-bit integer, are `L`. -/
theorem lsb_header_roundtrip (data bytes : List ℕ) (hL : bytes.length < 65536)
    (hbuf : 16 ≤ data.length / 4) : readLength (embedWatermark data bytes) = bytes.length :=
  readLength_embedWatermark data bytes hL (by omega)

theorem lsb_header_roundtrip_witness :
    [88, 72, 83, 49, 55, 48, 48, 48].length < 65536 ∧ 16 ≤ (List.replicate 64 255).length / 4 ∧
    readLength (embedWatermark (List.replicate 64 255) [88, 72, 83, 49, 55, 48, 48, 48]) =
      [88, 72, 83, 49, 55, 48, 48, 48].length :=
  ⟨by decide, by simp, lsb_header_roundtrip _ _ (by decide) (by simp)⟩

set_option maxRecDepth 100000 in
/-- C3: on 32 opaque white pixels and the time 1700000000000, whose text
starts with the byte 88 (bits 0, 1, ... from the most significant), the red
least significant bit of pixel 16 is still the 1 of the buffer and the one of
pixel 17 is bit 0 of the byte: the payload starts at pixel 17, not at 16. -/
theorem lsb_payload_skips_pixel_16 :
    (watermarkBytes 1700000000000).getD 0 0 = 88 ∧
    byteBit 88 0 = 0 ∧ byteBit 88 1 = 1 ∧
    redLSB (applyLSBWatermark (List.replicate 128 255) 1700000000000) 16 = 1 ∧
    redLSB (applyLSBWatermark (List.replicate 128 255) 1700000000000) 17 = 0 := by
  decide

/-- C4: the decoder that reads the length `L` from the red least significant
bits of the pixels `0 .. 15` and then `L` bytes, most significant bit first, from
the pixels `17 .. 16 + 8 * L` returns the embedded bytes, for every payload of
`L < 65536` bytes below 256 and every buffer of more than `16 + 8 * L` pixels. -/
theorem decodeWatermark_embedWatermark (data bytes : List ℕ) (hL : bytes.length < 65536)
    (hbytes : ∀ b ∈ bytes, b < 256) (hbuf : 16 + 8 * bytes.length < data.length / 4) :
    decodeWatermark (embedWatermark data bytes) = bytes := by
  unfold decodeWatermark
  rw [readLength_embedWatermark data bytes hL (by omega)]
  apply List.ext_getElem
  · simp
  · intro k h1 h2
    rw [List.getElem_map, List.getElem_range]
    have hk : bytes.getD k 0 = bytes[k] := by
      rw [List.getD_eq_getElem?_getD, List.getElem?_eq_getElem h2, Option.getD_some]
    rw [← hk]
    apply readByte_embedWatermark data bytes k h2
    · rw [hk]
      exact hbytes _ (List.getElem_mem h2)
    · omega

theorem decodeWatermark_embedWatermark_witness :
    [88, 72].length < 65536 ∧ (∀ b ∈ [88, 72], b < 256) ∧
    16 + 8 * [88, 72].length < (List.replicate 132 255).length / 4 ∧
    decodeWatermark (embedWatermark (List.replicate 132 255) [88, 72]) = [88, 72] :=
  ⟨by decide, by decide, by simp,
    decodeWatermark_embedWatermark _ _ (by decide) (by decide) (by simp)⟩

/-! ## `convertToDMS` -/

theorem mathRound_near (x : ℚ) : |(mathRound x : ℚ) - x| ≤ 1 / 2 := by
  unfold mathRound
  have h1 := Int.floor_le (x + 1 / 2)
  have h2 := Int.lt_floor_add_one (x + 1 / 2)
  rw [abs_le]
  constructor <;> linarith

/-- C5: for a non-negative coordinate `c`, with `[[d, 1], [m, 1], [s, 100]]` the
result of `convertToDMS(c)` in exact arithmetic, `d + m / 60 + (s / 100) / 3600`
differs from `c` by at most `1 / 360000` degree. -/
theorem convertToDMS_invertible (c : ℚ) (_hc : 0 ≤ c) :
    ∃ d m s : ℤ, convertToDMS c = ((d, 1), (m, 1), (s, 100)) ∧
      |(d : ℚ) + (m : ℚ) / 60 + ((s : ℚ) / 100) / 3600 - c| ≤ 1 / 360000 := by
  refine ⟨mathFloor c, mathFloor ((c - mathFloor c) * 60),
    mathRound (((c - mathFloor c) * 60 - mathFloor ((c - mathFloor c) * 60)) * 60 * 100),
    rfl, ?_⟩
  have h := mathRound_near
    (((c - mathFloor c) * 60 - mathFloor ((c - mathFloor c) * 60)) * 60 * 100)
  rw [abs_le] at h ⊢
  constructor <;> linarith [h.1, h.2]

theorem convertToDMS_invertible_witness :
    (0 : ℚ) ≤ 314159 / 10000 ∧
    ∃ d m s : ℤ, convertToDMS (314159 / 10000) = ((d, 1), (m, 1), (s, 100)) ∧
      |(d : ℚ) + (m : ℚ) / 60 + ((s : ℚ) / 100) / 3600 - 314159 / 10000| ≤ 1 / 360000 :=
  ⟨by norm_num, convertToDMS_invertible (314159 / 10000) (by norm_num)⟩

/-! ## Output canvas size -/

theorem floor_three_draw {u : ℚ} (h0 : 0 ≤ u) (h1 : u < 1) :
    0 ≤ mathFloor (u * 3) ∧ mathFloor (u * 3) ≤ 2 := by
  unfold mathFloor
  constructor
  · exact Int.floor_nonneg.mpr (by linarith)
  · have h : ⌊u * 3⌋ < 3 := Int.floor_lt.mpr (by push_cast; linarith)
    omega

/-- C7: for an image of `w × h`, any `pixelShift` and draws in `[0, 1)`, the
output canvas is `w + pixelShift + kx` wide and `h + pixelShift + ky` high with
`kx`, `ky` in `{0, 1, 2}`, each the floor of three times its own draw, so both
dimensions are at least the input dimension plus `pixelShift`; and every pair
`(kx, ky)` of `{0, 1, 2}` is obtained from some pair of draws. -/
theorem outputCanvasSize_offsets (w h : ℕ) (o : Options) :
    (∀ rnd : ℕ → ℚ, (∀ n, 0 ≤ rnd n ∧ rnd n < 1) →
      ∃ kx ky : ℤ, (kx = 0 ∨ kx = 1 ∨ kx = 2) ∧ (ky = 0 ∨ ky = 1 ∨ ky = 2) ∧
        kx = mathFloor (rnd (drawsBeforeSizing o) * 3) ∧
        ky = mathFloor (rnd (drawsBeforeSizing o + 1) * 3) ∧
        outputCanvasSize w h o rnd = ((w : ℤ) + o.pixelShift + kx, (h : ℤ) + o.pixelShift + ky) ∧
        (w : ℤ) + o.pixelShift ≤ (outputCanvasSize w h o rnd).1 ∧
        (h : ℤ) + o.pixelShift ≤ (outputCanvasSize w h o rnd).2) ∧
    (∀ kx ky : ℤ, (kx = 0 ∨ kx = 1 ∨ kx = 2) → (ky = 0 ∨ ky = 1 ∨ ky = 2) →
      ∃ rnd : ℕ → ℚ, (∀ n, 0 ≤ rnd n ∧ rnd n < 1) ∧
        outputCanvasSize w h o rnd =
          ((w : ℤ) + o.pixelShift + kx, (h : ℤ) + o.pixelShift + ky)) := by
  constructor
  · intro rnd hrnd
    obtain ⟨a0, a2⟩ := floor_three_draw (hrnd (drawsBeforeSizing o)).1 (hrnd (drawsBeforeSizing o)).2
    obtain ⟨b0, b2⟩ := floor_three_draw (hrnd (drawsBeforeSizing o + 1)).1
      (hrnd (drawsBeforeSizing o + 1)).2
    refine ⟨mathFloor (rnd (drawsBeforeSizing o) * 3),
      mathFloor (rnd (drawsBeforeSizing o + 1) * 3), by omega, by omega, rfl, rfl, ?_, ?_, ?_⟩
    · simp only [outputCanvasSize, sizeOffset, Prod.mk.injEq]
      constructor <;> ring
    · simp only [outputCanvasSize, sizeOffset]
      omega
    · simp only [outputCanvasSize, sizeOffset]
      omega
  · intro kx ky hkx hky
    refine ⟨fun n => if n = drawsBeforeSizing o then (kx : ℚ) / 3 else (ky : ℚ) / 3, ?_, ?_⟩
    · intro n
      dsimp only
      rcases hkx with rfl | rfl | rfl <;> rcases hky with rfl | rfl | rfl <;>
        split_ifs <;> norm_num
    · have hne : drawsBeforeSizing o + 1 ≠ drawsBeforeSizing o := by omega
      simp only [outputCanvasSize, sizeOffset, mathFloor, if_true, if_neg hne, Prod.mk.injEq]
      have e1 : (kx : ℚ) / 3 * 3 = kx := by ring
      have e2 : (ky : ℚ) / 3 * 3 = ky := by ring
      rw [e1, e2, Int.floor_intCast, Int.floor_intCast]
      constructor <;> ring

/-- C8: whatever the image and the other options, when the supplied
`pixelShift` is an integer `n ≥ 0` (zero included, which the option reading
replaces by `1`) the output canvas is strictly wider and strictly higher than
the input. -/
theorem geometry_never_bypassed (w h : ℕ) (e : OptionElements) (n : ℤ)
    (hshift : e.pixelShift = some n) (hn : 0 ≤ n) (rnd : ℕ → ℚ)
    (hrnd : ∀ k, 0 ≤ rnd k ∧ rnd k < 1) :
    (w : ℤ) < (outputCanvasSize w h (readOptions e) rnd).1 ∧
    (h : ℤ) < (outputCanvasSize w h (readOptions e) rnd).2 := by
  have hps : 1 ≤ (readOptions e).pixelShift := by
    simp only [readOptions, hshift, parseIntOr]
    split_ifs <;> omega
  obtain ⟨a0, -⟩ := floor_three_draw (hrnd (drawsBeforeSizing (readOptions e))).1
    (hrnd (drawsBeforeSizing (readOptions e))).2
  obtain ⟨b0, -⟩ := floor_three_draw (hrnd (drawsBeforeSizing (readOptions e) + 1)).1
    (hrnd (drawsBeforeSizing (readOptions e) + 1)).2
  simp only [outputCanvasSize, sizeOffset]
  constructor <;> omega

theorem geometry_never_bypassed_witness :
    (zeroShiftElements.pixelShift = some 0) ∧ (0 : ℤ) ≤ 0 ∧ (∀ k, 0 ≤ halfDraws k ∧ halfDraws k < 1) ∧
    (640 : ℤ) < (outputCanvasSize 640 480 (readOptions zeroShiftElements) halfDraws).1 ∧
    (480 : ℤ) < (outputCanvasSize 640 480 (readOptions zeroShiftElements) halfDraws).2 :=
  ⟨rfl, le_refl _, fun _ => by norm_num [halfDraws],
    geometry_never_bypassed 640 480 zeroShiftElements 0 rfl (le_refl _) halfDraws
      (fun _ => by norm_num [halfDraws])⟩

theorem outputCanvasSize_offsets_witness :
    (∀ n, 0 ≤ halfDraws n ∧ halfDraws n < 1) ∧
    ∃ kx ky : ℤ, (kx = 0 ∨ kx = 1 ∨ kx = 2) ∧ (ky = 0 ∨ ky = 1 ∨ ky = 2) ∧
      kx = mathFloor (halfDraws (drawsBeforeSizing defaultOptions) * 3) ∧
      ky = mathFloor (halfDraws (drawsBeforeSizing defaultOptions + 1) * 3) ∧
      outputCanvasSize 640 480 defaultOptions halfDraws =
        ((640 : ℕ) + defaultOptions.pixelShift + kx, (480 : ℕ) + defaultOptions.pixelShift + ky) ∧
      ((640 : ℕ) : ℤ) + defaultOptions.pixelShift ≤
        (outputCanvasSize 640 480 defaultOptions halfDraws).1 ∧
      ((480 : ℕ) : ℤ) + defaultOptions.pixelShift ≤
        (outputCanvasSize 640 480 defaultOptions halfDraws).2 :=
  ⟨fun _ => by norm_num [halfDraws],
    (outputCanvasSize_offsets 640 480 defaultOptions).1 halfDraws
      (fun _ => by norm_num [halfDraws])⟩

/-! ## Regions -/

theorem region_match_iff (canvasWidth canvasHeight : ℕ) (noiseLevel : ℤ) (rnd : ℕ → ℚ)
    (k x y : ℕ) :
    (∃ region ∈ buildRegions canvasWidth canvasHeight noiseLevel rnd k,
      inRegion region x y = true) ↔
      x < 3 * (canvasWidth / 3) ∧ y < 3 * (canvasHeight / 3) := by
  have hr : List.range 3 = [0, 1, 2] := by decide
  simp only [buildRegions, hr, inRegion, List.flatMap_cons, List.flatMap_nil, List.map_cons,
    List.map_nil, List.append_nil, List.cons_append, List.nil_append, List.mem_cons,
    List.mem_singleton, exists_eq_or_imp, exists_eq_left, Bool.and_eq_true,
    decide_eq_true_eq, List.not_mem_nil, false_and, exists_false, or_false]
  omega

/-- C6: on a canvas of `4 × 4` the regions are `1 × 1` and cover the columns
and rows `0 .. 2` only: for the pixel `(3, 0)` no region of the nine passes
the membership test, whatever the draws, so `regionStep` leaves it as it is. -/
theorem region_misses_remainder_pixel :
    ∀ (noiseLevel : ℤ) (rnd : ℕ → ℚ) (k : ℕ),
      (buildRegions 4 4 noiseLevel rnd k).length = 9 ∧
      (∀ region ∈ buildRegions 4 4 noiseLevel rnd k, inRegion region 3 0 = false) ∧
      ∀ (i : ℕ) (s : PassState),
        regionStep (buildRegions 4 4 noiseLevel rnd k) rnd 3 0 i s = s := by
  intro noiseLevel rnd k
  have hr : List.range 3 = [0, 1, 2] := by decide
  have hall : ∀ region ∈ buildRegions 4 4 noiseLevel rnd k, inRegion region 3 0 = false := by
    simp [buildRegions, hr, inRegion]
  refine ⟨by simp [buildRegions, hr], hall, fun i s => ?_⟩
  unfold regionStep
  have hnone : (buildRegions 4 4 noiseLevel rnd k).find? (fun region => inRegion region 3 0) =
      none := by
    rw [List.find?_eq_none]
    intro region hregion
    simp [hall region hregion]
  rw [hnone]

/-! ## The channel offsets are rounded away by the store -/

theorem toUint8Clamp_near (n : ℕ) (hn : n ≤ 255) (x : ℚ) (h1 : (n : ℚ) - 1 / 2 < x)
    (h2 : x < (n : ℚ) + 1 / 2) : toUint8Clamp x = n := by
  have hn' : (n : ℚ) ≤ 255 := by exact_mod_cast hn
  unfold toUint8Clamp
  by_cases h0 : x ≤ 0
  · rw [if_pos h0]
    have : (n : ℚ) < 1 := by linarith
    have : n < 1 := by exact_mod_cast this
    omega
  rw [if_neg h0]
  by_cases h255 : 255 ≤ x
  · rw [if_pos h255]
    have : (254 : ℚ) < n := by linarith
    have : 254 < n := by exact_mod_cast this
    omega
  rw [if_neg h255]
  dsimp only
  by_cases hx : (n : ℚ) ≤ x
  · have hf : ⌊x⌋ = (n : ℤ) := by
      rw [Int.floor_eq_iff]
      push_cast
      constructor <;> linarith
    rw [hf]
    have hnot : ¬ (((n : ℤ) : ℚ) + 1 / 2 < x) := by push_cast; linarith
    have hlt : x < ((n : ℤ) : ℚ) + 1 / 2 := by push_cast; linarith
    rw [if_neg hnot, if_pos hlt]
    simp
  · have hn1 : 1 ≤ n := by
      rcases Nat.eq_zero_or_pos n with h | h
      · subst h
        simp at hx
        linarith
      · exact h
    have hf : ⌊x⌋ = (n : ℤ) - 1 := by
      rw [Int.floor_eq_iff]
      push_cast
      constructor <;> linarith
    rw [hf]
    have hlt : (((n : ℤ) - 1 : ℤ) : ℚ) + 1 / 2 < x := by push_cast; linarith
    rw [if_pos hlt]
    simp

theorem toUint8Clamp_clamp_offset (n : ℕ) (hn : n ≤ 255) (a : ℚ) (h1 : -(1 / 4) ≤ a)
    (h2 : a ≤ 1 / 4) : toUint8Clamp (clamp255 ((n : ℚ) + a)) = n := by
  have hn' : (n : ℚ) ≤ 255 := by exact_mod_cast hn
  have hn0 : (0 : ℚ) ≤ n := Nat.cast_nonneg n
  apply toUint8Clamp_near n hn
  · unfold clamp255
    rw [lt_min_iff, lt_max_iff]
    exact ⟨by linarith, Or.inr (by linarith)⟩
  · unfold clamp255
    rw [min_lt_iff, max_lt_iff]
    by_cases h : (n : ℚ) + 1 / 2 ≤ 255
    · exact Or.inr ⟨by linarith, by linarith⟩
    · exact Or.inl (by linarith)

theorem list_set_getD_self (l : List ℕ) (i : ℕ) : l.set i (l.getD i 0) = l := by
  induction l generalizing i with
  | nil => rfl
  | cons a l ih =>
    cases i with
    | zero => rfl
    | succ i =>
      rw [List.getD_cons_succ, List.set_cons_succ, ih]

theorem getD_le_of_forall {l : List ℕ} (h : ∀ n ∈ l, n ≤ 255) (i : ℕ) : l.getD i 0 ≤ 255 := by
  rw [List.getD_eq_getElem?_getD]
  cases hi : l[i]? with
  | none => simp
  | some n => exact h n (List.mem_iff_getElem?.mpr ⟨i, hi⟩)

theorem put_offset_data {s : PassState} (hs : ∀ n ∈ s.data, n ≤ 255) (i : ℕ) (a : ℚ)
    (h1 : -(1 / 4) ≤ a) (h2 : a ≤ 1 / 4) :
    (s.put i (clamp255 (s.get i + a))).data = s.data := by
  unfold PassState.put PassState.get
  dsimp only
  rw [toUint8Clamp_clamp_offset _ (getD_le_of_forall hs i) a h1 h2]
  exact list_set_getD_self _ _

theorem channelStep_data {s : PassState} (hs : ∀ n ∈ s.data, n ≤ 255) (i : ℕ) (ra ga ba : ℚ)
    (hr : -(1 / 4) ≤ ra ∧ ra ≤ 1 / 4) (hg : -(1 / 4) ≤ ga ∧ ga ≤ 1 / 4)
    (hb : -(1 / 4) ≤ ba ∧ ba ≤ 1 / 4) :
    (channelStep ra ga ba i s).data = s.data ∧ (channelStep ra ga ba i s).draws = s.draws := by
  unfold channelStep
  dsimp only
  have e1 := put_offset_data hs i ra hr.1 hr.2
  have e2 := put_offset_data (s := s.put i (clamp255 (s.get i + ra))) (by rw [e1]; exact hs)
    (i + 1) ga hg.1 hg.2
  have e3 := put_offset_data
    (s := (s.put i (clamp255 (s.get i + ra))).put (i + 1)
      (clamp255 ((s.put i (clamp255 (s.get i + ra))).get (i + 1) + ga)))
    (by rw [e2, e1]; exact hs) (i + 2) ba hb.1 hb.2
  exact ⟨by rw [e3, e2, e1], rfl⟩

theorem brightnessStep_agree {m : ℕ} (o : Options) (i : ℕ) {s t : PassState}
    (h : s.Agree m t) : (brightnessStep o i s).Agree m (brightnessStep o i t) := by
  obtain ⟨d, ws, k⟩ := s
  obtain ⟨d2, wt, k2⟩ := t
  obtain ⟨h1, h2, h3⟩ := h
  simp only at h1 h2 h3
  subst h1 h2
  simp only [PassState.Agree, brightnessStep, PassState.put, PassState.get]
  exact ⟨trivial, trivial, h3⟩

theorem contrastStep_agree {m : ℕ} (o : Options) (i : ℕ) {s t : PassState}
    (h : s.Agree m t) : (contrastStep o i s).Agree m (contrastStep o i t) := by
  obtain ⟨d, ws, k⟩ := s
  obtain ⟨d2, wt, k2⟩ := t
  obtain ⟨h1, h2, h3⟩ := h
  simp only at h1 h2 h3
  subst h1 h2
  simp only [PassState.Agree, contrastStep, PassState.put, PassState.get]
  exact ⟨trivial, trivial, h3⟩

theorem noiseStep_agree {m : ℕ} (o : Options) {rnd rnd2 : ℕ → ℚ}
    (hr : ∀ n, m ≤ n → rnd n = rnd2 n) (i : ℕ) {s t : PassState}
    (h : s.Agree m t) : (noiseStep o rnd i s).Agree m (noiseStep o rnd2 i t) := by
  obtain ⟨d, ws, k⟩ := s
  obtain ⟨d2, wt, k2⟩ := t
  obtain ⟨h1, h2, h3⟩ := h
  simp only at h1 h2 h3
  subst h1 h2
  have e0 := hr k h3
  simp only [PassState.Agree, noiseStep, PassState.put, PassState.get, PassState.random, e0]
  split_ifs <;>
    (refine ⟨by trivial, by trivial, ?_⟩
     first | exact h3 | (dsimp only; omega))

theorem uniqueStep_agree {m : ℕ} (u : List ℕ) {rnd rnd2 : ℕ → ℚ}
    (hr : ∀ n, m ≤ n → rnd n = rnd2 n) (i : ℕ) {s t : PassState}
    (h : s.Agree m t) : (uniqueStep u rnd i s).Agree m (uniqueStep u rnd2 i t) := by
  obtain ⟨d, ws, k⟩ := s
  obtain ⟨d2, wt, k2⟩ := t
  obtain ⟨h1, h2, h3⟩ := h
  simp only at h1 h2 h3
  subst h1 h2
  have e0 := hr k h3
  have e1 := hr (k + 1) (by omega)
  have e2 := hr (k + 1 + 1) (by omega)
  simp only [PassState.Agree, uniqueStep, PassState.put, PassState.get, PassState.random,
    e0, e1, e2]
  split_ifs <;>
    (refine ⟨by trivial, by trivial, ?_⟩
     first | exact h3 | (dsimp only; omega))

theorem colorSpaceStep_agree {m : ℕ} (hueAdjust : ℚ) (i : ℕ) {s t : PassState}
    (h : s.Agree m t) : (colorSpaceStep hueAdjust i s).Agree m (colorSpaceStep hueAdjust i t) := by
  obtain ⟨d, ws, k⟩ := s
  obtain ⟨d2, wt, k2⟩ := t
  obtain ⟨h1, h2, h3⟩ := h
  simp only at h1 h2 h3
  subst h1 h2
  simp only [PassState.Agree, colorSpaceStep, PassState.put, PassState.get]
  split_ifs <;> exact ⟨by trivial, by trivial, h3⟩

theorem applyRegion_agree {m : ℕ} (region : Region) {rnd rnd2 : ℕ → ℚ}
    (hr : ∀ n, m ≤ n → rnd n = rnd2 n) (i : ℕ) {s t : PassState}
    (h : s.Agree m t) : (applyRegion region rnd i s).Agree m (applyRegion region rnd2 i t) := by
  obtain ⟨d, ws, k⟩ := s
  obtain ⟨d2, wt, k2⟩ := t
  obtain ⟨h1, h2, h3⟩ := h
  simp only at h1 h2 h3
  subst h1 h2
  have e0 := hr k h3
  have e1 := hr (k + 1) (by omega)
  simp only [PassState.Agree, applyRegion, PassState.put, PassState.get, PassState.random,
    e0, e1]
  split_ifs <;>
    (refine ⟨by trivial, by trivial, ?_⟩
     first | exact h3 | (dsimp only; omega))

theorem regionStep_agree {m : ℕ} (regions : List Region) {rnd rnd2 : ℕ → ℚ}
    (hr : ∀ n, m ≤ n → rnd n = rnd2 n) (x y i : ℕ) {s t : PassState}
    (h : s.Agree m t) :
    (regionStep regions rnd x y i s).Agree m (regionStep regions rnd2 x y i t) := by
  unfold regionStep
  split
  · exact h
  · exact applyRegion_agree _ hr i h

theorem channelStep_agree {m : ℕ} (i : ℕ) {s t : PassState} (h : s.Agree m t)
    (hs : ∀ n ∈ s.data, n ≤ 255) (ra ga ba ra2 ga2 ba2 : ℚ)
    (hr : -(1 / 4) ≤ ra ∧ ra ≤ 1 / 4) (hg : -(1 / 4) ≤ ga ∧ ga ≤ 1 / 4)
    (hb : -(1 / 4) ≤ ba ∧ ba ≤ 1 / 4) (hr2 : -(1 / 4) ≤ ra2 ∧ ra2 ≤ 1 / 4)
    (hg2 : -(1 / 4) ≤ ga2 ∧ ga2 ≤ 1 / 4) (hb2 : -(1 / 4) ≤ ba2 ∧ ba2 ≤ 1 / 4) :
    (channelStep ra ga ba i s).Agree m (channelStep ra2 ga2 ba2 i t) := by
  obtain ⟨h1, h2, h3⟩ := h
  obtain ⟨a1, a2⟩ := channelStep_data hs i ra ga ba hr hg hb
  obtain ⟨b1, b2⟩ := channelStep_data (s := t) (by rw [← h1]; exact hs) i ra2 ga2 ba2 hr2 hg2 hb2
  exact ⟨by rw [a1, b1, h1], by rw [a2, b2, h2], by rw [a2]; exact h3⟩

theorem pixelBody_agree {m : ℕ} (canvasWidth : ℕ) (o : Options) (p p2 : ImageDraws)
    {rnd rnd2 : ℕ → ℚ} (hr : ∀ n, m ≤ n → rnd n = rnd2 n)
    (hhue : p.hueAdjust = p2.hueAdjust) (huniq : p.uniquePixels = p2.uniquePixels)
    (hreg : p.regions = p2.regions)
    (hra : -(1 / 4) ≤ p.redAdjust ∧ p.redAdjust ≤ 1 / 4)
    (hga : -(1 / 4) ≤ p.greenAdjust ∧ p.greenAdjust ≤ 1 / 4)
    (hba : -(1 / 4) ≤ p.blueAdjust ∧ p.blueAdjust ≤ 1 / 4)
    (hra2 : -(1 / 4) ≤ p2.redAdjust ∧ p2.redAdjust ≤ 1 / 4)
    (hga2 : -(1 / 4) ≤ p2.greenAdjust ∧ p2.greenAdjust ≤ 1 / 4)
    (hba2 : -(1 / 4) ≤ p2.blueAdjust ∧ p2.blueAdjust ≤ 1 / 4)
    {s t : PassState} (hs : s.InRange) (h : s.Agree m t) (n : ℕ) :
    (pixelBody canvasWidth o p rnd s n).Agree m (pixelBody canvasWidth o p2 rnd2 t n) := by
  unfold pixelBody
  dsimp only
  have h3 := noiseStep_agree o hr (4 * n)
    (contrastStep_agree o (4 * n) (brightnessStep_agree o (4 * n) h))
  have r3 := noiseStep_inRange o rnd (4 * n)
    (contrastStep_inRange o (4 * n) (brightnessStep_inRange o (4 * n) hs))
  have h5 := uniqueStep_agree p.uniquePixels hr (4 * n)
    (channelStep_agree (4 * n) h3 r3.1 p.redAdjust p.greenAdjust p.blueAdjust
      p2.redAdjust p2.greenAdjust p2.blueAdjust hra hga hba hra2 hga2 hba2)
  rw [← hhue, ← huniq, ← hreg]
  split_ifs
  · exact regionStep_agree _ hr _ _ _ (colorSpaceStep_agree _ _ h5)
  · exact regionStep_agree _ hr _ _ _ h5
  · exact colorSpaceStep_agree _ _ h5
  · exact h5

theorem buildRegions_congr (canvasWidth canvasHeight : ℕ) (noiseLevel : ℤ)
    {rnd rnd2 : ℕ → ℚ} (k : ℕ) (hr : ∀ n, k ≤ n → rnd n = rnd2 n) :
    buildRegions canvasWidth canvasHeight noiseLevel rnd k =
      buildRegions canvasWidth canvasHeight noiseLevel rnd2 k := by
  have e0 : ∀ d, rnd (k + d) = rnd2 (k + d) := fun d => hr _ (by omega)
  have e1 : ∀ d, rnd (k + d + 1) = rnd2 (k + d + 1) := fun d => hr _ (by omega)
  have e2 : ∀ d, rnd (k + d + 2) = rnd2 (k + d + 2) := fun d => hr _ (by omega)
  simp only [buildRegions, e0, e1, e2]

theorem adjust_bounds {u : ℚ} (h0 : 0 ≤ u) (h1 : u < 1) :
    -(1 / 4) ≤ (u - 1 / 2) * (1 / 2) ∧ (u - 1 / 2) * (1 / 2) ≤ 1 / 4 := by
  constructor <;> linarith

theorem foldl_agree {m : ℕ} (f g : PassState → ℕ → PassState)
    (hf : ∀ s n, s.InRange → (f s n).InRange)
    (hfg : ∀ s t n, s.InRange → s.Agree m t → (f s n).Agree m (g t n))
    (l : List ℕ) (s t : PassState) (hs : s.InRange) (h : s.Agree m t) :
    (l.foldl f s).Agree m (l.foldl g t) := by
  induction l generalizing s t with
  | nil => exact h
  | cons a l ih => exact ih _ _ (hf s a hs) (hfg s t a hs h)

theorem pixelPass_data_congr (canvasWidth canvasHeight : ℕ) (data : List ℕ) (o : Options)
    (rnd rnd2 : ℕ → ℚ) (k : ℕ) (hdata : ∀ n ∈ data, n ≤ 255)
    (hrnd : ∀ n, 0 ≤ rnd n ∧ rnd n < 1) (hrnd2 : ∀ n, 0 ≤ rnd2 n ∧ rnd2 n < 1)
    (hr : ∀ n, k + 3 ≤ n → rnd n = rnd2 n) :
    (pixelPass canvasWidth canvasHeight data o rnd k).data =
      (pixelPass canvasWidth canvasHeight data o rnd2 k).data := by
  have hk : ∀ d, rnd (k + 3 + d) = rnd2 (k + 3 + d) := fun d => hr _ (by omega)
  have hk1 : ∀ d, rnd (k + 3 + 1 + d) = rnd2 (k + 3 + 1 + d) := fun d => hr _ (by omega)
  have hhue : (prepareDraws canvasWidth canvasHeight data.length o rnd k).hueAdjust =
      (prepareDraws canvasWidth canvasHeight data.length o rnd2 k).hueAdjust := by
    simp only [prepareDraws, hr (k + 3) (le_refl _)]
  have huniq : (prepareDraws canvasWidth canvasHeight data.length o rnd k).uniquePixels =
      (prepareDraws canvasWidth canvasHeight data.length o rnd2 k).uniquePixels := by
    simp only [prepareDraws]
    split_ifs
    · simp only [hk1]
    · simp only [hk]
  have hreg : (prepareDraws canvasWidth canvasHeight data.length o rnd k).regions =
      (prepareDraws canvasWidth canvasHeight data.length o rnd2 k).regions := by
    simp only [prepareDraws]
    split_ifs <;>
      first
        | rfl
        | exact buildRegions_congr _ _ _ _ (fun n hn => hr n (by omega))
  have hdraws : (prepareDraws canvasWidth canvasHeight data.length o rnd k).draws =
      (prepareDraws canvasWidth canvasHeight data.length o rnd2 k).draws := rfl
  have hge : k + 3 ≤ (prepareDraws canvasWidth canvasHeight data.length o rnd k).draws := by
    simp only [prepareDraws]
    split_ifs <;> omega
  have key := foldl_agree (m := k + 3)
    (pixelBody canvasWidth o (prepareDraws canvasWidth canvasHeight data.length o rnd k) rnd)
    (pixelBody canvasWidth o (prepareDraws canvasWidth canvasHeight data.length o rnd2 k) rnd2)
    (fun s n hs => pixelBody_inRange canvasWidth o _ rnd
      (prepareDraws_hue canvasWidth canvasHeight data.length o rnd k hrnd) hs n)
    (fun s t n hs hst => pixelBody_agree canvasWidth o _ _ hr hhue huniq hreg
      (adjust_bounds (hrnd k).1 (hrnd k).2) (adjust_bounds (hrnd (k + 1)).1 (hrnd (k + 1)).2)
      (adjust_bounds (hrnd (k + 2)).1 (hrnd (k + 2)).2)
      (adjust_bounds (hrnd2 k).1 (hrnd2 k).2) (adjust_bounds (hrnd2 (k + 1)).1 (hrnd2 (k + 1)).2)
      (adjust_bounds (hrnd2 (k + 2)).1 (hrnd2 (k + 2)).2) hs hst n)
    (List.range ((data.length + 3) / 4))
    { data := data, written := [],
      draws := (prepareDraws canvasWidth canvasHeight data.length o rnd k).draws }
    { data := data, written := [],
      draws := (prepareDraws canvasWidth canvasHeight data.length o rnd2 k).draws }
    ⟨hdata, fun v hv => absurd hv (List.not_mem_nil v)⟩
    ⟨rfl, hdraws, hge⟩
  exact key.1

/-- C9: on a canvas of `2 × 2` and the default options, two runs of the
per-pixel pass whose draws differ exactly in the three draws of the channel
offsets (offsets `0, 0, 0` against `-1/4, -1/8, 1/8`) produce the same sample
array: an offset of at most a quarter added to an integer sample is rounded
away by the 8-bit store. -/
theorem channel_draws_leave_output_identical :
    (prepareDraws 2 2 16 defaultOptions halfDraws 0).redAdjust ≠
      (prepareDraws 2 2 16 defaultOptions otherChannelDraws 0).redAdjust ∧
    (prepareDraws 2 2 16 defaultOptions halfDraws 0).greenAdjust ≠
      (prepareDraws 2 2 16 defaultOptions otherChannelDraws 0).greenAdjust ∧
    (prepareDraws 2 2 16 defaultOptions halfDraws 0).blueAdjust ≠
      (prepareDraws 2 2 16 defaultOptions otherChannelDraws 0).blueAdjust ∧
    (∀ n, 3 ≤ n → halfDraws n = otherChannelDraws n) ∧
    (pixelPass 2 2 passInput defaultOptions halfDraws 0).data =
      (pixelPass 2 2 passInput defaultOptions otherChannelDraws 0).data := by
  have hagree : ∀ n, 0 + 3 ≤ n → halfDraws n = otherChannelDraws n := by
    intro n hn
    have h0 : n ≠ 0 := by omega
    have h1 : n ≠ 1 := by omega
    have h2 : n ≠ 2 := by omega
    simp [halfDraws, otherChannelDraws, h0, h1, h2]
  refine ⟨?_, ?_, ?_, fun n hn => hagree n (by omega), ?_⟩
  · norm_num [prepareDraws, halfDraws, otherChannelDraws]
  · norm_num [prepareDraws, halfDraws, otherChannelDraws]
  · norm_num [prepareDraws, halfDraws, otherChannelDraws]
  · apply pixelPass_data_congr 2 2 passInput defaultOptions halfDraws otherChannelDraws 0
    · decide
    · intro n
      norm_num [halfDraws]
    · intro n
      unfold otherChannelDraws
      split_ifs <;> norm_num
    · exact hagree

/-! ## Edge blur -/

/-- C10: on the canvas of `2 × 2` whose only non-zero colour sample is a red of
`100` in the pixel `(1, 0)`, which lies in the border band, the blur stores `31`
in that red sample, the rounded mean of `25, 100, 0, 0` where `25` is the value
already stored in the pixel `(0, 0)` by the blur; the rounded mean of the
values held before the blur started, `0, 100, 0, 0`, is `25`. -/
theorem blur_reads_already_blurred_neighbours :
    inEdgeBand 2 2 1 0 = true ∧
    blurInput.getD ((0 * 2 + 1) * 4) 0 = 100 ∧
    (applyEdgeBlur 2 2 blurInput).getD ((0 * 2 + 0) * 4) 0 = 25 ∧
    (applyEdgeBlur 2 2 blurInput).getD ((0 * 2 + 1) * 4) 0 = 31 ∧
    neighbourMean 2 2 blurInput 1 0 0 = 25 := by
  decide!

/-! ## Edge processing: frame of the blur -/

theorem pixel_divmod {w x : ℕ} (y : ℕ) (hx : x < w) :
    (y * w + x) % w = x ∧ (y * w + x) / w = y := by
  have hw : 0 < w := by omega
  constructor
  · rw [Nat.add_comm, Nat.add_mul_mod_self_right, Nat.mod_eq_of_lt hx]
  · rw [Nat.add_comm, Nat.add_mul_div_right _ _ hw, Nat.div_eq_of_lt hx, Nat.zero_add]

theorem pixel_index_inj {w x y x2 y2 : ℕ} (hx : x < w) (hx2 : x2 < w)
    (h : y * w + x = y2 * w + x2) : x = x2 ∧ y = y2 := by
  have h1 := pixel_divmod y hx
  have h2 := pixel_divmod y2 hx2
  rw [h] at h1
  exact ⟨h1.1.symm.trans h2.1, h1.2.symm.trans h2.2⟩

theorem foldl_length_eq {β : Type} (f : List ℕ → β → List ℕ) (n : ℕ)
    (hf : ∀ d b, d.length = n → (f d b).length = n) (l : List β) (d : List ℕ)
    (hd : d.length = n) : (l.foldl f d).length = n := by
  induction l generalizing d with
  | nil => exact hd
  | cons b l ih => exact ih _ (hf d b hd)

theorem foldl_getD_frame {β : Type} (f : List ℕ → β → List ℕ) (idx : ℕ) (l : List β)
    (hf : ∀ d b, b ∈ l → (f d b).getD idx 0 = d.getD idx 0) (d : List ℕ) :
    (l.foldl f d).getD idx 0 = d.getD idx 0 := by
  induction l generalizing d with
  | nil => rfl
  | cons b l ih =>
    rw [List.foldl_cons, ih (fun d c hc => hf d c (List.mem_cons_of_mem _ hc)),
      hf d b (List.mem_cons_self _ _)]

theorem getD_set_ne (d : List ℕ) {i idx : ℕ} (v : ℕ) (h : i ≠ idx) :
    (d.set i v).getD idx 0 = d.getD idx 0 := by
  simp [List.getD_eq_getElem?_getD, List.getElem?_set_ne h]

theorem getD_set_self (d : List ℕ) {i : ℕ} (v : ℕ) (h : i < d.length) :
    (d.set i v).getD i 0 = v := by
  simp [List.getD_eq_getElem?_getD, List.getElem?_set_self h]

theorem blurPixel_length (w h : ℕ) (d : List ℕ) (x y : ℕ) :
    (blurPixel w h d x y).length = d.length := by
  unfold blurPixel
  dsimp only
  split_ifs <;> simp

theorem blurPixel_frame (w h : ℕ) (d : List ℕ) (x y idx : ℕ)
    (hne : inEdgeBand w h x y = true →
      idx ≠ (y * w + x) * 4 ∧ idx ≠ (y * w + x) * 4 + 1 ∧ idx ≠ (y * w + x) * 4 + 2) :
    (blurPixel w h d x y).getD idx 0 = d.getD idx 0 := by
  unfold blurPixel
  dsimp only
  split_ifs with hb
  · obtain ⟨h0, h1, h2⟩ := hne hb
    rw [getD_set_ne _ _ (Ne.symm h2), getD_set_ne _ _ (Ne.symm h1),
      getD_set_ne _ _ (Ne.symm h0)]
  · rfl
  · rfl

theorem applyEdgeBlur_length (w h : ℕ) (data : List ℕ) :
    (applyEdgeBlur w h data).length = data.length := by
  unfold applyEdgeBlur
  apply foldl_length_eq _ data.length _ _ _ rfl
  intro d y hd
  apply foldl_length_eq _ data.length _ _ _ hd
  intro d2 x hd2
  rw [blurPixel_length, hd2]

theorem applyEdgeBlur_frame (w h : ℕ) (data : List ℕ) (idx : ℕ)
    (hne : ∀ x y, x < w → y < h → inEdgeBand w h x y = true →
      idx ≠ (y * w + x) * 4 ∧ idx ≠ (y * w + x) * 4 + 1 ∧ idx ≠ (y * w + x) * 4 + 2) :
    (applyEdgeBlur w h data).getD idx 0 = data.getD idx 0 := by
  unfold applyEdgeBlur
  apply foldl_getD_frame
  intro d y hy
  apply foldl_getD_frame
  intro d2 x hx
  exact blurPixel_frame w h d2 x y idx
    (hne x y (List.mem_range.mp hx) (List.mem_range.mp hy))

theorem inEdgeBand_iff (w h x y : ℕ) :
    inEdgeBand w h x y = true ↔ (x < 5 ∨ w ≤ x + 5 ∨ y < 5 ∨ h ≤ y + 5) := by
  simp only [inEdgeBand, edgeThickness, Bool.or_eq_true, decide_eq_true_eq]
  omega

theorem applyEdgeProcessing_blur (w h : ℕ) (data : List ℕ) (rnd : ℕ → ℚ) (k : ℕ) :
    applyEdgeProcessing w h data "blur" rnd k =
      if w = 10 ∨ h = 10 then Except.error "IndexSizeError"
      else Except.ok (applyEdgeBlur w h data) := by
  have h1 : ¬ ("blur" = "crop") := by decide
  simp only [applyEdgeProcessing, h1, if_false, if_true, getImageData, edgeThickness]
  have e : ((w : ℤ) - 5 * 2 = 0 ∨ (h : ℤ) - 5 * 2 = 0) ↔ (w = 10 ∨ h = 10) := by omega
  by_cases hc : w = 10 ∨ h = 10
  · rw [if_pos (e.mpr hc), if_pos hc]
  · rw [if_neg (fun h => hc (e.mp h)), if_neg hc]

/-- C11: when `applyEdgeProcessing` with kind `'blur'` returns, every sample of
every interior pixel `(x, y)` with `5 ≤ x < width - 5` and `5 ≤ y < height - 5`
and the alpha sample of every pixel are the ones of the input, and the number
of samples is unchanged; it returns unless the width or the height is `10`,
where reading `centerData` raises and the canvas is not written at all. -/
theorem blur_leaves_interior_and_alpha (w h : ℕ) (data : List ℕ) (rnd : ℕ → ℚ) (k : ℕ) :
    (∀ result, applyEdgeProcessing w h data "blur" rnd k = Except.ok result →
      result.length = data.length ∧
      (∀ x y c, 5 ≤ x → x + 5 < w → 5 ≤ y → y + 5 < h → c < 4 →
        result.getD ((y * w + x) * 4 + c) 0 = data.getD ((y * w + x) * 4 + c) 0) ∧
      (∀ p, result.getD (p * 4 + 3) 0 = data.getD (p * 4 + 3) 0)) ∧
    ((∃ result, applyEdgeProcessing w h data "blur" rnd k = Except.ok result) ↔
      (w ≠ 10 ∧ h ≠ 10)) := by
  rw [applyEdgeProcessing_blur]
  constructor
  · intro result hres
    split_ifs at hres with hc
    have hr : result = applyEdgeBlur w h data := by
      injection hres with hres
      exact hres.symm
    subst hr
    refine ⟨applyEdgeBlur_length w h data, ?_, ?_⟩
    · intro x y c hx5 hxw hy5 hyh hc4
      apply applyEdgeBlur_frame
      intro x2 y2 hx2 hy2 hband
      rw [inEdgeBand_iff] at hband
      have hne : y2 * w + x2 ≠ y * w + x := by
        intro heq
        obtain ⟨e1, e2⟩ := pixel_index_inj hx2 (by omega) heq
        subst e1 e2
        omega
      omega
    · intro p
      apply applyEdgeBlur_frame
      intro x2 y2 _ _ _
      omega
  · split_ifs with hc
    · constructor
      · rintro ⟨result, hres⟩
        exact absurd hres (by simp)
      · intro hne
        omega
    · constructor
      · intro _
        omega
      · intro _
        exact ⟨_, rfl⟩

theorem blur_leaves_interior_and_alpha_witness :
    (∃ result, applyEdgeProcessing 11 11 (List.replicate 484 7) "blur" halfDraws 0 =
      Except.ok result) ∧
    ∀ result, applyEdgeProcessing 11 11 (List.replicate 484 7) "blur" halfDraws 0 =
        Except.ok result →
      result.getD ((5 * 11 + 5) * 4 + 0) 0 = (List.replicate 484 7).getD ((5 * 11 + 5) * 4 + 0) 0 :=
  ⟨(blur_leaves_interior_and_alpha 11 11 (List.replicate 484 7) halfDraws 0).2.mpr
      ⟨by decide, by decide⟩,
    fun result hres => ((blur_leaves_interior_and_alpha 11 11 (List.replicate 484 7) halfDraws 0).1
      result hres).2.1 5 5 0 (by decide) (by decide) (by decide) (by decide) (by decide)⟩

/-! ## Edge processing: sharpen -/

theorem clampByte_eq (val : ℤ) :
    clampByte val = if val < 0 then 0 else if 255 < val then 255 else val.toNat := by
  unfold clampByte
  split_ifs with h1 h2
  · rw [max_eq_left (le_of_lt h1), min_eq_right (by norm_num)]
    rfl
  · rw [max_eq_right (by omega), min_eq_left (le_of_lt h2)]
    rfl
  · rw [max_eq_right (by omega), min_eq_right (by omega)]

theorem foldl_getD_const {β : Type} (f : List ℕ → β → List ℕ) (W : β → Prop) (V idx n : ℕ)
    (l : List β)
    (hf : ∀ d b, b ∈ l → d.length = n → (f d b).length = n ∧
      (W b → (f d b).getD idx 0 = V) ∧ (¬ W b → (f d b).getD idx 0 = d.getD idx 0))
    (d : List ℕ) (hd : d.length = n) :
    (l.foldl f d).length = n ∧
    ((∃ b ∈ l, W b) → (l.foldl f d).getD idx 0 = V) ∧
    ((∀ b ∈ l, ¬ W b) → (l.foldl f d).getD idx 0 = d.getD idx 0) := by
  induction l using List.reverseRecOn with
  | nil => exact ⟨hd, fun ⟨b, hb, _⟩ => absurd hb (List.not_mem_nil b), fun _ => rfl⟩
  | append_singleton l b ih =>
    obtain ⟨ih1, ih2, ih3⟩ := ih (fun d c hc => hf d c (List.mem_append_left _ hc))
    obtain ⟨s1, s2, s3⟩ := hf (l.foldl f d) b
      (List.mem_append_right _ (List.mem_singleton_self b)) ih1
    rw [List.foldl_append, List.foldl_cons, List.foldl_nil]
    refine ⟨s1, ?_, ?_⟩
    · rintro ⟨c, hc, hWc⟩
      by_cases hWb : W b
      · exact s2 hWb
      · rw [s3 hWb]
        rcases List.mem_append.mp hc with h | h
        · exact ih2 ⟨c, h, hWc⟩
        · rw [List.mem_singleton] at h
          exact absurd (h ▸ hWc) hWb
    · intro hall
      rw [s3 (hall b (List.mem_append_right _ (List.mem_singleton_self b)))]
      exact ih3 (fun c hc => hall c (List.mem_append_left _ hc))

theorem sharpenPixel_spec (w h : ℕ) (t d : List ℕ) (x y idx n : ℕ) (hx : 1 ≤ x) (hy : 1 ≤ y)
    (hd : d.length = n) (hidx : idx < n) :
    (sharpenPixel w h t d x y).length = n ∧
    ((inEdgeBand w h x y = true ∧ (y * w + x) * 4 ≤ idx ∧ idx < (y * w + x) * 4 + 3) →
      (sharpenPixel w h t d x y).getD idx 0 =
        clampByte (5 * (t.getD idx 0 : ℤ) - (t.getD (idx - 4) 0 : ℤ) - (t.getD (idx + 4) 0 : ℤ)
          - (t.getD (idx - w * 4) 0 : ℤ) - (t.getD (idx + w * 4) 0 : ℤ))) ∧
    (¬ (inEdgeBand w h x y = true ∧ (y * w + x) * 4 ≤ idx ∧ idx < (y * w + x) * 4 + 3) →
      (sharpenPixel w h t d x y).getD idx 0 = d.getD idx 0) := by
  have hyw : w ≤ y * w := Nat.le_mul_of_pos_left w hy
  have key := foldl_getD_const
    (fun data c =>
      if inEdgeBand w h x y then
        data.set ((y * w + x) * 4 + c)
          (clampByte (5 * (t.getD ((y * w + x) * 4 + c) 0 : ℤ)
            - (t.getD ((y * w + x) * 4 - 4 + c) 0 : ℤ)
            - (t.getD ((y * w + x) * 4 + 4 + c) 0 : ℤ)
            - (t.getD ((y * w + x) * 4 - w * 4 + c) 0 : ℤ)
            - (t.getD ((y * w + x) * 4 + w * 4 + c) 0 : ℤ)))
      else data)
    (fun c => inEdgeBand w h x y = true ∧ (y * w + x) * 4 + c = idx)
    (clampByte (5 * (t.getD idx 0 : ℤ) - (t.getD (idx - 4) 0 : ℤ) - (t.getD (idx + 4) 0 : ℤ)
      - (t.getD (idx - w * 4) 0 : ℤ) - (t.getD (idx + w * 4) 0 : ℤ)))
    idx n (List.range 3)
    (by
      intro d2 c _ hd2
      dsimp only
      refine ⟨?_, ?_, ?_⟩
      · split_ifs <;> simp [hd2]
      · rintro ⟨hb, hc⟩
        have e1 : (y * w + x) * 4 - 4 + c = idx - 4 := by omega
        have e2 : (y * w + x) * 4 + 4 + c = idx + 4 := by omega
        have e3 : (y * w + x) * 4 - w * 4 + c = idx - w * 4 := by omega
        have e4 : (y * w + x) * 4 + w * 4 + c = idx + w * 4 := by omega
        rw [if_pos hb, hc, e1, e2, e3, e4]
        exact getD_set_self _ _ (by rw [hd2]; exact hidx)
      · intro hW
        split_ifs with hb
        · exact getD_set_ne _ _ (fun hc => hW ⟨hb, hc⟩)
        · rfl)
    d hd
  obtain ⟨k1, k2, k3⟩ := key
  refine ⟨k1, ?_, ?_⟩
  · rintro ⟨hb, h1, h2⟩
    exact k2 ⟨idx - (y * w + x) * 4, List.mem_range.mpr (by omega), hb, by omega⟩
  · intro hW
    apply k3
    rintro c hc ⟨hb, hci⟩
    have := List.mem_range.mp hc
    exact hW ⟨hb, by omega, by omega⟩

theorem applyEdgeSharpen_spec (w h : ℕ) (data : List ℕ) (idx : ℕ) (hidx : idx < data.length) :
    (applyEdgeSharpen w h data).length = data.length ∧
    ((∃ y ∈ List.range' 1 (h - 2), ∃ x ∈ List.range' 1 (w - 2),
        inEdgeBand w h x y = true ∧ (y * w + x) * 4 ≤ idx ∧ idx < (y * w + x) * 4 + 3) →
      (applyEdgeSharpen w h data).getD idx 0 =
        clampByte (5 * (data.getD idx 0 : ℤ) - (data.getD (idx - 4) 0 : ℤ)
          - (data.getD (idx + 4) 0 : ℤ) - (data.getD (idx - w * 4) 0 : ℤ)
          - (data.getD (idx + w * 4) 0 : ℤ))) ∧
    ((∀ y ∈ List.range' 1 (h - 2), ¬ ∃ x ∈ List.range' 1 (w - 2),
        inEdgeBand w h x y = true ∧ (y * w + x) * 4 ≤ idx ∧ idx < (y * w + x) * 4 + 3) →
      (applyEdgeSharpen w h data).getD idx 0 = data.getD idx 0) := by
  unfold applyEdgeSharpen
  dsimp only
  apply foldl_getD_const
    (fun d y => (List.range' 1 (w - 2)).foldl (fun d x => sharpenPixel w h data d x y) d)
    (fun y => ∃ x ∈ List.range' 1 (w - 2),
      inEdgeBand w h x y = true ∧ (y * w + x) * 4 ≤ idx ∧ idx < (y * w + x) * 4 + 3)
    _ idx data.length (List.range' 1 (h - 2)) _ data rfl
  intro d y hy hd
  have hy1 : 1 ≤ y := (List.mem_range'_1.mp hy).1
  have row := foldl_getD_const (fun d x => sharpenPixel w h data d x y)
    (fun x => inEdgeBand w h x y = true ∧ (y * w + x) * 4 ≤ idx ∧ idx < (y * w + x) * 4 + 3)
    (clampByte (5 * (data.getD idx 0 : ℤ) - (data.getD (idx - 4) 0 : ℤ)
      - (data.getD (idx + 4) 0 : ℤ) - (data.getD (idx - w * 4) 0 : ℤ)
      - (data.getD (idx + w * 4) 0 : ℤ)))
    idx data.length (List.range' 1 (w - 2))
    (fun d2 x hx hd2 =>
      sharpenPixel_spec w h data d2 x y idx data.length (List.mem_range'_1.mp hx).1 hy1 hd2 hidx)
    d hd
  obtain ⟨r1, r2, r3⟩ := row
  refine ⟨r1, r2, ?_⟩
  intro hno
  apply r3
  intro x hx hW
  exact hno ⟨x, hx, hW⟩

theorem sharpen_written_iff (w h idx : ℕ) :
    (∃ y ∈ List.range' 1 (h - 2), ∃ x ∈ List.range' 1 (w - 2),
      inEdgeBand w h x y = true ∧ (y * w + x) * 4 ≤ idx ∧ idx < (y * w + x) * 4 + 3) ↔
    (idx % 4 < 3 ∧ 1 ≤ idx / 4 % w ∧ idx / 4 % w + 2 ≤ w ∧ 1 ≤ idx / 4 / w ∧
      idx / 4 / w + 2 ≤ h ∧
      (idx / 4 % w < 5 ∨ w ≤ idx / 4 % w + 5 ∨ idx / 4 / w < 5 ∨ h ≤ idx / 4 / w + 5)) := by
  constructor
  · rintro ⟨y, hy, x, hx, hb, h1, h2⟩
    rw [List.mem_range'_1] at hy hx
    rw [inEdgeBand_iff] at hb
    have hxw : x < w := by omega
    have e4 : idx / 4 = y * w + x := by omega
    obtain ⟨em, ed⟩ := pixel_divmod y hxw
    rw [e4, em, ed]
    refine ⟨by omega, by omega, by omega, by omega, by omega, hb⟩
  · rintro ⟨hc, hx1, hx2, hy1, hy2, hb⟩
    have hw : 0 < w := by omega
    have e : idx / 4 / w * w + idx / 4 % w = idx / 4 := by
      rw [Nat.mul_comm]
      exact Nat.div_add_mod (idx / 4) w
    refine ⟨idx / 4 / w, List.mem_range'_1.mpr (by omega), idx / 4 % w,
      List.mem_range'_1.mpr (by omega), (inEdgeBand_iff _ _ _ _).mpr hb, ?_, ?_⟩
    · rw [e]; omega
    · rw [e]; omega

theorem getD_eq_getElem_of_lt (l : List ℕ) {i : ℕ} (h : i < l.length) : l.getD i 0 = l[i] := by
  rw [List.getD_eq_getElem?_getD, List.getElem?_eq_getElem h, Option.getD_some]

theorem applyEdgeSharpen_eq_reference (w h : ℕ) (data : List ℕ) :
    applyEdgeSharpen w h data = (List.range data.length).map (sharpenReference w h data) := by
  apply List.ext_getElem
  · rw [List.length_map, List.length_range]
    rcases Nat.eq_zero_or_pos data.length with h0 | h0
    · have hnil : data = [] := List.length_eq_zero.mp h0
      subst hnil
      unfold applyEdgeSharpen
      dsimp only
      exact foldl_length_eq _ 0
        (fun d y hd => foldl_length_eq _ 0
          (fun d2 x hd2 => by
            have hn : d2 = [] := List.length_eq_zero.mp hd2
            subst hn
            simp [sharpenPixel, List.range_succ]) _ d hd) _ [] rfl
    · exact (applyEdgeSharpen_spec w h data 0 h0).1
  · intro idx h1 h2
    rw [List.length_map, List.length_range] at h2
    obtain ⟨-, s2, s3⟩ := applyEdgeSharpen_spec w h data idx h2
    rw [← getD_eq_getElem_of_lt _ h1, List.getElem_map, List.getElem_range]
    unfold sharpenReference
    dsimp only
    by_cases hW : idx % 4 < 3 ∧ 1 ≤ idx / 4 % w ∧ idx / 4 % w + 2 ≤ w ∧ 1 ≤ idx / 4 / w ∧
        idx / 4 / w + 2 ≤ h ∧
        (idx / 4 % w < 5 ∨ w ≤ idx / 4 % w + 5 ∨ idx / 4 / w < 5 ∨ h ≤ idx / 4 / w + 5)
    · rw [if_pos hW]
      exact (s2 ((sharpen_written_iff w h idx).mpr hW)).trans (clampByte_eq _)
    · rw [if_neg hW]
      apply s3
      intro y hy hx
      exact hW ((sharpen_written_iff w h idx).mp ⟨y, hy, hx⟩)

/-- C12: on a buffer of `4 * width * height` samples `applyEdgeProcessing` with
kind `'sharpen'` returns the reference: each colour sample of a pixel `(x, y)`
with `1 ≤ x ≤ width - 2` and `1 ≤ y ≤ height - 2` in the border band of five
pixels is `clamp(5 * center - left - right - up - down, 0, 255)` of the
values before the sharpening, every other sample is unchanged. -/
theorem sharpen_equals_reference (w h : ℕ) (data : List ℕ) (_hlen : data.length = 4 * w * h)
    (rnd : ℕ → ℚ) (k : ℕ) :
    applyEdgeProcessing w h data "sharpen" rnd k =
      Except.ok ((List.range data.length).map (sharpenReference w h data)) := by
  have h1 : ¬ ("sharpen" = "crop") := by decide
  have h2 : ¬ ("sharpen" = "blur") := by decide
  simp only [applyEdgeProcessing, h1, h2, if_false, if_true]
  rw [applyEdgeSharpen_eq_reference]

theorem sharpen_equals_reference_witness :
    sharpenInput.length = 4 * 3 * 3 ∧
    applyEdgeProcessing 3 3 sharpenInput "sharpen" halfDraws 0 =
      Except.ok ((List.range sharpenInput.length).map (sharpenReference 3 3 sharpenInput)) ∧
    (List.range sharpenInput.length).map (sharpenReference 3 3 sharpenInput) =
      [10, 20, 30, 255, 10, 20, 30, 255, 10, 20, 30, 255,
        10, 20, 30, 255, 255, 0, 80, 255, 10, 20, 30, 255,
        10, 20, 30, 255, 10, 20, 30, 255, 10, 20, 30, 255] :=
  ⟨by decide, sharpen_equals_reference 3 3 sharpenInput (by decide) halfDraws 0, by decide⟩

/-! ## Edge processing: crop -/

theorem getD_map_range (f : ℕ → ℕ) (n j : ℕ) :
    ((List.range n).map f).getD j 0 = if j < n then f j else 0 := by
  rw [List.getD_eq_getElem?_getD, List.getElem?_map]
  split_ifs with h
  · rw [List.getElem?_range h]
    rfl
  · rw [List.getElem?_eq_none (by rw [List.length_range]; omega)]
    rfl

theorem getD_clearRect (w h idx : ℕ) : (clearRect w h).getD idx 0 = 0 := by
  unfold clearRect
  rw [List.getD_eq_getElem?_getD]
  by_cases hi : idx < 4 * w * h
  · rw [List.getElem?_eq_getElem (by rw [List.length_replicate]; exact hi)]
    simp
  · rw [List.getElem?_eq_none (by rw [List.length_replicate]; omega)]
    rfl

theorem cropPixels_cases {u : ℚ} (h0 : 0 ≤ u) (h1 : u < 1) :
    cropPixels u = 1 ∨ cropPixels u = 2 ∨ cropPixels u = 3 := by
  obtain ⟨a, b⟩ := floor_three_draw h0 h1
  unfold cropPixels
  omega

theorem crop_image_index {iw ih a b c4 : ℕ} (ha : a < iw) (hb : b < ih) (hc : c4 < 4) :
    (b * iw + a) * 4 + c4 < 4 * iw * ih := by
  have h1 : (b + 1) * iw ≤ ih * iw := Nat.mul_le_mul_right iw hb
  have h2 : (b + 1) * iw = b * iw + iw := by ring
  have h3 : 4 * iw * ih = 4 * (ih * iw) := by ring
  omega

theorem applyEdgeCrop_eq_reference (w h : ℕ) (data : List ℕ) (u : ℚ) (c : ℕ)
    (hc : cropPixels u = (c : ℤ)) (hw : 2 * c < w) (hh : 2 * c < h) :
    applyEdgeCrop w h data u =
      Except.ok ((List.range (4 * w * h)).map (cropReference w h data c)) := by
  have hsw : ¬ ((w : ℤ) - (c : ℤ) * 2 = 0 ∨ (h : ℤ) - (c : ℤ) * 2 = 0) := by omega
  have hnw : ¬ ((w : ℤ) - (c : ℤ) * 2 < 0) := by omega
  have hnh : ¬ ((h : ℤ) - (c : ℤ) * 2 < 0) := by omega
  have ew : ((w : ℤ) - (c : ℤ) * 2).natAbs = w - 2 * c := by omega
  have eh : ((h : ℤ) - (c : ℤ) * 2).natAbs = h - 2 * c := by omega
  simp only [applyEdgeCrop, hc, getImageData, if_neg hsw, if_neg hnw, if_neg hnh, ew, eh]
  congr 1
  apply List.map_congr_left
  intro idx hidx
  have hidx2 : idx < 4 * w * h := List.mem_range.mp hidx
  have hwpos : 0 < w := by omega
  have hx : idx / 4 % w < w := Nat.mod_lt _ hwpos
  have hy : idx / 4 / w < h := by
    rw [Nat.div_lt_iff_lt_mul hwpos, Nat.div_lt_iff_lt_mul (by norm_num)]
    calc idx < 4 * w * h := hidx2
      _ = h * w * 4 := by ring
  have e : idx / 4 / w * w + idx / 4 % w = idx / 4 := by
    rw [Nat.mul_comm]
    exact Nat.div_add_mod (idx / 4) w
  unfold cropReference
  dsimp only
  by_cases hin : c ≤ idx / 4 % w ∧ idx / 4 % w + c < w ∧ c ≤ idx / 4 / w ∧ idx / 4 / w + c < h
  · have hin2 : (c : ℤ) ≤ ((idx / 4 % w : ℕ) : ℤ) ∧
        ((idx / 4 % w : ℕ) : ℤ) < (c : ℤ) + ((w - 2 * c : ℕ) : ℤ) ∧
        (c : ℤ) ≤ ((idx / 4 / w : ℕ) : ℤ) ∧
        ((idx / 4 / w : ℕ) : ℤ) < (c : ℤ) + ((h - 2 * c : ℕ) : ℤ) := by omega
    rw [if_pos hin2, if_pos hin, getD_map_range]
    have ea : (((idx / 4 % w : ℕ) : ℤ) - (c : ℤ)).toNat = idx / 4 % w - c := by omega
    have eb : (((idx / 4 / w : ℕ) : ℤ) - (c : ℤ)).toNat = idx / 4 / w - c := by omega
    rw [ea, eb]
    have hlt : ((idx / 4 / w - c) * (w - 2 * c) + (idx / 4 % w - c)) * 4 + idx % 4 <
        4 * (w - 2 * c) * (h - 2 * c) :=
      crop_image_index (by omega) (by omega) (Nat.mod_lt _ (by norm_num))
    rw [if_pos hlt]
    have e4 : (((idx / 4 / w - c) * (w - 2 * c) + (idx / 4 % w - c)) * 4 + idx % 4) / 4 =
        (idx / 4 / w - c) * (w - 2 * c) + (idx / 4 % w - c) := by omega
    have em4 : (((idx / 4 / w - c) * (w - 2 * c) + (idx / 4 % w - c)) * 4 + idx % 4) % 4 =
        idx % 4 := by omega
    obtain ⟨pm, pd⟩ := pixel_divmod (w := w - 2 * c) (x := idx / 4 % w - c) (idx / 4 / w - c)
      (by omega)
    rw [e4, em4, pm, pd]
    have hcanvas : (0 : ℤ) ≤ (c : ℤ) + ((idx / 4 % w - c : ℕ) : ℤ) ∧
        (c : ℤ) + ((idx / 4 % w - c : ℕ) : ℤ) < (w : ℤ) ∧
        (0 : ℤ) ≤ (c : ℤ) + ((idx / 4 / w - c : ℕ) : ℤ) ∧
        (c : ℤ) + ((idx / 4 / w - c : ℕ) : ℤ) < (h : ℤ) := by omega
    rw [if_pos hcanvas]
    have fa : ((c : ℤ) + ((idx / 4 % w - c : ℕ) : ℤ)).toNat = idx / 4 % w := by omega
    have fb : ((c : ℤ) + ((idx / 4 / w - c : ℕ) : ℤ)).toNat = idx / 4 / w := by omega
    rw [fa, fb, e]
    congr 1
    omega
  · have hin2 : ¬ ((c : ℤ) ≤ ((idx / 4 % w : ℕ) : ℤ) ∧
        ((idx / 4 % w : ℕ) : ℤ) < (c : ℤ) + ((w - 2 * c : ℕ) : ℤ) ∧
        (c : ℤ) ≤ ((idx / 4 / w : ℕ) : ℤ) ∧
        ((idx / 4 / w : ℕ) : ℤ) < (c : ℤ) + ((h - 2 * c : ℕ) : ℤ)) := by omega
    rw [if_neg hin2, if_neg hin, getD_clearRect]

/-- C13: `applyEdgeProcessing` with kind `'crop'` draws a crop size `c` in
`{1, 2, 3}`, and on a canvas of `width > 2 * c` and `height > 2 * c` it returns
a buffer of the same size in which every pixel `(x, y)` with
`c ≤ x < width - c` and `c ≤ y < height - c` has its four original samples and
every other pixel has its four samples at `0`. -/
theorem crop_keeps_inner_clears_border (w h : ℕ) (data : List ℕ)
    (hlen : data.length = 4 * w * h) (rnd : ℕ → ℚ) (k : ℕ)
    (hdraw : 0 ≤ rnd k ∧ rnd k < 1) :
    ∃ c : ℕ, (c = 1 ∨ c = 2 ∨ c = 3) ∧ cropPixels (rnd k) = (c : ℤ) ∧
      (2 * c < w → 2 * c < h →
        ∃ result, applyEdgeProcessing w h data "crop" rnd k = Except.ok result ∧
          result.length = data.length ∧
          ∀ x y s, x < w → y < h → s < 4 →
            result.getD ((y * w + x) * 4 + s) 0 =
              if c ≤ x ∧ x + c < w ∧ c ≤ y ∧ y + c < h then
                data.getD ((y * w + x) * 4 + s) 0
              else 0) := by
  have hcases := cropPixels_cases hdraw.1 hdraw.2
  obtain ⟨c, hc123, hc⟩ : ∃ c : ℕ, (c = 1 ∨ c = 2 ∨ c = 3) ∧ cropPixels (rnd k) = (c : ℤ) := by
    rcases hcases with h1 | h2 | h3
    · exact ⟨1, Or.inl rfl, h1⟩
    · exact ⟨2, Or.inr (Or.inl rfl), h2⟩
    · exact ⟨3, Or.inr (Or.inr rfl), h3⟩
  refine ⟨c, hc123, hc, fun hw hh => ?_⟩
  refine ⟨(List.range (4 * w * h)).map (cropReference w h data c), ?_, ?_, ?_⟩
  · simp only [applyEdgeProcessing, if_true]
    exact applyEdgeCrop_eq_reference w h data (rnd k) c hc hw hh
  · rw [List.length_map, List.length_range, hlen]
  · intro x y s hx hy hs
    have hidx : (y * w + x) * 4 + s < 4 * w * h := crop_image_index hx hy hs
    rw [getD_map_range, if_pos hidx]
    unfold cropReference
    dsimp only
    have e4 : ((y * w + x) * 4 + s) / 4 = y * w + x := by omega
    obtain ⟨pm, pd⟩ := pixel_divmod y hx
    rw [e4, pm, pd]

theorem crop_keeps_inner_clears_border_witness :
    (List.replicate 196 200).length = 4 * 7 * 7 ∧ (0 ≤ halfDraws 0 ∧ halfDraws 0 < 1) ∧
    ∃ c : ℕ, (c = 1 ∨ c = 2 ∨ c = 3) ∧ cropPixels (halfDraws 0) = (c : ℤ) ∧
      (2 * c < 7 → 2 * c < 7 →
        ∃ result, applyEdgeProcessing 7 7 (List.replicate 196 200) "crop" halfDraws 0 =
            Except.ok result ∧
          result.length = (List.replicate 196 200).length ∧
          ∀ x y s, x < 7 → y < 7 → s < 4 →
            result.getD ((y * 7 + x) * 4 + s) 0 =
              if c ≤ x ∧ x + c < 7 ∧ c ≤ y ∧ y + c < 7 then
                (List.replicate 196 200).getD ((y * 7 + x) * 4 + s) 0
              else 0) :=
  ⟨by rw [List.length_replicate], by norm_num [halfDraws],
    crop_keeps_inner_clears_border 7 7 (List.replicate 196 200)
      (by rw [List.length_replicate]) halfDraws 0 (by norm_num [halfDraws])⟩

/-! ## Encoding quality and return paths -/

/-- C14: for every `compressionLevel` in `{1, ..., 5}` and every draw `u` of
`[0, 1)` the quality of the first encode is
`clamp(base + (0.04 * u - 0.02), 0.70, 0.99)` with `base` equal to `0.95`,
`0.90`, `0.85`, `0.80`, `0.75` for the levels `1` to `5`, and it lies in
`[0.70, 0.99]`. -/
theorem compressionQuality_levels (level : ℤ) (u : ℚ) (hlevel : 1 ≤ level ∧ level ≤ 5)
    (_hu : 0 ≤ u ∧ u < 1) :
    ∃ base : ℚ,
      ((level = 1 ∧ base = 95 / 100) ∨ (level = 2 ∧ base = 90 / 100) ∨
        (level = 3 ∧ base = 85 / 100) ∨ (level = 4 ∧ base = 80 / 100) ∨
        (level = 5 ∧ base = 75 / 100)) ∧
      compressionQuality level u =
        min (99 / 100) (max (7 / 10) (base + (4 / 100 * u - 2 / 100))) ∧
      7 / 10 ≤ compressionQuality level u ∧ compressionQuality level u ≤ 99 / 100 := by
  obtain ⟨h1, h5⟩ := hlevel
  have hbounds : ∀ q : ℚ, 7 / 10 ≤ min (99 / 100) (max (7 / 10) q) ∧
      min (99 / 100) (max (7 / 10) q) ≤ 99 / 100 :=
    fun q => ⟨le_min (by norm_num) (le_max_left _ _), min_le_left _ _⟩
  have hcases : level = 1 ∨ level = 2 ∨ level = 3 ∨ level = 4 ∨ level = 5 := by omega
  have hcomm : u * (4 / 100) - 2 / 100 = 4 / 100 * u - 2 / 100 := by ring
  rcases hcases with rfl | rfl | rfl | rfl | rfl
  · refine ⟨95 / 100, Or.inl ⟨rfl, rfl⟩, ?_⟩
    have e : compressionQuality 1 u =
        min (99 / 100) (max (7 / 10) (95 / 100 + (4 / 100 * u - 2 / 100))) := by
      simp [compressionQuality, hcomm]
    rw [e]
    exact ⟨rfl, hbounds _⟩
  · refine ⟨90 / 100, Or.inr (Or.inl ⟨rfl, rfl⟩), ?_⟩
    have e : compressionQuality 2 u =
        min (99 / 100) (max (7 / 10) (90 / 100 + (4 / 100 * u - 2 / 100))) := by
      simp [compressionQuality, hcomm]
    rw [e]
    exact ⟨rfl, hbounds _⟩
  · refine ⟨85 / 100, Or.inr (Or.inr (Or.inl ⟨rfl, rfl⟩)), ?_⟩
    have e : compressionQuality 3 u =
        min (99 / 100) (max (7 / 10) (85 / 100 + (4 / 100 * u - 2 / 100))) := by
      simp [compressionQuality, hcomm]
    rw [e]
    exact ⟨rfl, hbounds _⟩
  · refine ⟨80 / 100, Or.inr (Or.inr (Or.inr (Or.inl ⟨rfl, rfl⟩))), ?_⟩
    have e : compressionQuality 4 u =
        min (99 / 100) (max (7 / 10) (80 / 100 + (4 / 100 * u - 2 / 100))) := by
      simp [compressionQuality, hcomm]
    rw [e]
    exact ⟨rfl, hbounds _⟩
  · refine ⟨75 / 100, Or.inr (Or.inr (Or.inr (Or.inr ⟨rfl, rfl⟩))), ?_⟩
    have e : compressionQuality 5 u =
        min (99 / 100) (max (7 / 10) (75 / 100 + (4 / 100 * u - 2 / 100))) := by
      simp [compressionQuality, hcomm]
    rw [e]
    exact ⟨rfl, hbounds _⟩

theorem compressionQuality_levels_witness :
    ((1 : ℤ) ≤ 4 ∧ (4 : ℤ) ≤ 5) ∧ ((0 : ℚ) ≤ 1 / 2 ∧ (1 / 2 : ℚ) < 1) ∧
    ∃ base : ℚ,
      (((4 : ℤ) = 1 ∧ base = 95 / 100) ∨ ((4 : ℤ) = 2 ∧ base = 90 / 100) ∨
        ((4 : ℤ) = 3 ∧ base = 85 / 100) ∨ ((4 : ℤ) = 4 ∧ base = 80 / 100) ∨
        ((4 : ℤ) = 5 ∧ base = 75 / 100)) ∧
      compressionQuality 4 (1 / 2) =
        min (99 / 100) (max (7 / 10) (base + (4 / 100 * (1 / 2) - 2 / 100))) ∧
      7 / 10 ≤ compressionQuality 4 (1 / 2) ∧ compressionQuality 4 (1 / 2) ≤ 99 / 100 :=
  ⟨by decide, by norm_num, compressionQuality_levels 4 (1 / 2) (by decide) (by norm_num)⟩

theorem secondPass_quality (img : DecodedImage) (rnd : ℕ → ℚ) (k : ℕ)
    (hrnd : ∀ n, 0 ≤ rnd n ∧ rnd n < 1) :
    ∃ u : ℚ, 0 ≤ u ∧ u < 1 ∧ (secondPass img rnd k).2 = 3 / 4 + 15 / 100 * u ∧
      3 / 4 ≤ (secondPass img rnd k).2 ∧ (secondPass img rnd k).2 ≤ 9 / 10 := by
  unfold secondPass
  dsimp only
  generalize ((List.range (mathFloor ((img.width : ℚ) * img.height * (1 / 1000))).toNat).foldl
    (fun st _ => perturbRandomPixel rnd st) (img.data, k)).2 = j
  obtain ⟨h0, h1⟩ := hrnd j
  exact ⟨rnd j, h0, h1, by ring, by linarith, by linarith⟩

theorem processImageReturn_multipass {μ : Type} (o : Options) (jpegData : String)
    (piexif : Option (Piexif μ)) (generate : Except String μ)
    (decode : String → Option DecodedImage) (encode : ℕ → ℕ → List ℕ → ℚ → String)
    (rnd : ℕ → ℚ) (k : ℕ) (hlevel : 4 ≤ o.compressionLevel) :
    processImageReturn o jpegData piexif generate decode encode rnd k =
      (Returned.promise (simulateMultiCompressionCycle decode encode jpegData rnd k),
        [Call.simulateMultiCompressionCycle]) := by
  unfold processImageReturn
  rw [if_pos hlevel]

theorem processImageReturn_no_multipass {μ : Type} (o : Options) (jpegData : String)
    (piexif : Option (Piexif μ)) (generate : Except String μ)
    (decode : String → Option DecodedImage) (encode : ℕ → ℕ → List ℕ → ℚ → String)
    (rnd : ℕ → ℚ) (k : ℕ) (hlevel : o.compressionLevel ≤ 3) :
    Call.simulateMultiCompressionCycle ∉
      (processImageReturn o jpegData piexif generate decode encode rnd k).2 := by
  have hn : ¬ (o.compressionLevel ≥ 4) := by omega
  unfold processImageReturn
  rw [if_neg hn]
  split_ifs
  · split
    · simp
    · split
      · simp
      · split
        · simp
        · split
          · simp
          · split <;> simp
  · simp

/-- C15, the claim as stated fails: with `compressionLevel` at `4` and a first
encode that does not load as an image, `processImage` hands back a `Promise`
resolved with the first encode itself, which is no second encode. -/
theorem multipass_result_not_second_encode :
    4 ≤ level4Options.compressionLevel ∧
    (processImageReturn level4Options "first encode" (some workingPiexif)
      (Except.ok "metadata") neverLoads constantEncode halfDraws 0).1 =
        Returned.promise "first encode" ∧
    ¬ ∃ (w h : ℕ) (pixels : List ℕ) (q : ℚ),
      (processImageReturn level4Options "first encode" (some workingPiexif)
        (Except.ok "metadata") neverLoads constantEncode halfDraws 0).1 =
          Returned.promise (constantEncode w h pixels q) := by
  have hlevel : 4 ≤ level4Options.compressionLevel := by
    simp [level4Options]
  refine ⟨hlevel, ?_, ?_⟩
  · rw [processImageReturn_multipass _ _ _ _ _ _ _ _ hlevel]
    rfl
  · rintro ⟨w, h, pixels, q, heq⟩
    rw [processImageReturn_multipass _ _ _ _ _ _ _ _ hlevel] at heq
    simp only [simulateMultiCompressionCycle, neverLoads, constantEncode,
      Returned.promise.injEq] at heq
    exact absurd heq (by decide)

/-- C15, amended: with `compressionLevel ≥ 4`, whatever `modifyMetadata`,
`processImage` hands back the `Promise` of `simulateMultiCompressionCycle`,
resolved with the second encode at a quality `0.75 + 0.15 * u` of
`[0.75, 0.90]` for a draw `u` of `[0, 1)` when the first encode loads as an
image and with the first encode itself when it does not, and it calls neither
`generateRandomMetadata` nor `piexif`; with `compressionLevel ≤ 3`
`simulateMultiCompressionCycle` is not called. -/
theorem multipass_return_paths {μ : Type} (o : Options) (jpegData : String)
    (piexif : Option (Piexif μ)) (generate : Except String μ)
    (decode : String → Option DecodedImage) (encode : ℕ → ℕ → List ℕ → ℚ → String)
    (rnd : ℕ → ℚ) (k : ℕ) (hrnd : ∀ n, 0 ≤ rnd n ∧ rnd n < 1) :
    (4 ≤ o.compressionLevel →
      (processImageReturn o jpegData piexif generate decode encode rnd k).1 =
        Returned.promise (simulateMultiCompressionCycle decode encode jpegData rnd k) ∧
      (∀ img, decode jpegData = some img →
        ∃ (pixels : List ℕ) (u : ℚ), 0 ≤ u ∧ u < 1 ∧
          simulateMultiCompressionCycle decode encode jpegData rnd k =
            encode img.width img.height pixels (3 / 4 + 15 / 100 * u) ∧
          3 / 4 ≤ 3 / 4 + 15 / 100 * u ∧ 3 / 4 + 15 / 100 * u ≤ 9 / 10) ∧
      (decode jpegData = none →
        simulateMultiCompressionCycle decode encode jpegData rnd k = jpegData) ∧
      Call.generateRandomMetadata ∉
        (processImageReturn o jpegData piexif generate decode encode rnd k).2 ∧
      Call.piexifRemove ∉
        (processImageReturn o jpegData piexif generate decode encode rnd k).2 ∧
      Call.piexifDump ∉
        (processImageReturn o jpegData piexif generate decode encode rnd k).2 ∧
      Call.piexifInsert ∉
        (processImageReturn o jpegData piexif generate decode encode rnd k).2) ∧
    (o.compressionLevel ≤ 3 →
      Call.simulateMultiCompressionCycle ∉
        (processImageReturn o jpegData piexif generate decode encode rnd k).2) := by
  constructor
  · intro hlevel
    rw [processImageReturn_multipass _ _ _ _ _ _ _ _ hlevel]
    refine ⟨rfl, ?_, ?_, by simp, by simp, by simp, by simp⟩
    · intro img himg
      obtain ⟨u, h0, h1, hq, hlo, hhi⟩ := secondPass_quality img rnd k hrnd
      refine ⟨(secondPass img rnd k).1, u, h0, h1, ?_, by linarith, by linarith⟩
      simp only [simulateMultiCompressionCycle, himg]
      rw [hq]
    · intro hnone
      simp only [simulateMultiCompressionCycle, hnone]
  · exact processImageReturn_no_multipass o jpegData piexif generate decode encode rnd k

theorem multipass_return_paths_witness :
    (∀ n, 0 ≤ halfDraws n ∧ halfDraws n < 1) ∧
    (processImageReturn level4Options "first encode" (some workingPiexif)
      (Except.ok "metadata") alwaysLoads constantEncode halfDraws 0).1 =
      Returned.promise
        (simulateMultiCompressionCycle alwaysLoads constantEncode "first encode" halfDraws 0) ∧
    Call.generateRandomMetadata ∉
      (processImageReturn level4Options "first encode" (some workingPiexif)
        (Except.ok "metadata") alwaysLoads constantEncode halfDraws 0).2 :=
  ⟨fun _ => by norm_num [halfDraws],
    ((multipass_return_paths level4Options "first encode" (some workingPiexif)
      (Except.ok "metadata") alwaysLoads constantEncode halfDraws 0
      (fun _ => by norm_num [halfDraws])).1 (by simp [level4Options])).1,
    ((multipass_return_paths level4Options "first encode" (some workingPiexif)
      (Except.ok "metadata") alwaysLoads constantEncode halfDraws 0
      (fun _ => by norm_num [halfDraws])).1 (by simp [level4Options])).2.2.2.1⟩

/-- C16: with `compressionLevel ≤ 3`, a valid image and an encoded `jpegData`,
`processImage` returns, and what it returns is exactly `jpegData` when
`generateRandomMetadata`, `piexif.remove`, `piexif.dump` or `piexif.insert`
raises; when `piexif` is not loaded it returns `jpegData` without calling
`generateRandomMetadata`. -/
theorem metadata_failure_returns_jpegData {μ : Type} (img : ImageElement) (o : Options)
    (jpegData : String) (generate : Except String μ)
    (decode : String → Option DecodedImage) (encode : ℕ → ℕ → List ℕ → ℚ → String)
    (rnd : ℕ → ℚ) (k : ℕ) (himg : img.width ≠ 0 ∧ img.height ≠ 0)
    (hlevel : o.compressionLevel ≤ 3) :
    processImage (some img) o (Except.ok jpegData) none generate decode encode rnd k =
      Except.ok (Returned.text jpegData, []) ∧
    ∀ lib : Piexif μ,
      ((∃ e, generate = Except.error e) ∨
        (∃ m, generate = Except.ok m ∧
          ((∃ e, lib.remove jpegData = Except.error e) ∨
            (∃ b, lib.remove jpegData = Except.ok b ∧
              ((∃ e, lib.dump m = Except.error e) ∨
                (∃ x, lib.dump m = Except.ok x ∧ ∃ e, lib.insert x b = Except.error e)))))) →
      ∃ calls, processImage (some img) o (Except.ok jpegData) (some lib) generate decode encode
        rnd k = Except.ok (Returned.text jpegData, calls) := by
  have hn : ¬ (o.compressionLevel ≥ 4) := by omega
  have hvalid : ¬ (img.width = 0 ∨ img.height = 0) := by
    rintro (h | h)
    · exact himg.1 h
    · exact himg.2 h
  constructor
  · simp only [processImage, if_neg hvalid, processImageReturn, if_neg hn]
    split_ifs <;> rfl
  · intro lib hfail
    simp only [processImage, if_neg hvalid, processImageReturn, if_neg hn]
    by_cases hm : o.modifyMetadata = true
    · rw [if_pos hm]
      rcases hfail with ⟨e, he⟩ | ⟨m, hgen, hrest⟩
      · rw [he]
        exact ⟨_, rfl⟩
      · rw [hgen]
        rcases hrest with ⟨e, he⟩ | ⟨b, hrem, hrest2⟩
        · simp only [he]
          exact ⟨_, rfl⟩
        · simp only [hrem]
          rcases hrest2 with ⟨e, he⟩ | ⟨x, hdump, e, he⟩
          · simp only [he]
            exact ⟨_, rfl⟩
          · simp only [hdump, he]
            exact ⟨_, rfl⟩
    · rw [if_neg hm]
      exact ⟨_, rfl⟩

theorem metadata_failure_returns_jpegData_witness :
    ((640 : ℕ) ≠ 0 ∧ (480 : ℕ) ≠ 0) ∧ defaultOptions.compressionLevel ≤ 3 ∧
    ∃ calls, processImage (some { width := 640, height := 480 }) defaultOptions
      (Except.ok "first encode") (some failingInsertPiexif) (Except.ok "metadata")
      alwaysLoads constantEncode halfDraws 0 = Except.ok (Returned.text "first encode", calls) :=
  ⟨by decide, by simp [defaultOptions, readOptions, parseIntOr],
    (metadata_failure_returns_jpegData { width := 640, height := 480 } defaultOptions
      "first encode" (Except.ok "metadata") alwaysLoads constantEncode halfDraws 0
      (by decide) (by simp [defaultOptions, readOptions, parseIntOr])).2 failingInsertPiexif
      (Or.inr ⟨"metadata", rfl, Or.inr ⟨"first encode", rfl,
        Or.inr ⟨"metadata", rfl, "insert failed", rfl⟩⟩⟩)⟩

/-! ## The download handler -/

/-- C17: one valid uploaded image `a.jpg` and `compressionLevel` at `4`:
`processImage` returns without raising (a `Promise`), and the loop gives no
entry to the archive, where with the default level `3` the same image gives
the entry `processed_a.jpg`. -/
theorem download_drops_multipass_image :
    (∃ r, processImage (some { width := 640, height := 480 }) level4Options
      (Except.ok "data:image/jpeg;base64,QUJD") (some workingPiexif) (Except.ok "")
      alwaysLoads constantEncode halfDraws 0 = Except.ok r) ∧
    downloadLoop charCodes
      [("a.jpg", (processImage (some { width := 640, height := 480 }) level4Options
        (Except.ok "data:image/jpeg;base64,QUJD") (some workingPiexif) (Except.ok "")
        alwaysLoads constantEncode halfDraws 0).map Prod.fst)] = [] ∧
    downloadLoop charCodes
      [("a.jpg", (processImage (some { width := 640, height := 480 }) defaultOptions
        (Except.ok "data:image/jpeg;base64,QUJD") (some workingPiexif) (Except.ok "")
        alwaysLoads constantEncode halfDraws 0).map Prod.fst)] =
      [("processed_a.jpg", [81, 85, 74, 68])] := by
  refine ⟨⟨_, rfl⟩, ?_, ?_⟩
  · rfl
  · decide

theorem downloadLoop_eq_filterMap (atob : String → Except String (List ℕ))
    (images : List (String × Except String Returned)) :
    downloadLoop atob images = images.filterMap fun image => downloadEntry atob image.1 image.2 := by
  unfold downloadLoop
  have key : ∀ (l : List (String × Except String Returned)) (zip : List (String × List ℕ)),
      l.foldl (fun zip image =>
        match downloadEntry atob image.1 image.2 with
        | none => zip
        | some entry => zip ++ [entry]) zip =
      zip ++ l.filterMap fun image => downloadEntry atob image.1 image.2 := by
    intro l
    induction l with
    | nil => intro zip; simp
    | cons image l ih =>
      intro zip
      rw [List.foldl_cons, ih, List.filterMap_cons]
      cases downloadEntry atob image.1 image.2 with
      | none => rfl
      | some entry => simp
  simpa using key images []

/-! ## `generateRandomMetadata` -/

/-- C18: for every model of `cameraModels` the map `manufacturerMap` has a
non-empty entry for the first word of the model name and `manufacturer` is
that entry, so the fallback to the first word is not taken; the models whose
first word is `iPhone` get `Apple`. -/
theorem manufacturer_is_map_entry :
    ∀ model ∈ cameraModels,
      ∃ name, manufacturerMap.lookup (firstWord model) = some name ∧ name ≠ "" ∧
        manufacturer model = name ∧
        (firstWord model = "iPhone" → manufacturer model = "Apple") := by
  decide

theorem manufacturer_is_map_entry_witness :
    "iPhone 13" ∈ cameraModels ∧
    ∃ name, manufacturerMap.lookup (firstWord "iPhone 13") = some name ∧ name ≠ "" ∧
      manufacturer "iPhone 13" = name ∧
      (firstWord "iPhone 13" = "iPhone" → manufacturer "iPhone 13" = "Apple") :=
  ⟨by decide, manufacturer_is_map_entry "iPhone 13" (by decide)⟩

theorem randomCameraModel_mem (u : ℚ) (h0 : 0 ≤ u) (h1 : u < 1) :
    randomCameraModel u ∈ cameraModels := by
  unfold randomCameraModel
  have hlen : cameraModels.length = 17 := by decide
  have hf0 : 0 ≤ mathFloor (u * cameraModels.length) := by
    unfold mathFloor
    exact Int.floor_nonneg.mpr (by positivity)
  have hf1 : mathFloor (u * cameraModels.length) < 17 := by
    unfold mathFloor
    rw [Int.floor_lt, hlen]
    push_cast
    linarith
  have hidx : (mathFloor (u * cameraModels.length)).toNat < cameraModels.length := by
    have h17 : (mathFloor (u * cameraModels.length)).toNat < 17 := by omega
    exact lt_of_lt_of_eq h17 hlen.symm
  rw [List.getD_eq_getElem?_getD, List.getElem?_eq_getElem hidx, Option.getD_some]
  exact List.getElem_mem hidx

theorem keyword_at_draw_mem (u : ℚ) (h0 : 0 ≤ u) (h1 : u < 1) :
    iptcKeywords.getD (mathFloor (u * iptcKeywords.length)).toNat "" ∈ iptcKeywords := by
  have hlen : iptcKeywords.length = 45 := by decide
  have hf0 : 0 ≤ mathFloor (u * iptcKeywords.length) := by
    unfold mathFloor
    exact Int.floor_nonneg.mpr (by positivity)
  have hf1 : mathFloor (u * iptcKeywords.length) < 45 := by
    unfold mathFloor
    rw [Int.floor_lt, hlen]
    push_cast
    linarith
  have hidx : (mathFloor (u * iptcKeywords.length)).toNat < iptcKeywords.length := by
    have h45 : (mathFloor (u * iptcKeywords.length)).toNat < 45 := by omega
    exact lt_of_lt_of_eq h45 hlen.symm
  rw [List.getD_eq_getElem?_getD, List.getElem?_eq_getElem hidx, Option.getD_some]
  exact List.getElem_mem hidx

theorem pushKeyword_spec (acc : List String) (u : ℚ) (h0 : 0 ≤ u) (h1 : u < 1)
    (hnodup : acc.Nodup) (hsub : ∀ w ∈ acc, w ∈ iptcKeywords) :
    (pushKeyword acc u).Nodup ∧ (∀ w ∈ pushKeyword acc u, w ∈ iptcKeywords) ∧
    acc.length ≤ (pushKeyword acc u).length ∧ (pushKeyword acc u).length ≤ acc.length + 1 ∧
    1 ≤ (pushKeyword acc u).length := by
  unfold pushKeyword
  dsimp only
  split_ifs with hmem
  · exact ⟨hnodup, hsub, le_refl _, Nat.le_succ _, List.length_pos_of_mem hmem⟩
  · refine ⟨?_, ?_, ?_, ?_, ?_⟩
    · rw [List.nodup_append]
      refine ⟨hnodup, List.nodup_singleton _, ?_⟩
      intro a ha hb
      rw [List.mem_singleton] at hb
      exact hmem (hb ▸ ha)
    · intro w hw
      rcases List.mem_append.mp hw with h | h
      · exact hsub w h
      · rw [List.mem_singleton] at h
        rw [h]
        exact keyword_at_draw_mem u h0 h1
    · simp
    · simp
    · simp

theorem keywordLoop_spec (rnd : ℕ → ℚ) (k : ℕ) (hrnd : ∀ n, 0 ≤ rnd n ∧ rnd n < 1) (n : ℕ) :
    ((List.range n).foldl (fun acc i => pushKeyword acc (rnd (k + 1 + i))) []).Nodup ∧
    (∀ w ∈ (List.range n).foldl (fun acc i => pushKeyword acc (rnd (k + 1 + i))) [],
      w ∈ iptcKeywords) ∧
    ((List.range n).foldl (fun acc i => pushKeyword acc (rnd (k + 1 + i))) []).length ≤ n ∧
    (1 ≤ n →
      1 ≤ ((List.range n).foldl (fun acc i => pushKeyword acc (rnd (k + 1 + i))) []).length) := by
  induction n with
  | zero =>
    exact ⟨List.nodup_nil, fun w hw => absurd hw (List.not_mem_nil w), le_refl _,
      fun h => absurd h (by decide)⟩
  | succ n ih =>
    obtain ⟨i1, i2, i3, -⟩ := ih
    rw [List.range_succ, List.foldl_append, List.foldl_cons, List.foldl_nil]
    obtain ⟨p1, p2, -, p4, p5⟩ := pushKeyword_spec _ (rnd (k + 1 + n)) (hrnd _).1 (hrnd _).2 i1 i2
    exact ⟨p1, p2, by omega, fun _ => p5⟩

/-- C19: for every sequence of draws of `[0, 1)` the keyword list built by
`generateRandomMetadata` has between one and five elements, has no duplicate,
and each of its elements is in `iptcKeywords`. -/
theorem randomKeywords_spec (rnd : ℕ → ℚ) (k : ℕ) (hrnd : ∀ n, 0 ≤ rnd n ∧ rnd n < 1) :
    1 ≤ (randomKeywords rnd k).length ∧ (randomKeywords rnd k).length ≤ 5 ∧
    (randomKeywords rnd k).Nodup ∧ ∀ w ∈ randomKeywords rnd k, w ∈ iptcKeywords := by
  unfold randomKeywords
  dsimp only
  have h0 : 0 ≤ mathFloor (rnd k * 5) := by
    unfold mathFloor
    exact Int.floor_nonneg.mpr (by linarith [(hrnd k).1])
  have h5 : mathFloor (rnd k * 5) < 5 := by
    unfold mathFloor
    rw [Int.floor_lt]
    push_cast
    linarith [(hrnd k).2]
  obtain ⟨s1, s2, s3, s4⟩ := keywordLoop_spec rnd k hrnd (mathFloor (rnd k * 5) + 1).toNat
  exact ⟨s4 (by omega), by omega, s1, s2⟩

theorem randomKeywords_spec_witness :
    (∀ n, 0 ≤ halfDraws n ∧ halfDraws n < 1) ∧
    1 ≤ (randomKeywords halfDraws 0).length ∧ (randomKeywords halfDraws 0).length ≤ 5 ∧
    (randomKeywords halfDraws 0).Nodup ∧ ∀ w ∈ randomKeywords halfDraws 0, w ∈ iptcKeywords :=
  ⟨fun _ => by norm_num [halfDraws],
    randomKeywords_spec halfDraws 0 (fun _ => by norm_num [halfDraws])⟩

/-! ## The frequency-domain watermark -/

theorem foldl_flatMap_eq {α β γ : Type} (f : γ → β → γ) (g : α → List β) (l : List α) (a : γ) :
    (l.flatMap g).foldl f a = l.foldl (fun a x => (g x).foldl f a) a := by
  induction l generalizing a with
  | nil => rfl
  | cons x l ih => rw [List.flatMap_cons, List.foldl_append, ih, List.foldl_cons]

theorem applyFake_eq_flat (w h : ℕ) (data : List ℕ) (rnd : ℕ → ℚ) (k : ℕ) :
    applyFakeFrequencyDomainWatermark w h data rnd k =
      ((blockOrigins w h).foldl
        (fun st b => watermarkBlock w (pseudoRandomSequence rnd k) rnd st b.1 b.2)
        (data, k + watermarkBits)).1 := by
  unfold applyFakeFrequencyDomainWatermark blockOrigins
  dsimp only
  rw [foldl_flatMap_eq]
  simp only [List.foldl_map]

theorem foldl_watermarkBlock_eq_plan (w : ℕ) (seq : List ℤ) (rnd : ℕ → ℚ)
    (blocks : List (ℕ × ℕ)) (d : List ℕ) (k : ℕ) :
    (blocks.foldl (fun st b => watermarkBlock w seq rnd st b.1 b.2) (d, k)).1 =
      (blockPlan seq rnd k blocks).foldl (applyPlanEntry w) d := by
  induction blocks generalizing d k with
  | nil => rfl
  | cons b rest ih =>
    rw [List.foldl_cons, blockPlan]
    by_cases hsel : rnd k < 2 / 10
    · rw [if_pos hsel, List.foldl_cons]
      have hstep : watermarkBlock w seq rnd (d, k) b.1 b.2 =
          (applyPlanEntry w d (b, some (blockDelta seq (rnd (k + 1)))), k + 2) := by
        simp only [watermarkBlock, applyPlanEntry, if_pos hsel]
        split_ifs <;> rfl
      rw [hstep, ih]
    · rw [if_neg hsel, List.foldl_cons]
      have hstep : watermarkBlock w seq rnd (d, k) b.1 b.2 =
          (applyPlanEntry w d (b, none), k + 1) := by
        simp only [watermarkBlock, applyPlanEntry, if_neg hsel]
      rw [hstep, ih]

theorem applyFake_eq_plan (w h : ℕ) (data : List ℕ) (rnd : ℕ → ℚ) (k : ℕ) :
    applyFakeFrequencyDomainWatermark w h data rnd k =
      (watermarkPlan w h rnd k).foldl (applyPlanEntry w) data := by
  rw [applyFake_eq_flat, foldl_watermarkBlock_eq_plan]
  rfl

theorem blockPlan_keys (seq : List ℤ) (rnd : ℕ → ℚ) (blocks : List (ℕ × ℕ)) (k : ℕ) :
    (blockPlan seq rnd k blocks).map Prod.fst = blocks := by
  induction blocks generalizing k with
  | nil => rfl
  | cons b rest ih =>
    rw [blockPlan]
    split_ifs <;> simp [ih]

theorem mem_blockStarts (extent x : ℕ) :
    x ∈ blockStarts extent ↔ x % 8 = 0 ∧ x + 8 < extent := by
  unfold blockStarts blockSize
  rw [List.mem_map]
  constructor
  · rintro ⟨j, hj, rfl⟩
    have := List.mem_range.mp hj
    omega
  · rintro ⟨h1, h2⟩
    exact ⟨x / 8, List.mem_range.mpr (by omega), by omega⟩

theorem nodup_blockStarts (extent : ℕ) : (blockStarts extent).Nodup := by
  unfold blockStarts blockSize
  apply List.Nodup.map_on _ (List.nodup_range _)
  intro a _ b _ hab
  omega

theorem mem_blockOrigins (w h : ℕ) (b : ℕ × ℕ) :
    b ∈ blockOrigins w h ↔ (b.1 % 8 = 0 ∧ b.1 + 8 < w) ∧ (b.2 % 8 = 0 ∧ b.2 + 8 < h) := by
  unfold blockOrigins
  rw [List.mem_flatMap]
  constructor
  · rintro ⟨y, hy, hb⟩
    obtain ⟨x, hx, rfl⟩ := List.mem_map.mp hb
    exact ⟨(mem_blockStarts w x).mp hx, (mem_blockStarts h y).mp hy⟩
  · rintro ⟨hx, hy⟩
    exact ⟨b.2, (mem_blockStarts h b.2).mpr hy,
      List.mem_map.mpr ⟨b.1, (mem_blockStarts w b.1).mpr hx, rfl⟩⟩

theorem nodup_blockOrigins (w h : ℕ) : (blockOrigins w h).Nodup := by
  unfold blockOrigins
  rw [List.nodup_flatMap]
  constructor
  · intro y _
    apply List.Nodup.map_on _ (nodup_blockStarts w)
    intro a _ b _ hab
    exact (Prod.mk.inj hab).1
  · apply List.Nodup.pairwise_of_forall_ne (nodup_blockStarts h)
    intro y1 _ y2 _ hne
    intro b hb1 hb2
    obtain ⟨x1, -, rfl⟩ := List.mem_map.mp hb1
    obtain ⟨x2, -, heq⟩ := List.mem_map.mp hb2
    exact hne (Prod.mk.inj heq).2.symm

theorem blockDelta_range (seq : List ℤ) (hseq : ∀ v ∈ seq, 0 ≤ v) (u : ℚ) :
    -2 ≤ blockDelta seq u ∧ blockDelta seq u ≤ 1 := by
  unfold blockDelta
  dsimp only
  have hv : 0 ≤ seq.getD (mathFloor (u * watermarkBits)).toNat 0 := by
    rw [List.getD_eq_getElem?_getD]
    cases hi : seq[(mathFloor (u * watermarkBits)).toNat]? with
    | none => simp
    | some v => exact hseq v (List.mem_iff_getElem?.mpr ⟨_, hi⟩)
  rw [Int.tmod_eq_emod hv (by norm_num)]
  omega

theorem pseudoRandomSequence_nonneg (rnd : ℕ → ℚ) (k : ℕ) (hrnd : ∀ n, 0 ≤ rnd n ∧ rnd n < 1) :
    ∀ v ∈ pseudoRandomSequence rnd k, 0 ≤ v := by
  intro v hv
  unfold pseudoRandomSequence at hv
  obtain ⟨i, -, rfl⟩ := List.mem_map.mp hv
  unfold mathFloor
  exact Int.floor_nonneg.mpr (by linarith [(hrnd (k + i)).1])

theorem blockPlan_delta_range (seq : List ℤ) (hseq : ∀ v ∈ seq, 0 ≤ v) (rnd : ℕ → ℚ)
    (blocks : List (ℕ × ℕ)) (k : ℕ) :
    ∀ e ∈ blockPlan seq rnd k blocks, ∀ delta, e.2 = some delta → -2 ≤ delta ∧ delta ≤ 1 := by
  induction blocks generalizing k with
  | nil => intro e he; exact absurd he (List.not_mem_nil e)
  | cons b rest ih =>
    intro e he delta hd
    rw [blockPlan] at he
    split_ifs at he
    · rcases List.mem_cons.mp he with h | h
      · rw [h] at hd
        simp only [Option.some.injEq] at hd
        rw [← hd]
        exact blockDelta_range seq hseq _
      · exact ih _ e h delta hd
    · rcases List.mem_cons.mp he with h | h
      · rw [h] at hd
        exact absurd hd (by simp)
      · exact ih _ e h delta hd

theorem foldl_getD_unique {β : Type} (f : List ℕ → β → List ℕ) (T : β → Prop) (g : β → ℕ → ℕ)
    (idx n : ℕ) (l : List β) (hnd : l.Nodup)
    (huniq : ∀ a ∈ l, ∀ b ∈ l, T a → T b → a = b)
    (hf : ∀ d b, b ∈ l → d.length = n → (f d b).length = n ∧
      (T b → (f d b).getD idx 0 = g b (d.getD idx 0)) ∧
      (¬ T b → (f d b).getD idx 0 = d.getD idx 0))
    (d : List ℕ) (hd : d.length = n) :
    (l.foldl f d).length = n ∧
    (∀ b ∈ l, T b → (l.foldl f d).getD idx 0 = g b (d.getD idx 0)) ∧
    ((∀ b ∈ l, ¬ T b) → (l.foldl f d).getD idx 0 = d.getD idx 0) := by
  induction l generalizing d with
  | nil =>
    exact ⟨hd, fun b hb => absurd hb (List.not_mem_nil b), fun _ => rfl⟩
  | cons a l ih =>
    obtain ⟨hna, hndl⟩ := List.nodup_cons.mp hnd
    obtain ⟨s1, s2, s3⟩ := hf d a (List.mem_cons_self _ _) hd
    obtain ⟨i1, i2, i3⟩ := ih hndl
      (fun x hx y hy => huniq x (List.mem_cons_of_mem _ hx) y (List.mem_cons_of_mem _ hy))
      (fun d2 b hb => hf d2 b (List.mem_cons_of_mem _ hb)) (f d a) s1
    rw [List.foldl_cons]
    refine ⟨i1, ?_, ?_⟩
    · intro b hb hTb
      rcases List.mem_cons.mp hb with h | h
      · subst h
        have hnone : ∀ c ∈ l, ¬ T c := by
          intro c hc hTc
          have : b = c := huniq b (List.mem_cons_self _ _) c (List.mem_cons_of_mem _ hc) hTb hTc
          exact hna (this ▸ hc)
        rw [i3 hnone, s2 hTb]
      · have hTa : ¬ T a := by
          intro hTa
          have : a = b := huniq a (List.mem_cons_self _ _) b hb hTa hTb
          exact hna (this ▸ h)
        rw [i2 b h hTb, s3 hTa]
    · intro hall
      rw [i3 (fun c hc => hall c (List.mem_cons_of_mem _ hc)),
        s3 (hall a (List.mem_cons_self _ _))]

theorem centre_in_buffer {w h x y : ℕ} (hx : x + 8 < w) (hy : y + 8 < h) :
    ((y + 4) * w + (x + 4)) * 4 + 4 < 4 * w * h := by
  have h1 : (y + 5) * w ≤ h * w := Nat.mul_le_mul_right w (by omega)
  have h2 : (y + 5) * w = (y + 4) * w + w := by ring
  have h3 : 4 * w * h = 4 * (h * w) := by ring
  omega

theorem applyPlanEntry_spec (w : ℕ) (d : List ℕ) (e : (ℕ × ℕ) × Option ℤ) (idx n : ℕ)
    (hd : d.length = n) (hguard : ((e.1.2 + 4) * w + (e.1.1 + 4)) * 4 + 4 < n) :
    (applyPlanEntry w d e).length = n ∧
    ((∃ delta, e.2 = some delta ∧ ((e.1.2 + 4) * w + (e.1.1 + 4)) * 4 ≤ idx ∧
        idx < ((e.1.2 + 4) * w + (e.1.1 + 4)) * 4 + 3) →
      (applyPlanEntry w d e).getD idx 0 =
        match e.2 with
        | some delta => clampByte ((d.getD idx 0 : ℤ) + (if idx % 4 = 1 then -delta else delta))
        | none => d.getD idx 0) ∧
    (¬ (∃ delta, e.2 = some delta ∧ ((e.1.2 + 4) * w + (e.1.1 + 4)) * 4 ≤ idx ∧
        idx < ((e.1.2 + 4) * w + (e.1.1 + 4)) * 4 + 3) →
      (applyPlanEntry w d e).getD idx 0 = d.getD idx 0) := by
  obtain ⟨b, od⟩ := e
  cases od with
  | none =>
    refine ⟨hd, ?_, fun _ => rfl⟩
    rintro ⟨delta, hdelta, -⟩
    exact absurd hdelta (by simp)
  | some delta =>
    have hg : ((b.2 + 4) * w + (b.1 + 4)) * 4 + 4 < d.length := by rw [hd]; exact hguard
    simp only [applyPlanEntry, if_pos hg]
    generalize hci : ((b.2 + 4) * w + (b.1 + 4)) * 4 = ci at hg hguard ⊢
    refine ⟨by simp [hd], ?_, ?_⟩
    · rintro ⟨delta2, hdelta2, hlo, hhi⟩
      have hcases : idx = ci ∨ idx = ci + 1 ∨ idx = ci + 2 := by omega
      have hci4 : ci % 4 = 0 := by omega
      rcases hcases with rfl | rfl | rfl
      · have hm : ¬ (idx % 4 = 1) := by omega
        rw [getD_set_ne _ _ (by omega), getD_set_ne _ _ (by omega),
          getD_set_self _ _ (by omega), if_neg hm]
      · have hm : (ci + 1) % 4 = 1 := by omega
        rw [getD_set_ne _ _ (by omega), getD_set_self _ _ (by simp; omega),
          getD_set_ne _ _ (by omega), if_pos hm, Int.sub_eq_add_neg]
      · have hm : ¬ ((ci + 2) % 4 = 1) := by omega
        rw [getD_set_self _ _ (by simp; omega), getD_set_ne _ _ (by omega),
          getD_set_ne _ _ (by omega), if_neg hm]
    · intro hno
      have h0 : ci ≠ idx := fun hc => hno ⟨delta, rfl, by omega, by omega⟩
      have h1 : ci + 1 ≠ idx := fun hc => hno ⟨delta, rfl, by omega, by omega⟩
      have h2 : ci + 2 ≠ idx := fun hc => hno ⟨delta, rfl, by omega, by omega⟩
      rw [getD_set_ne _ _ h2, getD_set_ne _ _ h1, getD_set_ne _ _ h0]

theorem planDelta_of_mem (plan : List ((ℕ × ℕ) × Option ℤ)) (hkeys : (plan.map Prod.fst).Nodup)
    (e : (ℕ × ℕ) × Option ℤ) (he : e ∈ plan) : planDelta plan e.1.1 e.1.2 = e.2 := by
  unfold planDelta
  induction plan with
  | nil => exact absurd he (List.not_mem_nil e)
  | cons a rest ih =>
    rw [List.map_cons, List.nodup_cons] at hkeys
    rw [List.find?_cons]
    by_cases ha : a.1 = (e.1.1, e.1.2)
    · have hdec : decide (a.1 = (e.1.1, e.1.2)) = true := decide_eq_true ha
      rw [hdec]
      rcases List.mem_cons.mp he with h | h
      · rw [h]
      · exfalso
        apply hkeys.1
        rw [ha]
        exact List.mem_map.mpr ⟨e, h, rfl⟩
    · have hdec : decide (a.1 = (e.1.1, e.1.2)) = false := decide_eq_false ha
      rw [hdec]
      rcases List.mem_cons.mp he with h | h
      · exact absurd (by rw [h]) ha
      · exact ih hkeys.2 h

theorem watermarkPlan_keys (w h : ℕ) (rnd : ℕ → ℚ) (k : ℕ) :
    (watermarkPlan w h rnd k).map Prod.fst = blockOrigins w h := by
  unfold watermarkPlan
  exact blockPlan_keys _ _ _ _

theorem applyFake_pointwise (w h : ℕ) (data : List ℕ) (hlen : data.length = 4 * w * h)
    (rnd : ℕ → ℚ) (k : ℕ) (idx : ℕ) :
    (applyFakeFrequencyDomainWatermark w h data rnd k).length = data.length ∧
    (∀ e ∈ watermarkPlan w h rnd k,
      (∃ delta, e.2 = some delta ∧ ((e.1.2 + 4) * w + (e.1.1 + 4)) * 4 ≤ idx ∧
        idx < ((e.1.2 + 4) * w + (e.1.1 + 4)) * 4 + 3) →
      (applyFakeFrequencyDomainWatermark w h data rnd k).getD idx 0 =
        match e.2 with
        | some delta =>
          clampByte ((data.getD idx 0 : ℤ) + (if idx % 4 = 1 then -delta else delta))
        | none => data.getD idx 0) ∧
    ((∀ e ∈ watermarkPlan w h rnd k,
      ¬ ∃ delta, e.2 = some delta ∧ ((e.1.2 + 4) * w + (e.1.1 + 4)) * 4 ≤ idx ∧
        idx < ((e.1.2 + 4) * w + (e.1.1 + 4)) * 4 + 3) →
      (applyFakeFrequencyDomainWatermark w h data rnd k).getD idx 0 = data.getD idx 0) := by
  have hkeys : ((watermarkPlan w h rnd k).map Prod.fst).Nodup := by
    rw [watermarkPlan_keys]
    exact nodup_blockOrigins w h
  have hblock : ∀ e ∈ watermarkPlan w h rnd k,
      (e.1.1 % 8 = 0 ∧ e.1.1 + 8 < w) ∧ (e.1.2 % 8 = 0 ∧ e.1.2 + 8 < h) := by
    intro e he
    rw [← mem_blockOrigins, ← watermarkPlan_keys w h rnd k]
    exact List.mem_map.mpr ⟨e, he, rfl⟩
  rw [applyFake_eq_plan]
  apply foldl_getD_unique (applyPlanEntry w)
    (fun e => ∃ delta, e.2 = some delta ∧ ((e.1.2 + 4) * w + (e.1.1 + 4)) * 4 ≤ idx ∧
      idx < ((e.1.2 + 4) * w + (e.1.1 + 4)) * 4 + 3)
    (fun e old => match e.2 with
      | some delta => clampByte ((old : ℤ) + (if idx % 4 = 1 then -delta else delta))
      | none => old)
    idx data.length (watermarkPlan w h rnd k) (List.Nodup.of_map _ hkeys)
  · rintro a ha b hb ⟨da, -, la, ua⟩ ⟨db, -, lb, ub⟩
    obtain ⟨⟨-, hxa⟩, -⟩ := hblock a ha
    obtain ⟨⟨-, hxb⟩, -⟩ := hblock b hb
    have hc : (a.1.2 + 4) * w + (a.1.1 + 4) = (b.1.2 + 4) * w + (b.1.1 + 4) := by omega
    obtain ⟨e1, e2⟩ := pixel_index_inj (by omega) (by omega) hc
    apply List.inj_on_of_nodup_map hkeys ha hb
    apply Prod.ext
    · omega
    · omega
  · intro d e he hd
    obtain ⟨⟨-, hx⟩, ⟨-, hy⟩⟩ := hblock e he
    exact applyPlanEntry_spec w d e idx data.length hd (by rw [hlen]; exact centre_in_buffer hx hy)
  · rfl

theorem touched_iff_centre (w h : ℕ) (rnd : ℕ → ℚ) (k idx : ℕ)
    (e : (ℕ × ℕ) × Option ℤ) (he : e ∈ watermarkPlan w h rnd k)
    (hlo : ((e.1.2 + 4) * w + (e.1.1 + 4)) * 4 ≤ idx)
    (hhi : idx < ((e.1.2 + 4) * w + (e.1.1 + 4)) * 4 + 3) :
    idx % 4 < 3 ∧ idx / 4 % w = e.1.1 + 4 ∧ idx / 4 / w = e.1.2 + 4 ∧
      (e.1.1 % 8 = 0 ∧ e.1.1 + 8 < w) ∧ (e.1.2 % 8 = 0 ∧ e.1.2 + 8 < h) := by
  have hb : (e.1.1 % 8 = 0 ∧ e.1.1 + 8 < w) ∧ (e.1.2 % 8 = 0 ∧ e.1.2 + 8 < h) := by
    rw [← mem_blockOrigins, ← watermarkPlan_keys w h rnd k]
    exact List.mem_map.mpr ⟨e, he, rfl⟩
  have e4 : idx / 4 = (e.1.2 + 4) * w + (e.1.1 + 4) := by omega
  obtain ⟨pm, pd⟩ := pixel_divmod (w := w) (x := e.1.1 + 4) (e.1.2 + 4) (by omega)
  rw [e4, pm, pd]
  exact ⟨by omega, rfl, rfl, hb⟩

/-- C20: on a buffer of `4 * width * height` samples and draws of `[0, 1)`,
`applyFakeFrequencyDomainWatermark` returns the reference: each candidate block
(origin `(x, y)` with `x`, `y` multiples of 8, `x < width - 8`,
`y < height - 8`) is decided once, the centre pixel `(x + 4, y + 4)` of a
selected block has red and blue changed by `+ delta` and green by `- delta`,
each clamped to `[0, 255]`, with `delta` in `{-2, -1, 0, 1}`, every other
sample is unchanged, and the centre index passes the test
`centerIdx + 4 < data.length`. -/
theorem fakeWatermark_equals_reference (w h : ℕ) (data : List ℕ)
    (hlen : data.length = 4 * w * h) (rnd : ℕ → ℚ) (k : ℕ)
    (hrnd : ∀ n, 0 ≤ rnd n ∧ rnd n < 1) :
    applyFakeFrequencyDomainWatermark w h data rnd k =
      (List.range data.length).map
        (fakeWatermarkReference w h data (planDelta (watermarkPlan w h rnd k))) ∧
    (watermarkPlan w h rnd k).map Prod.fst = blockOrigins w h ∧
    (∀ x y, (x, y) ∈ blockOrigins w h ↔ (x % 8 = 0 ∧ x + 8 < w) ∧ (y % 8 = 0 ∧ y + 8 < h)) ∧
    (∀ x y delta, planDelta (watermarkPlan w h rnd k) x y = some delta →
      delta = -2 ∨ delta = -1 ∨ delta = 0 ∨ delta = 1) ∧
    (∀ x y, (x, y) ∈ blockOrigins w h →
      ((y + 4) * w + (x + 4)) * 4 + 4 < data.length) := by
  have hkeys : ((watermarkPlan w h rnd k).map Prod.fst).Nodup := by
    rw [watermarkPlan_keys]
    exact nodup_blockOrigins w h
  refine ⟨?_, watermarkPlan_keys w h rnd k, fun x y => mem_blockOrigins w h (x, y), ?_, ?_⟩
  · apply List.ext_getElem
    · rw [List.length_map, List.length_range]
      exact (applyFake_pointwise w h data hlen rnd k 0).1
    · intro idx h1 h2
      rw [List.length_map, List.length_range] at h2
      obtain ⟨-, p2, p3⟩ := applyFake_pointwise w h data hlen rnd k idx
      rw [← getD_eq_getElem_of_lt _ h1, List.getElem_map, List.getElem_range]
      unfold fakeWatermarkReference
      dsimp only
      by_cases hcond : idx % 4 < 3 ∧ 4 ≤ idx / 4 % w ∧ 4 ≤ idx / 4 / w ∧
          (idx / 4 % w - 4) % 8 = 0 ∧ (idx / 4 / w - 4) % 8 = 0 ∧
          idx / 4 % w - 4 + 8 < w ∧ idx / 4 / w - 4 + 8 < h
      · rw [if_pos hcond]
        obtain ⟨hc, hpx, hpy, hmx, hmy, hbx, hby⟩ := hcond
        have hmem : (idx / 4 % w - 4, idx / 4 / w - 4) ∈
            (watermarkPlan w h rnd k).map Prod.fst := by
          rw [watermarkPlan_keys, mem_blockOrigins]
          exact ⟨⟨hmx, hbx⟩, ⟨hmy, hby⟩⟩
        obtain ⟨e, he, hek⟩ := List.mem_map.mp hmem
        have hw : 0 < w := by omega
        have hdm : idx / 4 / w * w + idx / 4 % w = idx / 4 := by
          rw [Nat.mul_comm]
          exact Nat.div_add_mod (idx / 4) w
        have he1 : e.1.1 = idx / 4 % w - 4 := congrArg Prod.fst hek
        have he2 : e.1.2 = idx / 4 / w - 4 := congrArg Prod.snd hek
        have hci : ((e.1.2 + 4) * w + (e.1.1 + 4)) * 4 = idx / 4 * 4 := by
          rw [he1, he2, Nat.sub_add_cancel hpx, Nat.sub_add_cancel hpy, hdm]
        have hsel := planDelta_of_mem _ hkeys e he
        rw [he1, he2] at hsel
        rw [hsel]
        cases hd : e.2 with
        | some delta =>
          have hT := p2 e he ⟨delta, hd, by rw [hci]; omega, by rw [hci]; omega⟩
          rw [hd] at hT
          exact hT.trans (clampByte_eq _)
        | none =>
          apply p3
          rintro e2 he2mem ⟨delta, hd2, lo, hi⟩
          obtain ⟨-, q1, q2, -, -⟩ := touched_iff_centre w h rnd k idx e2 he2mem lo hi
          have heq : e2 = e := by
            apply List.inj_on_of_nodup_map hkeys he2mem he
            apply Prod.ext
            · omega
            · omega
          rw [heq, hd] at hd2
          exact absurd hd2 (by simp)
      · rw [if_neg hcond]
        apply p3
        rintro e2 he2mem ⟨delta, -, lo, hi⟩
        obtain ⟨q0, q1, q2, ⟨q3, q4⟩, ⟨q5, q6⟩⟩ :=
          touched_iff_centre w h rnd k idx e2 he2mem lo hi
        apply hcond
        rw [q1, q2]
        exact ⟨q0, by omega, by omega, by omega, by omega, by omega, by omega⟩
  · intro x y delta hdelta
    have hplan : ∀ e ∈ watermarkPlan w h rnd k, ∀ d, e.2 = some d → -2 ≤ d ∧ d ≤ 1 :=
      blockPlan_delta_range _ (pseudoRandomSequence_nonneg rnd k hrnd) rnd _ _
    unfold planDelta at hdelta
    cases hfind : (watermarkPlan w h rnd k).find? (fun e => decide (e.1 = (x, y))) with
    | none =>
      rw [hfind] at hdelta
      exact absurd hdelta (by simp)
    | some e =>
      rw [hfind] at hdelta
      obtain ⟨r1, r2⟩ := hplan e (List.mem_of_find?_eq_some hfind) delta hdelta
      omega
  · intro x y hxy
    obtain ⟨⟨-, hx⟩, ⟨-, hy⟩⟩ := (mem_blockOrigins w h (x, y)).mp hxy
    rw [hlen]
    exact centre_in_buffer hx hy

theorem fakeWatermark_equals_reference_witness :
    (List.replicate 1600 255).length = 4 * 20 * 20 ∧
    (∀ n, 0 ≤ tenthDraws n ∧ tenthDraws n < 1) ∧
    applyFakeFrequencyDomainWatermark 20 20 (List.replicate 1600 255) tenthDraws 0 =
      (List.range (List.replicate 1600 255).length).map
        (fakeWatermarkReference 20 20 (List.replicate 1600 255)
          (planDelta (watermarkPlan 20 20 tenthDraws 0))) ∧
    (List.range 4).map (fun c => fakeWatermarkReference 20 20 (List.replicate 1600 255)
      (planDelta (watermarkPlan 20 20 tenthDraws 0)) (336 + c)) = [253, 255, 253, 255] ∧
    (List.range 4).map (fun c => fakeWatermarkReference 20 20 (List.replicate 1600 1)
      (planDelta (watermarkPlan 20 20 tenthDraws 0)) (336 + c)) = [0, 3, 0, 1] :=
  ⟨by rw [List.length_replicate], fun _ => by norm_num [tenthDraws],
    (fakeWatermark_equals_reference 20 20 (List.replicate 1600 255)
      (by rw [List.length_replicate]) tenthDraws 0 (fun _ => by norm_num [tenthDraws])).1,
    by decide!, by decide!⟩


/-! ## The colour space step on achromatic pixels -/

theorem toUint8Clamp_natCast (n : ℕ) (hn : n ≤ 255) : toUint8Clamp (n : ℚ) = n :=
  toUint8Clamp_near n hn _ (by linarith) (by linarith)

theorem mathRound_intCast (n : ℤ) : mathRound (n : ℚ) = n := by
  unfold mathRound
  rw [Int.floor_eq_iff]
  constructor <;> linarith

theorem mathRound_natCast (n : ℕ) : mathRound (n : ℚ) = (n : ℤ) := by
  have h := mathRound_intCast (n : ℤ)
  simpa using h

theorem colorSpaceStep_achromatic (hueAdjust : ℚ) (i v : ℕ) (s : PassState) (hv : v ≤ 255)
    (hr : s.data.getD i 0 = v) (hg : s.data.getD (i + 1) 0 = v)
    (hb : s.data.getD (i + 2) 0 = v) :
    (colorSpaceStep hueAdjust i s).data = s.data ∧
      (colorSpaceStep hueAdjust i s).written = (v : ℚ) :: (v : ℚ) :: (v : ℚ) :: s.written := by
  have hl : (((v : ℚ) / 255 + (v : ℚ) / 255) / 2) * 255 = (v : ℚ) := by ring
  have hround : ((mathRound ((v : ℚ)) : ℤ) : ℚ) = (v : ℚ) := by
    rw [mathRound_natCast]
    simp
  have e2 : s.data.set (i + 2) v = s.data := by
    rw [← hb]
    exact list_set_getD_self _ _
  have e1 : s.data.set (i + 1) v = s.data := by
    rw [← hg]
    exact list_set_getD_self _ _
  have e0 : s.data.set i v = s.data := by
    rw [← hr]
    exact list_set_getD_self _ _
  unfold colorSpaceStep
  simp only [PassState.get, hr, hg, hb, max_self, min_self, if_true, hl, hround, PassState.put,
    toUint8Clamp_natCast v hv, e2, e1, e0]
  exact ⟨trivial, trivial⟩

/-- C21: in the colour space step, for every hue offset of `[-2, 2]` and every
achromatic pixel (red, green and blue samples all equal to `v`, `v` in
`0 .. 255`), the three numbers assigned are `v` and the sample array is left
as it was. -/
theorem achromatic_pixel_unchanged (hueAdjust : ℚ) (_hh : -2 ≤ hueAdjust ∧ hueAdjust ≤ 2)
    (i v : ℕ) (s : PassState) (hv : v ≤ 255) (hr : s.data.getD i 0 = v)
    (hg : s.data.getD (i + 1) 0 = v) (hb : s.data.getD (i + 2) 0 = v) :
    (colorSpaceStep hueAdjust i s).data = s.data ∧
      (colorSpaceStep hueAdjust i s).written = (v : ℚ) :: (v : ℚ) :: (v : ℚ) :: s.written :=
  colorSpaceStep_achromatic hueAdjust i v s hv hr hg hb

theorem achromatic_pixel_unchanged_witness :
    ((-2 : ℚ) ≤ 1 ∧ (1 : ℚ) ≤ 2) ∧ (200 : ℕ) ≤ 255 ∧
    (colorSpaceStep 1 0 { data := [200, 200, 200, 255], written := [], draws := 0 }).data =
      [200, 200, 200, 255] ∧
    (colorSpaceStep 1 0 { data := [200, 200, 200, 255], written := [], draws := 0 }).written =
      [(200 : ℚ), 200, 200] :=
  ⟨by norm_num, by decide,
    achromatic_pixel_unchanged 1 (by norm_num) 0 200
      { data := [200, 200, 200, 255], written := [], draws := 0 } (by decide) rfl rfl rfl⟩

/-! ## The colour space step with a zero hue offset -/

theorem fmodOne_add_one {x : ℚ} (h0 : 0 ≤ x) (h1 : x < 1) : fmodOne (x + 0 / 360 + 1) = x := by
  unfold fmodOne
  rw [if_pos (by linarith)]
  have hf : ⌊x + 0 / 360 + 1⌋ = 1 := by
    rw [Int.floor_eq_iff]
    constructor <;> push_cast <;> linarith
  rw [hf]
  push_cast
  ring

theorem hsl_saturation_pos {mx mn : ℚ} (h0 : 0 ≤ mn) (hlt : mn < mx) (h1 : mx ≤ 1) :
    (if (mx + mn) / 2 > 1 / 2 then (mx - mn) / (2 - mx - mn) else (mx - mn) / (mx + mn)) ≠ 0 := by
  split_ifs with h
  · exact ne_of_gt (div_pos (by linarith) (by linarith))
  · exact ne_of_gt (div_pos (by linarith) (by linarith))

theorem hsl_q_eq_max {mx mn : ℚ} (h0 : 0 ≤ mn) (hlt : mn < mx) (h1 : mx ≤ 1) :
    (if (mx + mn) / 2 < 1 / 2 then
        (mx + mn) / 2 * (1 + (if (mx + mn) / 2 > 1 / 2 then (mx - mn) / (2 - mx - mn)
          else (mx - mn) / (mx + mn)))
      else
        (mx + mn) / 2 + (if (mx + mn) / 2 > 1 / 2 then (mx - mn) / (2 - mx - mn)
          else (mx - mn) / (mx + mn)) -
        (mx + mn) / 2 * (if (mx + mn) / 2 > 1 / 2 then (mx - mn) / (2 - mx - mn)
          else (mx - mn) / (mx + mn))) = mx := by
  by_cases hl : (mx + mn) / 2 < 1 / 2
  · have hn : ¬ ((mx + mn) / 2 > 1 / 2) := by linarith
    rw [if_pos hl, if_neg hn]
    have hp : mx + mn ≠ 0 := ne_of_gt (by linarith)
    field_simp
    ring
  · rw [if_neg hl]
    by_cases hg : (mx + mn) / 2 > 1 / 2
    · rw [if_pos hg]
      have hp : 2 - mx - mn ≠ 0 := ne_of_gt (by linarith)
      field_simp
      ring
    · rw [if_neg hg]
      have hsum : mx + mn = 1 := by linarith
      rw [hsum]
      linarith

theorem hue2rgb_unit (p q : ℚ) {t : ℚ} (h0 : 0 ≤ t) (h1 : t ≤ 1) :
    hue2rgb p q t =
      if t < 1 / 6 then p + (q - p) * 6 * t
      else if t < 1 / 2 then q
      else if t < 2 / 3 then p + (q - p) * (2 / 3 - t) * 6
      else p := by
  unfold hue2rgb
  simp only
  rw [if_neg (not_lt.mpr h0), if_neg (not_lt.mpr h1)]

theorem hue2rgb_rising (p q : ℚ) {t : ℚ} (h0 : 0 ≤ t) (h1 : t ≤ 1 / 6) :
    hue2rgb p q t = p + (q - p) * 6 * t := by
  rw [hue2rgb_unit p q h0 (by linarith)]
  by_cases h : t < 1 / 6
  · rw [if_pos h]
  · have ht : t = 1 / 6 := le_antisymm h1 (not_lt.mp h)
    subst ht
    rw [if_neg (lt_irrefl _), if_pos (by norm_num)]
    ring

theorem hue2rgb_top (p q : ℚ) {t : ℚ} (h0 : 1 / 6 ≤ t) (h1 : t ≤ 1 / 2) :
    hue2rgb p q t = q := by
  rw [hue2rgb_unit p q (by linarith) (by linarith), if_neg (not_lt.mpr h0)]
  by_cases h : t < 1 / 2
  · rw [if_pos h]
  · have ht : t = 1 / 2 := le_antisymm h1 (not_lt.mp h)
    subst ht
    rw [if_neg (lt_irrefl _), if_pos (by norm_num)]
    ring

theorem hue2rgb_falling (p q : ℚ) {t : ℚ} (h0 : 1 / 2 ≤ t) (h1 : t ≤ 2 / 3) :
    hue2rgb p q t = p + (q - p) * (2 / 3 - t) * 6 := by
  rw [hue2rgb_unit p q (by linarith) (by linarith), if_neg (not_lt.mpr (by linarith)),
    if_neg (not_lt.mpr h0)]
  by_cases h : t < 2 / 3
  · rw [if_pos h]
  · have ht : t = 2 / 3 := le_antisymm h1 (not_lt.mp h)
    subst ht
    rw [if_neg (lt_irrefl _)]
    ring

theorem hue2rgb_bottom (p q : ℚ) {t : ℚ} (h0 : 2 / 3 ≤ t) (h1 : t ≤ 1) :
    hue2rgb p q t = p := by
  rw [hue2rgb_unit p q (by linarith) h1, if_neg (not_lt.mpr (by linarith)),
    if_neg (not_lt.mpr (by linarith)), if_neg (not_lt.mpr h0)]

theorem hue2rgb_below (p q : ℚ) {t : ℚ} (h0 : -1 ≤ t) (h1 : t < 0) :
    hue2rgb p q t = hue2rgb p q (t + 1) := by
  rw [hue2rgb_unit p q (t := t + 1) (by linarith) (by linarith)]
  unfold hue2rgb
  simp only
  rw [if_pos h1, if_neg (not_lt.mpr (by linarith : t + 1 ≤ 1))]

theorem hue2rgb_above (p q : ℚ) {t : ℚ} (h0 : 1 ≤ t) (h1 : t ≤ 2) :
    hue2rgb p q t = hue2rgb p q (t - 1) := by
  by_cases h : t = 1
  · subst h
    rw [hue2rgb_bottom p q (by norm_num) le_rfl, hue2rgb_rising p q (by norm_num) (by norm_num)]
    ring
  · have hlt : 1 < t := lt_of_le_of_ne h0 (fun e => h e.symm)
    rw [hue2rgb_unit p q (t := t - 1) (by linarith) (by linarith)]
    unfold hue2rgb
    simp only
    rw [if_neg (not_lt.mpr (by linarith : (0 : ℚ) ≤ t)), if_pos hlt]

theorem hue2rgb_red_low (mn mx : ℚ) {u : ℚ} (h1 : -1 ≤ u) (h2 : u < 0) :
    hue2rgb mn mx ((u + 6) / 6 + 1 / 3) = mx ∧ hue2rgb mn mx ((u + 6) / 6) = mn ∧
      hue2rgb mn mx ((u + 6) / 6 - 1 / 3) = mn - u * (mx - mn) := by
  refine ⟨?_, ?_, ?_⟩
  · rw [hue2rgb_above mn mx (by linarith) (by linarith), hue2rgb_top mn mx (by linarith) (by linarith)]
  · rw [hue2rgb_bottom mn mx (by linarith) (by linarith)]
  · rw [hue2rgb_falling mn mx (by linarith) (by linarith)]
    ring

theorem hue2rgb_red_high (mn mx : ℚ) {u : ℚ} (h1 : 0 ≤ u) (h2 : u ≤ 1) :
    hue2rgb mn mx ((u + 0) / 6 + 1 / 3) = mx ∧ hue2rgb mn mx ((u + 0) / 6) = mn + u * (mx - mn) ∧
      hue2rgb mn mx ((u + 0) / 6 - 1 / 3) = mn := by
  refine ⟨?_, ?_, ?_⟩
  · rw [hue2rgb_top mn mx (by linarith) (by linarith)]
  · rw [hue2rgb_rising mn mx (by linarith) (by linarith)]
    ring
  · rw [hue2rgb_below mn mx (by linarith) (by linarith), hue2rgb_bottom mn mx (by linarith) (by linarith)]

theorem hue2rgb_green_low (mn mx : ℚ) {u : ℚ} (h1 : -1 < u) (h2 : u < 0) :
    hue2rgb mn mx ((u + 2) / 6 + 1 / 3) = mn - u * (mx - mn) ∧ hue2rgb mn mx ((u + 2) / 6) = mx ∧
      hue2rgb mn mx ((u + 2) / 6 - 1 / 3) = mn := by
  refine ⟨?_, ?_, ?_⟩
  · rw [hue2rgb_falling mn mx (by linarith) (by linarith)]
    ring
  · rw [hue2rgb_top mn mx (by linarith) (by linarith)]
  · rw [hue2rgb_below mn mx (by linarith) (by linarith), hue2rgb_bottom mn mx (by linarith) (by linarith)]

theorem hue2rgb_green_high (mn mx : ℚ) {u : ℚ} (h1 : 0 ≤ u) (h2 : u ≤ 1) :
    hue2rgb mn mx ((u + 2) / 6 + 1 / 3) = mn ∧ hue2rgb mn mx ((u + 2) / 6) = mx ∧
      hue2rgb mn mx ((u + 2) / 6 - 1 / 3) = mn + u * (mx - mn) := by
  refine ⟨?_, ?_, ?_⟩
  · rw [hue2rgb_bottom mn mx (by linarith) (by linarith)]
  · rw [hue2rgb_top mn mx (by linarith) (by linarith)]
  · rw [hue2rgb_rising mn mx (by linarith) (by linarith)]
    ring

theorem hue2rgb_blue_low (mn mx : ℚ) {u : ℚ} (h1 : -1 < u) (h2 : u < 0) :
    hue2rgb mn mx ((u + 4) / 6 + 1 / 3) = mn ∧ hue2rgb mn mx ((u + 4) / 6) = mn - u * (mx - mn) ∧
      hue2rgb mn mx ((u + 4) / 6 - 1 / 3) = mx := by
  refine ⟨?_, ?_, ?_⟩
  · rw [hue2rgb_bottom mn mx (by linarith) (by linarith)]
  · rw [hue2rgb_falling mn mx (by linarith) (by linarith)]
    ring
  · rw [hue2rgb_top mn mx (by linarith) (by linarith)]

theorem hue2rgb_blue_high (mn mx : ℚ) {u : ℚ} (h1 : 0 ≤ u) (h2 : u < 1) :
    hue2rgb mn mx ((u + 4) / 6 + 1 / 3) = mn + u * (mx - mn) ∧ hue2rgb mn mx ((u + 4) / 6) = mn ∧
      hue2rgb mn mx ((u + 4) / 6 - 1 / 3) = mx := by
  refine ⟨?_, ?_, ?_⟩
  · rw [hue2rgb_above mn mx (by linarith) (by linarith), hue2rgb_rising mn mx (by linarith) (by linarith)]
    ring
  · rw [hue2rgb_bottom mn mx (by linarith) (by linarith)]
  · rw [hue2rgb_top mn mx (by linarith) (by linarith)]

theorem hue_roundtrip {r g b mx mn : ℚ} (hr : mn ≤ r ∧ r ≤ mx) (hg : mn ≤ g ∧ g ≤ mx)
    (hb : mn ≤ b ∧ b ≤ mx) (hmx : mx = r ∨ mx = g ∨ mx = b) (hmn : mn = r ∨ mn = g ∨ mn = b)
    (hlt : mn < mx) :
    (0 ≤ hueSector r g b mx (mx - mn) / 6 ∧ hueSector r g b mx (mx - mn) / 6 < 1) ∧
    hue2rgb mn mx (hueSector r g b mx (mx - mn) / 6 + 1 / 3) = r ∧
    hue2rgb mn mx (hueSector r g b mx (mx - mn) / 6) = g ∧
    hue2rgb mn mx (hueSector r g b mx (mx - mn) / 6 - 1 / 3) = b := by
  have hd : 0 < mx - mn := by linarith
  have hdiv : ∀ X : ℚ, X / (mx - mn) * (mx - mn) = X := fun X => div_mul_cancel₀ X hd.ne'
  unfold hueSector
  by_cases h1 : mx = r
  · rw [if_pos h1]
    by_cases hgb : g < b
    · rw [if_pos hgb]
      have hmng : mn = g := by
        rcases hmn with h | h | h
        · linarith
        · exact h
        · linarith
      have hu := hdiv (g - b)
      have hu1 : -1 ≤ (g - b) / (mx - mn) := by
        rw [le_div_iff₀ hd]
        linarith
      have hu2 : (g - b) / (mx - mn) < 0 := div_neg_of_neg_of_pos (by linarith) hd
      generalize (g - b) / (mx - mn) = u at hu hu1 hu2
      obtain ⟨e1, e2, e3⟩ := hue2rgb_red_low mn mx hu1 hu2
      rw [e1, e2, e3]
      exact ⟨⟨by linarith, by linarith⟩, by linarith, by linarith, by linarith⟩
    · rw [if_neg hgb]
      have hmnb : mn = b := by
        rcases hmn with h | h | h
        · linarith
        · linarith
        · exact h
      have hu := hdiv (g - b)
      have hu1 : 0 ≤ (g - b) / (mx - mn) := div_nonneg (by linarith) hd.le
      have hu2 : (g - b) / (mx - mn) ≤ 1 := by
        rw [div_le_iff₀ hd]
        linarith
      generalize (g - b) / (mx - mn) = u at hu hu1 hu2
      obtain ⟨e1, e2, e3⟩ := hue2rgb_red_high mn mx hu1 hu2
      rw [e1, e2, e3]
      exact ⟨⟨by linarith, by linarith⟩, by linarith, by linarith, by linarith⟩
  · rw [if_neg h1]
    have hrlt : r < mx := lt_of_le_of_ne hr.2 (fun h => h1 h.symm)
    by_cases h2 : mx = g
    · rw [if_pos h2]
      by_cases hbr : b < r
      · have hmnb : mn = b := by
          rcases hmn with h | h | h
          · linarith
          · linarith
          · exact h
        have hu := hdiv (b - r)
        have hu1 : -1 < (b - r) / (mx - mn) := by
          rw [lt_div_iff₀ hd]
          linarith
        have hu2 : (b - r) / (mx - mn) < 0 := div_neg_of_neg_of_pos (by linarith) hd
        generalize (b - r) / (mx - mn) = u at hu hu1 hu2
        obtain ⟨e1, e2, e3⟩ := hue2rgb_green_low mn mx hu1 hu2
        rw [e1, e2, e3]
        exact ⟨⟨by linarith, by linarith⟩, by linarith, by linarith, by linarith⟩
      · have hmnr : mn = r := by
          rcases hmn with h | h | h
          · exact h
          · linarith
          · linarith
        have hu := hdiv (b - r)
        have hu1 : 0 ≤ (b - r) / (mx - mn) := div_nonneg (by linarith) hd.le
        have hu2 : (b - r) / (mx - mn) ≤ 1 := by
          rw [div_le_iff₀ hd]
          linarith
        generalize (b - r) / (mx - mn) = u at hu hu1 hu2
        obtain ⟨e1, e2, e3⟩ := hue2rgb_green_high mn mx hu1 hu2
        rw [e1, e2, e3]
        exact ⟨⟨by linarith, by linarith⟩, by linarith, by linarith, by linarith⟩
    · rw [if_neg h2]
      have hglt : g < mx := lt_of_le_of_ne hg.2 (fun h => h2 h.symm)
      have h3 : mx = b := by
        rcases hmx with h | h | h
        · exact absurd h h1
        · exact absurd h h2
        · exact h
      rw [if_pos h3]
      by_cases hrg : r < g
      · have hmnr : mn = r := by
          rcases hmn with h | h | h
          · exact h
          · linarith
          · linarith
        have hu := hdiv (r - g)
        have hu1 : -1 < (r - g) / (mx - mn) := by
          rw [lt_div_iff₀ hd]
          linarith
        have hu2 : (r - g) / (mx - mn) < 0 := div_neg_of_neg_of_pos (by linarith) hd
        generalize (r - g) / (mx - mn) = u at hu hu1 hu2
        obtain ⟨e1, e2, e3⟩ := hue2rgb_blue_low mn mx hu1 hu2
        rw [e1, e2, e3]
        exact ⟨⟨by linarith, by linarith⟩, by linarith, by linarith, by linarith⟩
      · have hmng : mn = g := by
          rcases hmn with h | h | h
          · linarith
          · exact h
          · linarith
        have hu := hdiv (r - g)
        have hu1 : 0 ≤ (r - g) / (mx - mn) := div_nonneg (by linarith) hd.le
        have hu2 : (r - g) / (mx - mn) < 1 := by
          rw [div_lt_iff₀ hd]
          linarith
        generalize (r - g) / (mx - mn) = u at hu hu1 hu2
        obtain ⟨e1, e2, e3⟩ := hue2rgb_blue_high mn mx hu1 hu2
        rw [e1, e2, e3]
        exact ⟨⟨by linarith, by linarith⟩, by linarith, by linarith, by linarith⟩

theorem max3_mem (r g b : ℚ) :
    max (max r g) b = r ∨ max (max r g) b = g ∨ max (max r g) b = b := by
  rcases max_choice (max r g) b with h | h
  · rcases max_choice r g with h2 | h2
    · exact Or.inl (by rw [h, h2])
    · exact Or.inr (Or.inl (by rw [h, h2]))
  · exact Or.inr (Or.inr h)

theorem min3_mem (r g b : ℚ) :
    min (min r g) b = r ∨ min (min r g) b = g ∨ min (min r g) b = b := by
  rcases min_choice (min r g) b with h | h
  · rcases min_choice r g with h2 | h2
    · exact Or.inl (by rw [h, h2])
    · exact Or.inr (Or.inl (by rw [h, h2]))
  · exact Or.inr (Or.inr h)

theorem colorSpaceStep_chromatic (i : ℕ) (s : PassState) (hs : ∀ n ∈ s.data, n ≤ 255)
    (hne : max (max (s.get i / 255) (s.get (i + 1) / 255)) (s.get (i + 2) / 255) ≠
      min (min (s.get i / 255) (s.get (i + 1) / 255)) (s.get (i + 2) / 255)) :
    colorSpaceStep 0 i s =
      ((s.put i (s.get i)).put (i + 1) (s.get (i + 1))).put (i + 2) (s.get (i + 2)) := by
  have hunit : ∀ j, 0 ≤ s.get j / 255 ∧ s.get j / 255 ≤ 1 := fun j =>
    ⟨div_nonneg (PassState.get_nonneg s j) (by norm_num),
      (div_le_one (by norm_num)).mpr (by
        unfold PassState.get
        exact_mod_cast getD_le_of_forall hs j)⟩
  have hmn0 : 0 ≤ min (min (s.get i / 255) (s.get (i + 1) / 255)) (s.get (i + 2) / 255) :=
    le_min (le_min (hunit _).1 (hunit _).1) (hunit _).1
  have hmx1 : max (max (s.get i / 255) (s.get (i + 1) / 255)) (s.get (i + 2) / 255) ≤ 1 :=
    max_le (max_le (hunit _).2 (hunit _).2) (hunit _).2
  have hr : min (min (s.get i / 255) (s.get (i + 1) / 255)) (s.get (i + 2) / 255) ≤ s.get i / 255 ∧
      s.get i / 255 ≤ max (max (s.get i / 255) (s.get (i + 1) / 255)) (s.get (i + 2) / 255) :=
    ⟨le_trans (min_le_left _ _) (min_le_left _ _), le_trans (le_max_left _ _) (le_max_left _ _)⟩
  have hg : min (min (s.get i / 255) (s.get (i + 1) / 255)) (s.get (i + 2) / 255) ≤
        s.get (i + 1) / 255 ∧
      s.get (i + 1) / 255 ≤
        max (max (s.get i / 255) (s.get (i + 1) / 255)) (s.get (i + 2) / 255) :=
    ⟨le_trans (min_le_left _ _) (min_le_right _ _), le_trans (le_max_right _ _) (le_max_left _ _)⟩
  have hb : min (min (s.get i / 255) (s.get (i + 1) / 255)) (s.get (i + 2) / 255) ≤
        s.get (i + 2) / 255 ∧
      s.get (i + 2) / 255 ≤
        max (max (s.get i / 255) (s.get (i + 1) / 255)) (s.get (i + 2) / 255) :=
    ⟨min_le_right _ _, le_max_right _ _⟩
  have hlt : min (min (s.get i / 255) (s.get (i + 1) / 255)) (s.get (i + 2) / 255) <
      max (max (s.get i / 255) (s.get (i + 1) / 255)) (s.get (i + 2) / 255) :=
    lt_of_le_of_ne (le_trans hr.1 hr.2) (Ne.symm hne)
  obtain ⟨⟨hH0, hH1⟩, e1, e2, e3⟩ :=
    hue_roundtrip hr hg hb (max3_mem _ _ _) (min3_mem _ _ _) hlt
  have hp : ∀ mx mn : ℚ, 2 * ((mx + mn) / 2) - mx = mn := fun mx mn => by ring
  have hcancel : ∀ j, ((mathRound (s.get j / 255 * 255) : ℤ) : ℚ) = s.get j := by
    intro j
    rw [div_mul_cancel₀ _ (by norm_num : (255 : ℚ) ≠ 0)]
    unfold PassState.get
    rw [mathRound_natCast]
    simp
  unfold colorSpaceStep
  simp only [if_neg hne, if_neg (hsl_saturation_pos hmn0 hlt hmx1), hsl_q_eq_max hmn0 hlt hmx1,
    hp, fmodOne_add_one hH0 hH1, e1, e2, e3, hcancel]

theorem put_get_data (s : PassState) (hs : ∀ n ∈ s.data, n ≤ 255) (j k : ℕ)
    (t : PassState) (ht : t.data = s.data) : (t.put j (s.get k)).data = s.data.set j (s.data.getD k 0) := by
  unfold PassState.put PassState.get
  simp only
  rw [toUint8Clamp_natCast _ (getD_le_of_forall hs k), ht]

theorem colorSpaceStep_zero_hue (i : ℕ) (s : PassState) (hs : ∀ n ∈ s.data, n ≤ 255) :
    (colorSpaceStep 0 i s).data = s.data ∧
      (colorSpaceStep 0 i s).written =
        s.get (i + 2) :: s.get (i + 1) :: s.get i :: s.written := by
  by_cases hne : max (max (s.get i / 255) (s.get (i + 1) / 255)) (s.get (i + 2) / 255) ≠
      min (min (s.get i / 255) (s.get (i + 1) / 255)) (s.get (i + 2) / 255)
  · rw [colorSpaceStep_chromatic i s hs hne]
    refine ⟨?_, rfl⟩
    have d1 := put_get_data s hs i i s rfl
    rw [list_set_getD_self] at d1
    have d2 := put_get_data s hs (i + 1) (i + 1) _ d1
    rw [list_set_getD_self] at d2
    have d3 := put_get_data s hs (i + 2) (i + 2) _ d2
    rw [list_set_getD_self] at d3
    exact d3
  · rw [not_not] at hne
    have hcast : ∀ j k, s.get j / 255 = s.get k / 255 → s.data.getD j 0 = s.data.getD k 0 := by
      intro j k h
      unfold PassState.get at h
      have h2 : ((s.data.getD j 0 : ℕ) : ℚ) = ((s.data.getD k 0 : ℕ) : ℚ) :=
        (div_left_inj' (by norm_num : (255 : ℚ) ≠ 0)).mp h
      exact_mod_cast h2
    have hr1 : s.get i / 255 ≤
        max (max (s.get i / 255) (s.get (i + 1) / 255)) (s.get (i + 2) / 255) :=
      le_trans (le_max_left _ _) (le_max_left _ _)
    have hg1 : s.get (i + 1) / 255 ≤
        max (max (s.get i / 255) (s.get (i + 1) / 255)) (s.get (i + 2) / 255) :=
      le_trans (le_max_right _ _) (le_max_left _ _)
    have hb1 : s.get (i + 2) / 255 ≤
        max (max (s.get i / 255) (s.get (i + 1) / 255)) (s.get (i + 2) / 255) :=
      le_max_right _ _
    have hr2 : min (min (s.get i / 255) (s.get (i + 1) / 255)) (s.get (i + 2) / 255) ≤
        s.get i / 255 := le_trans (min_le_left _ _) (min_le_left _ _)
    have hg2 : min (min (s.get i / 255) (s.get (i + 1) / 255)) (s.get (i + 2) / 255) ≤
        s.get (i + 1) / 255 := le_trans (min_le_left _ _) (min_le_right _ _)
    have hb2 : min (min (s.get i / 255) (s.get (i + 1) / 255)) (s.get (i + 2) / 255) ≤
        s.get (i + 2) / 255 := min_le_right _ _
    have eg : s.data.getD (i + 1) 0 = s.data.getD i 0 := hcast _ _ (by linarith)
    have eb : s.data.getD (i + 2) 0 = s.data.getD i 0 := hcast _ _ (by linarith)
    have h := colorSpaceStep_achromatic 0 i (s.data.getD i 0) s (getD_le_of_forall hs i) rfl eg eb
    refine ⟨h.1, ?_⟩
    rw [h.2]
    unfold PassState.get
    rw [eg, eb]

/-- C27: with a hue offset of exactly `0` the colour space step, computed in
exact arithmetic with the final `Math.round(x * 255)`, is the identity on every
pixel of 8-bit samples: the three numbers it assigns are the red, green and
blue samples the pixel had, and the sample array is left as it was. -/
theorem zero_hue_roundtrip_is_identity (i : ℕ) (s : PassState)
    (hs : ∀ n ∈ s.data, n ≤ 255) :
    (colorSpaceStep 0 i s).data = s.data ∧
      (colorSpaceStep 0 i s).written =
        s.get (i + 2) :: s.get (i + 1) :: s.get i :: s.written :=
  colorSpaceStep_zero_hue i s hs

theorem zero_hue_roundtrip_is_identity_witness :
    (∀ n ∈ passInput, n ≤ 255) ∧
    (colorSpaceStep 0 4 { data := passInput, written := [], draws := 0 }).data = passInput ∧
    (colorSpaceStep 0 4 { data := passInput, written := [], draws := 0 }).written =
      [(90 : ℚ), 40, 200] :=
  ⟨by decide,
    zero_hue_roundtrip_is_identity 4 { data := passInput, written := [], draws := 0 }
      (by decide)⟩

/-! ## The shape of `convertToDMS` -/

/-- C23: for a non-negative coordinate `c`, `convertToDMS(c)` is three pairs
`[numerator, denominator]` with the denominators `1`, `1` and `100` and integer
numerators: the degrees are `Math.floor(c)`, the minutes lie in `0 .. 59` and
the seconds, scaled by `100`, lie in `0 .. 6000`. -/
theorem convertToDMS_shape (c : ℚ) (hc : 0 ≤ c) :
    ∃ d m s : ℤ, convertToDMS c = ((d, 1), (m, 1), (s, 100)) ∧
      d = mathFloor c ∧ 0 ≤ d ∧ 0 ≤ m ∧ m ≤ 59 ∧ 0 ≤ s ∧ s ≤ 6000 := by
  have hf1 := Int.floor_le c
  have hf2 := Int.lt_floor_add_one c
  have hm1 := Int.floor_le ((c - mathFloor c) * 60)
  have hm2 := Int.lt_floor_add_one ((c - mathFloor c) * 60)
  refine ⟨mathFloor c, mathFloor ((c - mathFloor c) * 60),
    mathRound (((c - mathFloor c) * 60 - mathFloor ((c - mathFloor c) * 60)) * 60 * 100),
    rfl, rfl, ?_, ?_, ?_, ?_, ?_⟩
  · exact Int.floor_nonneg.mpr hc
  · unfold mathFloor at *
    exact Int.floor_nonneg.mpr (by linarith)
  · unfold mathFloor at *
    have h : ⌊(c - (⌊c⌋ : ℚ)) * 60⌋ < 60 := Int.floor_lt.mpr (by push_cast; linarith)
    omega
  · unfold mathRound mathFloor at *
    exact Int.floor_nonneg.mpr (by linarith)
  · unfold mathRound mathFloor at *
    have h : ⌊((c - (⌊c⌋ : ℚ)) * 60 - (⌊(c - (⌊c⌋ : ℚ)) * 60⌋ : ℚ)) * 60 * 100 + 1 / 2⌋ < 6001 :=
      Int.floor_lt.mpr (by push_cast; linarith)
    omega

theorem convertToDMS_shape_witness :
    (0 : ℚ) ≤ 314159 / 10000 ∧
    ∃ d m s : ℤ, convertToDMS (314159 / 10000) = ((d, 1), (m, 1), (s, 100)) ∧
      d = mathFloor (314159 / 10000) ∧ 0 ≤ d ∧ 0 ≤ m ∧ m ≤ 59 ∧ 0 ≤ s ∧ s ≤ 6000 :=
  ⟨by norm_num, convertToDMS_shape (314159 / 10000) (by norm_num)⟩

/-! ## The channel offsets never change a sample -/

/-- C24: for every sample `v` of `0 .. 255` and every offset `a` with
`|a| ≤ 0.25`, the store of `Math.min(255, Math.max(0, v + a))` keeps `v`; so the
channel offset step, whose three offsets are of that size, leaves the sample
array of the loop as it was. -/
theorem channel_bias_keeps_sample (v : ℕ) (hv : v ≤ 255) (a : ℚ) (ha : |a| ≤ 1 / 4) :
    toUint8Clamp (clamp255 ((v : ℚ) + a)) = v ∧
    ∀ (s : PassState) (i : ℕ) (greenAdjust blueAdjust : ℚ), (∀ n ∈ s.data, n ≤ 255) →
      |greenAdjust| ≤ 1 / 4 → |blueAdjust| ≤ 1 / 4 →
      (channelStep a greenAdjust blueAdjust i s).data = s.data := by
  rw [abs_le] at ha
  refine ⟨toUint8Clamp_clamp_offset v hv a ha.1 ha.2, ?_⟩
  intro s i ga ba hs hga hba
  rw [abs_le] at hga hba
  exact (channelStep_data hs i a ga ba ha hga hba).1

theorem channel_bias_keeps_sample_witness :
    (255 : ℕ) ≤ 255 ∧ |(1 / 4 : ℚ)| ≤ 1 / 4 ∧
    toUint8Clamp (clamp255 (((255 : ℕ) : ℚ) + 1 / 4)) = 255 ∧
    ∀ (s : PassState) (i : ℕ) (greenAdjust blueAdjust : ℚ), (∀ n ∈ s.data, n ≤ 255) →
      |greenAdjust| ≤ 1 / 4 → |blueAdjust| ≤ 1 / 4 →
      (channelStep (1 / 4) greenAdjust blueAdjust i s).data = s.data :=
  ⟨by decide, by norm_num [abs_le],
    channel_bias_keeps_sample 255 (by decide) (1 / 4) (by norm_num [abs_le])⟩

/-! ## The clamp of the encoding quality -/

/-- C28: for the levels `1` to `5` and a draw `u` of `[0, 1)` the clamp to
`[0.70, 0.99]` changes nothing: the quality is `base + 0.04 * u - 0.02` and
lies in `[base - 0.02, base + 0.02)`; for a level that is neither zero nor one
of `1 .. 5` no case of the `switch` applies and the quality is `0.92`, whatever
the draw. -/
theorem compressionQuality_clamp_is_identity (level : ℤ) (u : ℚ) (hu : 0 ≤ u ∧ u < 1) :
    (∀ base : ℚ,
      ((level = 1 ∧ base = 95 / 100) ∨ (level = 2 ∧ base = 90 / 100) ∨
        (level = 3 ∧ base = 85 / 100) ∨ (level = 4 ∧ base = 80 / 100) ∨
        (level = 5 ∧ base = 75 / 100)) →
      compressionQuality level u = base + 4 / 100 * u - 2 / 100 ∧
        base - 2 / 100 ≤ compressionQuality level u ∧
        compressionQuality level u < base + 2 / 100) ∧
    (level ≠ 0 → (level < 1 ∨ 5 < level) → compressionQuality level u = 92 / 100) := by
  obtain ⟨h0, h1⟩ := hu
  constructor
  · intro base hmem
    have key : ∀ b : ℚ, 75 / 100 ≤ b → b ≤ 95 / 100 →
        min (99 / 100) (max (7 / 10) (b + (u * (4 / 100) - 2 / 100))) =
          b + 4 / 100 * u - 2 / 100 := by
      intro b hb1 hb2
      rw [max_eq_right (by linarith), min_eq_right (by linarith)]
      ring
    rcases hmem with ⟨rfl, rfl⟩ | ⟨rfl, rfl⟩ | ⟨rfl, rfl⟩ | ⟨rfl, rfl⟩ | ⟨rfl, rfl⟩
    · have e : compressionQuality 1 u = 95 / 100 + 4 / 100 * u - 2 / 100 := by
        rw [← key (95 / 100) (by norm_num) (by norm_num)]
        simp [compressionQuality]
      rw [e]
      exact ⟨rfl, by linarith, by linarith⟩
    · have e : compressionQuality 2 u = 90 / 100 + 4 / 100 * u - 2 / 100 := by
        rw [← key (90 / 100) (by norm_num) (by norm_num)]
        simp [compressionQuality]
      rw [e]
      exact ⟨rfl, by linarith, by linarith⟩
    · have e : compressionQuality 3 u = 85 / 100 + 4 / 100 * u - 2 / 100 := by
        rw [← key (85 / 100) (by norm_num) (by norm_num)]
        simp [compressionQuality]
      rw [e]
      exact ⟨rfl, by linarith, by linarith⟩
    · have e : compressionQuality 4 u = 80 / 100 + 4 / 100 * u - 2 / 100 := by
        rw [← key (80 / 100) (by norm_num) (by norm_num)]
        simp [compressionQuality]
      rw [e]
      exact ⟨rfl, by linarith, by linarith⟩
    · have e : compressionQuality 5 u = 75 / 100 + 4 / 100 * u - 2 / 100 := by
        rw [← key (75 / 100) (by norm_num) (by norm_num)]
        simp [compressionQuality]
      rw [e]
      exact ⟨rfl, by linarith, by linarith⟩
  · intro hne hout
    unfold compressionQuality
    rw [if_pos hne]
    have n1 : level ≠ 1 := by omega
    have n2 : level ≠ 2 := by omega
    have n3 : level ≠ 3 := by omega
    have n4 : level ≠ 4 := by omega
    have n5 : level ≠ 5 := by omega
    simp only [n1, n2, n3, n4, n5, if_false]
    norm_num

theorem compressionQuality_clamp_is_identity_witness :
    ((0 : ℚ) ≤ 0 ∧ (0 : ℚ) < 1) ∧
    (∀ base : ℚ,
      (((5 : ℤ) = 1 ∧ base = 95 / 100) ∨ ((5 : ℤ) = 2 ∧ base = 90 / 100) ∨
        ((5 : ℤ) = 3 ∧ base = 85 / 100) ∨ ((5 : ℤ) = 4 ∧ base = 80 / 100) ∨
        ((5 : ℤ) = 5 ∧ base = 75 / 100)) →
      compressionQuality 5 0 = base + 4 / 100 * 0 - 2 / 100 ∧
        base - 2 / 100 ≤ compressionQuality 5 0 ∧
        compressionQuality 5 0 < base + 2 / 100) ∧
    ((5 : ℤ) ≠ 0 → ((5 : ℤ) < 1 ∨ (5 : ℤ) < 5) → compressionQuality 5 0 = 92 / 100) :=
  ⟨by norm_num, compressionQuality_clamp_is_identity 5 0 (by norm_num)⟩

/-! ## Brightness and contrast at zero -/

theorem contrastStep_factor (o : Options) (i : ℕ) (s : PassState) :
    contrastStep o i s =
      ((s.put i (clamp255 (contrastFactor o.contrast * (s.get i - 128) + 128))).put (i + 1)
        (clamp255 (contrastFactor o.contrast *
          ((s.put i (clamp255 (contrastFactor o.contrast * (s.get i - 128) + 128))).get (i + 1)
            - 128) + 128))).put (i + 2)
        (clamp255 (contrastFactor o.contrast *
          (((s.put i (clamp255 (contrastFactor o.contrast * (s.get i - 128) + 128))).put (i + 1)
            (clamp255 (contrastFactor o.contrast *
              ((s.put i (clamp255 (contrastFactor o.contrast * (s.get i - 128) + 128))).get
                (i + 1) - 128) + 128))).get (i + 2) - 128) + 128)) :=
  rfl

theorem brightnessStep_zero (o : Options) (hb : o.brightness = 0) (i : ℕ) (s : PassState)
    (hs : ∀ n ∈ s.data, n ≤ 255) : (brightnessStep o i s).data = s.data := by
  have h := channelStep_data hs i 0 0 0 (by norm_num) (by norm_num) (by norm_num)
  have e : brightnessStep o i s = channelStep 0 0 0 i s := by
    unfold brightnessStep channelStep
    simp only [hb, zero_mul]
  rw [e]
  exact h.1

theorem contrastFactor_zero : contrastFactor 0 = 1 := by
  unfold contrastFactor
  norm_num

theorem contrastStep_zero (o : Options) (hc : o.contrast = 0) (i : ℕ) (s : PassState)
    (hs : ∀ n ∈ s.data, n ≤ 255) : (contrastStep o i s).data = s.data := by
  have h := channelStep_data hs i 0 0 0 (by norm_num) (by norm_num) (by norm_num)
  have e : contrastStep o i s = channelStep 0 0 0 i s := by
    rw [contrastStep_factor]
    unfold channelStep
    simp only [hc, contrastFactor_zero, one_mul, sub_add_cancel, add_zero]
  rw [e]
  exact h.1

/-- C29: with `brightness = 0` and `contrast = 0` the brightness step and the
contrast step leave the sample array as it was; the contrast factor
`259 * (contrast * 8 + 255) / (255 * (259 - contrast * 8))` is `1` at
`contrast = 0`, and for every `contrast` of `[-1, 1]` its divisor is not zero
and the factor is positive. -/
theorem zero_brightness_contrast_is_identity (o : Options) (hb : o.brightness = 0)
    (hc : o.contrast = 0) (i : ℕ) (s : PassState) (hs : ∀ n ∈ s.data, n ≤ 255) :
    (brightnessStep o i s).data = s.data ∧
    (contrastStep o i (brightnessStep o i s)).data = s.data ∧
    contrastFactor o.contrast = 1 ∧
    ∀ contrast : ℚ, -1 ≤ contrast → contrast ≤ 1 →
      255 * (259 - contrast * 8) ≠ 0 ∧ 0 < contrastFactor contrast := by
  have e1 := brightnessStep_zero o hb i s hs
  have e2 := contrastStep_zero o hc i (brightnessStep o i s) (by rw [e1]; exact hs)
  refine ⟨e1, by rw [e2, e1], by rw [hc]; exact contrastFactor_zero, ?_⟩
  intro c h1 h2
  refine ⟨contrast_divisor_ne_zero h2, ?_⟩
  unfold contrastFactor
  apply div_pos <;> linarith

theorem zero_brightness_contrast_is_identity_witness :
    defaultOptions.brightness = 0 ∧ defaultOptions.contrast = 0 ∧
    (∀ n ∈ passInput, n ≤ 255) ∧
    (brightnessStep defaultOptions 4
      { data := passInput, written := [], draws := 0 }).data = passInput ∧
    (contrastStep defaultOptions 4 (brightnessStep defaultOptions 4
      { data := passInput, written := [], draws := 0 })).data = passInput ∧
    contrastFactor defaultOptions.contrast = 1 ∧
    ∀ contrast : ℚ, -1 ≤ contrast → contrast ≤ 1 →
      255 * (259 - contrast * 8) ≠ 0 ∧ 0 < contrastFactor contrast :=
  ⟨rfl, rfl, by decide,
    zero_brightness_contrast_is_identity defaultOptions rfl rfl 4
      { data := passInput, written := [], draws := 0 } (by decide)⟩

/-! ## The defaults of the options -/

/-- C22: the check box `modifyMetadata` clear and the fields `noiseLevel` and
`pixelShift` holding `0`: `processImage` uses `modifyMetadata = true`,
`noiseLevel = 2` and `pixelShift = 1`, where the check box `watermark`, read
the same way with the default `false`, is used as supplied. -/
theorem supplied_falsy_options_replaced :
    (readOptions zeroShiftElements).modifyMetadata = true ∧
    (readOptions zeroShiftElements).noiseLevel = 2 ∧
    (readOptions zeroShiftElements).pixelShift = 1 ∧
    (∀ e : OptionElements, (readOptions e).modifyMetadata = true) ∧
    (∀ e : OptionElements, (readOptions e).watermark = e.watermark) := by
  refine ⟨rfl, rfl, rfl, ?_, ?_⟩
  · intro e
    simp [readOptions]
  · intro e
    simp [readOptions]

/-! ## A batch downloaded with the multi-pass levels -/

/-- C30: with `compressionLevel ≥ 4`, `processImage` hands back a `Promise`
for every valid image whose first encode succeeds, and the download handler,
which uses the value at once as a string, raises for every image of the
batch: no image gives an entry and the archive stays empty. -/
theorem multipass_batch_adds_nothing {μ : Type} (atob : String → Except String (List ℕ))
    (o : Options) (hlevel : 4 ≤ o.compressionLevel) (piexif : Option (Piexif μ))
    (generate : Except String μ) (decode : String → Option DecodedImage)
    (encode : ℕ → ℕ → List ℕ → ℚ → String) (rnd : ℕ → ℚ)
    (images : List (String × Option ImageElement × Except String String × ℕ)) :
    (∀ (image : ImageElement) (jpegData : String) (k : ℕ),
      image.width ≠ 0 → image.height ≠ 0 →
      ∃ resolved calls,
        processImage (some image) o (Except.ok jpegData) piexif generate decode encode rnd k =
          Except.ok (Returned.promise resolved, calls)) ∧
    (∀ im ∈ images,
      downloadEntry atob im.1
        ((processImage im.2.1 o im.2.2.1 piexif generate decode encode rnd im.2.2.2).map
          Prod.fst) = none) ∧
    downloadLoop atob (images.map fun im =>
      (im.1, (processImage im.2.1 o im.2.2.1 piexif generate decode encode rnd im.2.2.2).map
        Prod.fst)) = [] := by
  have hentry : ∀ (img : Option ImageElement) (rendered : Except String String) (k : ℕ)
      (name : String),
      downloadEntry atob name
        ((processImage img o rendered piexif generate decode encode rnd k).map Prod.fst) =
        none := by
    intro img rendered k name
    unfold processImage
    cases img with
    | none => rfl
    | some image =>
      dsimp only
      split_ifs
      · rfl
      · cases rendered with
        | error e => rfl
        | ok jpegData =>
          dsimp only
          rw [processImageReturn_multipass o jpegData piexif generate decode encode rnd k hlevel]
          rfl
  refine ⟨?_, ?_, ?_⟩
  · intro image jpegData k hw hh
    refine ⟨simulateMultiCompressionCycle decode encode jpegData rnd k,
      [Call.simulateMultiCompressionCycle], ?_⟩
    unfold processImage
    dsimp only
    rw [if_neg (by simp [hw, hh]),
      processImageReturn_multipass o jpegData piexif generate decode encode rnd k hlevel]
  · intro im _
    exact hentry _ _ _ _
  · rw [downloadLoop_eq_filterMap, List.filterMap_eq_nil_iff]
    intro x hx
    rw [List.mem_map] at hx
    obtain ⟨im, _, rfl⟩ := hx
    exact hentry _ _ _ _

theorem multipass_batch_adds_nothing_witness :
    (4 : ℤ) ≤ level4Options.compressionLevel ∧
    downloadLoop charCodes
      ([("a.jpg", some { width := 640, height := 480 },
          Except.ok "data:image/jpeg;base64,QUJD", 0),
        ("b.jpg", some { width := 32, height := 32 },
          Except.ok "data:image/jpeg;base64,QUJD", 7)].map fun im =>
      (im.1, (processImage im.2.1 level4Options im.2.2.1 (some workingPiexif) (Except.ok "")
        alwaysLoads constantEncode halfDraws im.2.2.2).map Prod.fst)) = [] :=
  ⟨by decide,
    (multipass_batch_adds_nothing charCodes level4Options (by decide) (some workingPiexif)
      (Except.ok "") alwaysLoads constantEncode halfDraws
      [("a.jpg", some { width := 640, height := 480 },
          Except.ok "data:image/jpeg;base64,QUJD", 0),
        ("b.jpg", some { width := 32, height := 32 },
          Except.ok "data:image/jpeg;base64,QUJD", 7)]).2.2⟩

/-! ## The region of a pixel -/

theorem buildRegions_length (canvasWidth canvasHeight : ℕ) (noiseLevel : ℤ) (rnd : ℕ → ℚ)
    (k : ℕ) : (buildRegions canvasWidth canvasHeight noiseLevel rnd k).length = 9 := by
  have hr : List.range 3 = [0, 1, 2] := by decide
  simp [buildRegions, hr]

theorem buildRegions_getElem? (canvasWidth canvasHeight : ℕ) (noiseLevel : ℤ) (rnd : ℕ → ℚ)
    (k j : ℕ) (hj : j < 9) :
    ∃ region, (buildRegions canvasWidth canvasHeight noiseLevel rnd k)[j]? = some region ∧
      region.x = j % 3 * (canvasWidth / 3) ∧ region.y = j / 3 * (canvasHeight / 3) ∧
      region.width = canvasWidth / 3 ∧ region.height = canvasHeight / 3 := by
  have hr : List.range 3 = [0, 1, 2] := by decide
  interval_cases j <;> simp [buildRegions, hr]

theorem div_eq_of_between {a n x : ℕ} (h1 : a * n ≤ x) (h2 : x < a * n + n) : x / n = a := by
  apply Nat.div_eq_of_lt_le h1
  rw [Nat.succ_mul]
  exact h2

theorem region_index_of_match (canvasWidth canvasHeight : ℕ) (noiseLevel : ℤ) (rnd : ℕ → ℚ)
    (k x y j : ℕ) (region : Region)
    (hget : (buildRegions canvasWidth canvasHeight noiseLevel rnd k)[j]? = some region)
    (hin : inRegion region x y = true) :
    j = 3 * (y / (canvasHeight / 3)) + x / (canvasWidth / 3) := by
  have hj : j < 9 := by
    have h := (List.getElem?_eq_some_iff.mp hget).1
    rwa [buildRegions_length] at h
  obtain ⟨r, hr, hx, hy, hw, hh⟩ :=
    buildRegions_getElem? canvasWidth canvasHeight noiseLevel rnd k j hj
  rw [hget] at hr
  cases hr
  simp only [inRegion, Bool.and_eq_true, decide_eq_true_eq, hx, hy, hw, hh] at hin
  obtain ⟨⟨⟨hx1, hx2⟩, hy1⟩, hy2⟩ := hin
  have ex := div_eq_of_between hx1 hx2
  have ey := div_eq_of_between hy1 hy2
  rw [ex, ey]
  omega

/-- C26: in the region-adaptive mode, for every canvas size and every pixel
`(x, y)`: a region that passes the membership test is the region number
`3 * floor(y / floor(height / 3)) + floor(x / floor(width / 3))` of the
construction order, so at most one region does; one does if and only if
`x < 3 * floor(width / 3)` and `y < 3 * floor(height / 3)`, and it is then the
region the loop applies; every other pixel is left as it is. -/
theorem region_of_pixel (canvasWidth canvasHeight : ℕ) (noiseLevel : ℤ) (rnd : ℕ → ℚ)
    (k x y : ℕ) :
    (∀ (j : ℕ) (region : Region),
      (buildRegions canvasWidth canvasHeight noiseLevel rnd k)[j]? = some region →
      inRegion region x y = true →
      j = 3 * (y / (canvasHeight / 3)) + x / (canvasWidth / 3)) ∧
    ((∃ region ∈ buildRegions canvasWidth canvasHeight noiseLevel rnd k,
      inRegion region x y = true) ↔
      x < 3 * (canvasWidth / 3) ∧ y < 3 * (canvasHeight / 3)) ∧
    (x < 3 * (canvasWidth / 3) ∧ y < 3 * (canvasHeight / 3) →
      ∃ region,
        (buildRegions canvasWidth canvasHeight noiseLevel rnd k)[
          3 * (y / (canvasHeight / 3)) + x / (canvasWidth / 3)]? = some region ∧
        inRegion region x y = true ∧
        ∀ (i : ℕ) (s : PassState),
          regionStep (buildRegions canvasWidth canvasHeight noiseLevel rnd k) rnd x y i s =
            applyRegion region rnd i s) ∧
    (¬ (x < 3 * (canvasWidth / 3) ∧ y < 3 * (canvasHeight / 3)) →
      ∀ (i : ℕ) (s : PassState),
        regionStep (buildRegions canvasWidth canvasHeight noiseLevel rnd k) rnd x y i s = s) := by
  have hiff := region_match_iff canvasWidth canvasHeight noiseLevel rnd k x y
  refine ⟨fun j region hget hin =>
    region_index_of_match canvasWidth canvasHeight noiseLevel rnd k x y j region hget hin,
    hiff, ?_, ?_⟩
  · intro hxy
    obtain ⟨region, hmem, hin⟩ := hiff.mpr hxy
    cases hfind : (buildRegions canvasWidth canvasHeight noiseLevel rnd k).find?
        (fun region => inRegion region x y) with
    | none =>
      rw [List.find?_eq_none] at hfind
      exact absurd hin (hfind region hmem)
    | some found =>
      have hfin : (fun region => inRegion region x y) found = true :=
        List.find?_some (p := fun region => inRegion region x y) hfind
      dsimp only at hfin
      have hfmem := List.mem_of_find?_eq_some hfind
      obtain ⟨j, hj⟩ := List.mem_iff_getElem?.mp hfmem
      have hidx := region_index_of_match canvasWidth canvasHeight noiseLevel rnd k x y j found
        hj hfin
      refine ⟨found, by rw [← hidx]; exact hj, hfin, fun i s => ?_⟩
      unfold regionStep
      rw [hfind]
  · intro hxy i s
    unfold regionStep
    have hnone : (buildRegions canvasWidth canvasHeight noiseLevel rnd k).find?
        (fun region => inRegion region x y) = none := by
      rw [List.find?_eq_none]
      intro region hregion hin
      exact hxy (hiff.mp ⟨region, hregion, hin⟩)
    rw [hnone]

/-! ## The frame of the LSB watermark -/

set_option maxRecDepth 100000 in
theorem lsb_write_keeps_high_bits : ∀ x < 256, ∀ b < 2, ((x &&& 0xFE) ||| b) / 2 = x / 2 := by
  decide

theorem applyWrites_half (data : List ℕ) (hdata : ∀ n ∈ data, n ≤ 255) (ws : List (ℕ × ℕ))
    (hws : ∀ w ∈ ws, w.2 ≤ 1) (idx : ℕ) :
    (applyWrites data ws).getD idx 0 / 2 = data.getD idx 0 / 2 := by
  induction ws using List.reverseRecOn with
  | nil => rfl
  | append_singleton ws w ih =>
    have ih2 := ih (fun v hv => hws v (List.mem_append_left _ hv))
    rw [applyWrites_append]
    show (writeLSB (applyWrites data ws) w.1 w.2).getD idx 0 / 2 = data.getD idx 0 / 2
    by_cases hw : w.1 = idx
    · by_cases hlen : idx < (applyWrites data ws).length
      · rw [hw, writeLSB_getD_self _ _ hlen, ← ih2]
        have hle := getD_le_of_forall hdata idx
        have hb := hws w (List.mem_append_right _ (List.mem_singleton_self w))
        exact lsb_write_keeps_high_bits _ (by omega) _ (by omega)
      · rw [writeLSB_of_le _ _ (by omega)]
        exact ih2
    · rw [writeLSB_getD_ne _ _ hw]
      exact ih2

/-- C25: on every array of 8-bit samples and for every payload of `L` bytes,
`applyLSBWatermark` keeps the length of the array, keeps every sample but for
its least significant bit, and keeps whole every sample that is not the red
sample of one of the pixels `0 .. 15` and `17 .. 16 + 8 * L`: the green, blue
and alpha samples, the red sample of the pixel `16` and the red samples beyond
the pixel `16 + 8 * L`.  The function is total: an array too short for the
payload is handled as any other. -/
theorem lsb_watermark_frame (data bytes : List ℕ) (hdata : ∀ n ∈ data, n ≤ 255) :
    (embedWatermark data bytes).length = data.length ∧
    (∀ idx : ℕ, (embedWatermark data bytes).getD idx 0 / 2 = data.getD idx 0 / 2) ∧
    (∀ idx : ℕ,
      ¬ (idx % 4 = 0 ∧ (idx / 4 < 16 ∨ (17 ≤ idx / 4 ∧ idx / 4 ≤ 16 + 8 * bytes.length))) →
      (embedWatermark data bytes).getD idx 0 = data.getD idx 0) ∧
    (embedWatermark data bytes).getD (16 * 4) 0 = data.getD (16 * 4) 0 := by
  have hframe : ∀ idx : ℕ,
      ¬ (idx % 4 = 0 ∧ (idx / 4 < 16 ∨ (17 ≤ idx / 4 ∧ idx / 4 ≤ 16 + 8 * bytes.length))) →
      (embedWatermark data bytes).getD idx 0 = data.getD idx 0 := by
    intro idx hidx
    rw [embedWatermark_eq]
    apply applyWrites_getD_of_not_mem
    intro w hw hwi
    apply hidx
    rcases List.mem_append.mp hw with h | h
    · obtain ⟨i2, hi2, rfl⟩ := List.mem_map.mp h
      have := List.mem_range.mp hi2
      simp only at hwi
      omega
    · obtain ⟨k2, j2, hk2, hj2, rfl⟩ := (mem_payloadWrites _ _ _).mp h
      simp only at hwi
      omega
  refine ⟨?_, ?_, hframe, hframe _ (by omega)⟩
  · rw [embedWatermark_eq, applyWrites_length]
  · intro idx
    rw [embedWatermark_eq]
    apply applyWrites_half _ hdata
    intro w hw
    rcases List.mem_append.mp hw with h | h
    · obtain ⟨i2, -, rfl⟩ := List.mem_map.mp h
      exact parseBit_le _
    · obtain ⟨k2, j2, -, -, rfl⟩ := (mem_payloadWrites _ _ _).mp h
      exact parseBit_le _

theorem lsb_watermark_frame_witness :
    (∀ n ∈ passInput, n ≤ 255) ∧
    (embedWatermark passInput [88, 72]).length = passInput.length ∧
    (∀ idx : ℕ, (embedWatermark passInput [88, 72]).getD idx 0 / 2 = passInput.getD idx 0 / 2) ∧
    (∀ idx : ℕ,
      ¬ (idx % 4 = 0 ∧ (idx / 4 < 16 ∨ (17 ≤ idx / 4 ∧ idx / 4 ≤ 16 + 8 * [88, 72].length))) →
      (embedWatermark passInput [88, 72]).getD idx 0 = passInput.getD idx 0) ∧
    (embedWatermark passInput [88, 72]).getD (16 * 4) 0 = passInput.getD (16 * 4) 0 :=
  ⟨by decide, lsb_watermark_frame passInput [88, 72] (by decide)⟩

end M3U8Downloader
